import Mathlib

/-!
Verification of the Rubik's cube two-phase solver core.

This file gives a shallow embedding, in Lean 4, of the Rust sources of the
RubiksCube repository (combinatorial math, twist vocabulary, cubie-level
`Corners` and `Edges` states, coordinate cubes, the move-table engine, the
pruning-table BFS and the two-phase solver), and proves or refutes the
behavioural claims made by the repository's specification.

Machine integers (`u8`, `u16`, `u32`, `u64`, `usize`, `i64`) are modelled as
`Nat` with explicit `% 2^w` wherever the source performs a narrowing cast or
wrapping arithmetic; bitwise operators are `Nat.land`/`Nat.lor`/`Nat.xor`/
shifts.  Rust `Vec` tables are modelled as Lean functions or lists built by
the same iteration the source performs.
-/

set_option maxHeartbeats 1000000
set_option maxRecDepth 20000
set_option synthInstance.maxSize 2000
set_option synthInstance.maxHeartbeats 1000000

namespace RubiksCube

/-! ## Combinatorial math (src/math.rs) -/

/-- `factorial(n)`: the precomputed table of `math.rs` (`PRECOMPUTED[n]`,
defined for `n ≤ 20`; out-of-range access panics in Rust and is modelled
here as `0`, a value the repository never uses). -/
def factorial (n : Nat) : Nat :=
  [1, 1, 2, 6, 24, 120, 720, 5040, 40320, 362880, 3628800, 39916800,
   479001600, 6227020800, 87178291200, 1307674368000, 20922789888000,
   355687428096000, 6402373705728000, 121645100408832000,
   2432902008176640000].getD n 0

/-- The `PASCAL` table of `math.rs::binomial` for `n < 13`. -/
def pascalTable : List (List Nat) :=
  [[1, 0, 0, 0, 0, 0, 0, 0, 0, 0, 0, 0, 0],
   [1, 1, 0, 0, 0, 0, 0, 0, 0, 0, 0, 0, 0],
   [1, 2, 1, 0, 0, 0, 0, 0, 0, 0, 0, 0, 0],
   [1, 3, 3, 1, 0, 0, 0, 0, 0, 0, 0, 0, 0],
   [1, 4, 6, 4, 1, 0, 0, 0, 0, 0, 0, 0, 0],
   [1, 5, 10, 10, 5, 1, 0, 0, 0, 0, 0, 0, 0],
   [1, 6, 15, 20, 15, 6, 1, 0, 0, 0, 0, 0, 0],
   [1, 7, 21, 35, 35, 21, 7, 1, 0, 0, 0, 0, 0],
   [1, 8, 28, 56, 70, 56, 28, 8, 1, 0, 0, 0, 0],
   [1, 9, 36, 84, 126, 126, 84, 36, 9, 1, 0, 0, 0],
   [1, 10, 45, 120, 210, 252, 210, 120, 45, 10, 1, 0, 0],
   [1, 11, 55, 165, 330, 462, 462, 330, 165, 55, 11, 1, 0],
   [1, 12, 66, 220, 495, 792, 924, 792, 495, 220, 66, 12, 1]]

/-- The iterative product loop of `math.rs::binomial` for `n ≥ 13`:
`for i in 0..k { result = result * (n - i) / (i + 1) }`. -/
def binomLoop (n : Nat) : Nat → Nat → Nat → Nat
  | _, acc, 0 => acc
  | i, acc, steps + 1 => binomLoop n (i + 1) (acc * (n - i) / (i + 1)) steps

/-- `binomial(n, k)` from `math.rs`: `0` for `k > n`, the Pascal table for
`n < 13`, otherwise the symmetric iterative product. -/
def binomial (n k : Nat) : Nat :=
  if k > n then 0
  else if n < 13 then (pascalTable.getD n []).getD k 0
  else
    let k' := min k (n - k)
    binomLoop n 0 1 k'

/-- The digit-sum loop of `math.rs::is_even_permutation`: repeatedly take
`index % i`, `index /= i` for `i = 2, 3, …` and sum the digits.  The
parameter `j` carries `i - 2`; `fuel` bounds the number of iterations
(structural recursion; any `fuel ≥ index` computes the loop's value). -/
def facDigitSumGo : Nat → Nat → Nat → Nat
  | 0, _, _ => 0
  | fuel + 1, index, j =>
    if index = 0 then 0
    else index % (j + 2) + facDigitSumGo fuel (index / (j + 2)) (j + 1)

/-- The factoradic digit sum of `index`, radices starting at `j + 2`. -/
def facDigitSum (index j : Nat) : Nat :=
  facDigitSumGo index index j

/-- `is_even_permutation(lexicographical_index)` from `math.rs`: parity of
the factoradic digit sum of the index. -/
def is_even_permutation (lexicographical_index : Nat) : Bool :=
  facDigitSum lexicographical_index 0 % 2 == 0

/-- `is_odd_permutation` from `math.rs`. -/
def is_odd_permutation (lexicographical_index : Nat) : Bool :=
  ! is_even_permutation lexicographical_index

/-- `count_ones` of a machine word, modelled on `Nat` by binary recursion
(`fuel ≥ n` computes the exact popcount). -/
def onesGo : Nat → Nat → Nat
  | 0, _ => 0
  | fuel + 1, n => if n = 0 then 0 else n % 2 + onesGo fuel (n / 2)

/-- Popcount (`count_ones`). -/
def ones (n : Nat) : Nat := onesGo n n

/-- The loop body of `math.rs::permutation_index`: for each entry `x`,
`smaller = x - (bitboard & ((1 << x) - 1)).count_ones()`,
`index += smaller * factorial(#remaining entries)`, `bitboard |= 1 << x`. -/
def permIndexGo : List Nat → Nat → Nat
  | [], _ => 0
  | x :: rest, bitboard =>
    (x - ones (bitboard &&& (2 ^ x - 1))) * factorial rest.length
      + permIndexGo rest (bitboard ||| 2 ^ x)

/-- `permutation_index(permutation)` from `math.rs` (Lehmer code via a
bitboard of already-seen elements). -/
def permutation_index (permutation : List Nat) : Nat :=
  permIndexGo permutation 0

/-- `mask &= mask - 1` iterated `k` times (clearing the `k` lowest set
bits), as in `math.rs::nth_permutation`. -/
def clearBits : Nat → Nat → Nat
  | m, 0 => m
  | m, k + 1 => clearBits (m &&& (m - 1)) k

/-- Bitwise complement of a `u64` value: `!m` in Rust. -/
def u64not (m : Nat) : Nat := (2 ^ 64 - 1) ^^^ m

/-- `u64::trailing_zeros`, modelled by binary recursion (`64` for input
`0`, matching Rust; `fuel ≥ x` computes the exact value). -/
def ctzGo : Nat → Nat → Nat
  | 0, _ => 64
  | fuel + 1, x =>
    if x = 0 then 64
    else if x % 2 = 1 then 0
    else ctzGo fuel (x / 2) + 1

/-- Trailing-zero count of a `u64`. -/
def ctz (x : Nat) : Nat := ctzGo x x

/-- The loop of `math.rs::nth_permutation`, iterating `i` from `size - 1`
down to `0`: take `pos = index / i!`, clear the `pos` lowest set bits of
`unused`, select the lowest remaining set bit (`mask & (!mask + 1)`, with
`u64` wrap-around), emit its `trailing_zeros`, and remove it from
`unused`. -/
def nthPermGo : Nat → Nat → Nat → List Nat
  | 0, _, _ => []
  | i + 1, index, unused =>
    let f := factorial i
    let pos := index / f
    let mask := clearBits unused pos
    let selected := mask &&& ((u64not mask + 1) % 2 ^ 64)
    ctz selected :: nthPermGo i (index % f) (unused ^^^ selected)

/-- `nth_permutation(index, size)` from `math.rs`: `unused` starts as the
all-ones 64-bit word. -/
def nth_permutation (index size : Nat) : List Nat :=
  nthPermGo size index (2 ^ 64 - 1)

/-- The inner `while j < combination[i] + 1` loop of
`math.rs::combination_index`: starting at `j`, add
`binomial(n - j', r)` for `j' = j, …, c` (where `r = k - i - 1`); `fuel`
bounds the iteration count (any `fuel ≥ c + 1 - j` computes the loop). -/
def combWhileGo (n r : Nat) : Nat → Nat → Nat → Nat
  | 0, _, _ => 0
  | fuel + 1, j, c =>
    if j < c + 1 then binomial (n - j) r + combWhileGo n r fuel (j + 1) c else 0

/-- The inner while loop of `combination_index`, with fuel discharged. -/
def combIndexWhile (n r j c : Nat) : Nat := combWhileGo n r (c + 1 - j) j c

/-- The outer loop of `math.rs::combination_index`: for each entry `c`,
first `j += 1`, then run the while loop, leaving `j = c + 1`; the number
of elements still to come after the current one is `rest.length`. -/
def combIndexGo (n : Nat) : List Nat → Nat → Nat
  | [], _ => 0
  | c :: rest, j => combIndexWhile n rest.length (j + 1) c + combIndexGo n rest (c + 1)

/-- `combination_index(n, combination)` from `math.rs`. -/
def combination_index (n : Nat) (combination : List Nat) : Nat :=
  combIndexGo n combination 0

/-- The loop of `math.rs::nth_combination`, iterating position `i` over
`0..n` while fewer than `k` entries have been emitted: with
`count = binomial(n - 1 - i, k - size - 1)`, emit `i` if `count > index`,
else subtract `count` from `index`.  (The Rust function returns a
pre-zeroed `Vec` of length `k`; this model returns the emitted prefix,
which for every in-range index is the whole vector.) -/
def nthCombGo (n k : Nat) : Nat → Nat → Nat → Nat → List Nat
  | 0, _, _, _ => []
  | fuel + 1, i, size, index =>
    if i < n ∧ size < k then
      let count := binomial (n - 1 - i) (k - size - 1)
      if count > index then i :: nthCombGo n k fuel (i + 1) (size + 1) index
      else nthCombGo n k fuel (i + 1) size (index - count)
    else []

/-- `nth_combination(n, k, index)` from `math.rs`. -/
def nth_combination (n k index : Nat) : List Nat :=
  if k < 1 ∨ k > n then [] else nthCombGo n k n 0 0 index

/-! ## Lemmas about the combinatorial math -/

theorem factorial_succ_eq : ∀ i < 20, factorial (i + 1) = (i + 1) * factorial i := by
  decide

theorem factorial_pos : ∀ i < 21, 0 < factorial i := by decide

theorem facDigitSumGo_fuel (n : Nat) : ∀ j f f', n ≤ f → n ≤ f' →
    facDigitSumGo f n j = facDigitSumGo f' n j := by
  induction n using Nat.strong_induction_on with
  | _ n ih =>
    intro j f f' hf hf'
    match f, f' with
    | f + 1, f' + 1 =>
      by_cases hn : n = 0
      · simp [facDigitSumGo, hn]
      · have hlt : n / (j + 2) < n := Nat.div_lt_self (Nat.pos_of_ne_zero hn) (by omega)
        simp only [facDigitSumGo, hn, if_false]
        rw [ih _ hlt (j + 1) f f' (by omega) (by omega)]
    | 0, 0 => rfl
    | 0, f' + 1 =>
      have : n = 0 := by omega
      simp [facDigitSumGo, this]
    | f + 1, 0 =>
      have : n = 0 := by omega
      simp [facDigitSumGo, this]

/-- Consecutive lexicographic permutation indices `2k` and `2k + 1` have
factoradic digit sums differing by exactly one. -/
theorem facDigitSum_odd (k : Nat) : facDigitSum (2 * k + 1) 0 = facDigitSum (2 * k) 0 + 1 := by
  unfold facDigitSum
  rcases Nat.eq_zero_or_pos k with hk | hk
  · subst hk; rfl
  · have h1 : facDigitSumGo (2 * k + 1) (2 * k + 1) 0
        = 1 + facDigitSumGo (2 * k) k 1 := by
      simp only [facDigitSumGo]
      have : ¬ (2 * k + 1 = 0) := by omega
      simp only [this, if_false]
      congr 1
      · omega
      · congr 1
        omega
    have h2 : facDigitSumGo (2 * k) (2 * k) 0
        = 0 + facDigitSumGo (2 * k - 1) k 1 := by
      obtain ⟨m, hm⟩ : ∃ m, 2 * k = m + 1 := ⟨2 * k - 1, by omega⟩
      rw [hm]
      simp only [facDigitSumGo]
      have hm0 : ¬ (m + 1 = 0) := by omega
      simp only [hm0, if_false]
      have e1 : (m + 1) % 2 = 0 := by omega
      have e2 : (m + 1) / 2 = k := by omega
      rw [e1, e2]
      simp
    rw [h1, h2, facDigitSumGo_fuel k 1 (2 * k) (2 * k - 1) (by omega) (by omega)]
    omega

/-- `is_even_permutation` flips between `2k` and `2k + 1`. -/
theorem is_even_permutation_flip (k : Nat) :
    is_even_permutation (2 * k + 1) = ! is_even_permutation (2 * k) := by
  simp only [is_even_permutation, facDigitSum_odd k]
  rcases Nat.mod_two_eq_zero_or_one (facDigitSum (2 * k) 0) with h | h <;>
    simp [Nat.add_mod, h]

/-! ## Bit-manipulation lemmas for `nth_permutation`

`nth_permutation` keeps its unused elements as set bits of a 64-bit word
whose bits `8 … 63` stay permanently set (the repository only decodes
permutations on at most eight elements).  The lemmas below split such a
word as `(2^64 - 2^8) + u` with `u < 256` and push all bit operations down
to the low byte, where every needed fact is decided by computation. -/

/-- Bits of `(2^64 - 2^8) + u` for a byte `u`: the low eight bits come
from `u`, bits `8 … 63` are set, higher bits are clear. -/
theorem upper_testBit (u : Nat) (hu : u < 256) (j : Nat) :
    (2 ^ 64 - 2 ^ 8 + u).testBit j =
      if j < 8 then u.testBit j else decide (j < 64) := by
  have h : 2 ^ 64 - 2 ^ 8 + u = 2 ^ 8 * (2 ^ 56 - 1) + u := by norm_num
  rw [h, Nat.testBit_mul_pow_two_add _ hu]
  by_cases hj : j < 8
  · simp [hj]
  · simp only [hj, if_false, Nat.testBit_two_pow_sub_one]
    congr 1
    simp only [eq_iff_iff, decide_eq_decide]
    omega

theorem testBit_false_of_lt {x j : Nat} (hx : x < 256) (hj : 8 ≤ j) :
    x.testBit j = false := by
  apply Nat.testBit_lt_two_pow
  calc x < 256 := hx
    _ = 2 ^ 8 := by norm_num
    _ ≤ 2 ^ j := Nat.pow_le_pow_right (by omega) hj

/-- `((2^64 - 2^8) + u) &&& b = u &&& b` for bytes `u`, `b`. -/
theorem upper_land_byte (u b : Nat) (hu : u < 256) (hb : b < 256) :
    (2 ^ 64 - 2 ^ 8 + u) &&& b = u &&& b := by
  apply Nat.eq_of_testBit_eq
  intro j
  rw [Nat.testBit_land, Nat.testBit_land, upper_testBit u hu j]
  by_cases hj : j < 8
  · simp [hj]
  · rw [if_neg hj, testBit_false_of_lt hb (by omega), Bool.and_false, Bool.and_false]

/-- `((2^64 - 2^8) + u) &&& ((2^64 - 2^8) + v) = (2^64 - 2^8) + (u &&& v)`
for bytes `u`, `v`. -/
theorem upper_land_upper (u v : Nat) (hu : u < 256) (hv : v < 256) :
    (2 ^ 64 - 2 ^ 8 + u) &&& (2 ^ 64 - 2 ^ 8 + v) = 2 ^ 64 - 2 ^ 8 + (u &&& v) := by
  have huv : u &&& v < 256 := by
    calc u &&& v ≤ u := Nat.and_le_left
      _ < 256 := hu
  apply Nat.eq_of_testBit_eq
  intro j
  rw [Nat.testBit_land, upper_testBit u hu j, upper_testBit v hv j,
    upper_testBit _ huv j]
  by_cases hj : j < 8
  · simp [hj]
  · simp [hj]

/-- `((2^64 - 2^8) + u) ^^^ s = (2^64 - 2^8) + (u ^^^ s)` for bytes. -/
theorem upper_xor_byte (u s : Nat) (hu : u < 256) (hs : s < 256) :
    (2 ^ 64 - 2 ^ 8 + u) ^^^ s = 2 ^ 64 - 2 ^ 8 + (u ^^^ s) := by
  have hus : u ^^^ s < 256 := @Nat.xor_lt_two_pow u s 8 (by omega) (by omega)
  apply Nat.eq_of_testBit_eq
  intro j
  rw [Nat.testBit_xor, upper_testBit u hu j, upper_testBit _ hus j]
  by_cases hj : j < 8
  · simp [hj]
  · rw [if_neg hj, if_neg hj, testBit_false_of_lt hs (by omega), Bool.xor_false]

/-- The byte-complement identity behind `!mask + 1`: complementing a
64-bit word whose bits `8 … 63` are all set yields the complement of its
low byte. -/
theorem upper_not (v : Nat) (hv : v < 256) :
    u64not (2 ^ 64 - 2 ^ 8 + v) = 255 - v := by
  have hb : ∀ v' < 256, ∀ j < 8, (255 - v').testBit j = ! v'.testBit j := by decide
  apply Nat.eq_of_testBit_eq
  intro j
  unfold u64not
  rw [Nat.testBit_xor, Nat.testBit_two_pow_sub_one, upper_testBit v hv j]
  by_cases hj : j < 8
  · rw [if_pos hj, hb v hv j hj]
    simp [show j < 64 by omega]
  · rw [if_neg hj, testBit_false_of_lt (by omega) (by omega)]
    by_cases hj64 : j < 64 <;> simp [hj64]

/-- One `mask &= mask - 1` step on an upper-saturated word acts on the low
byte alone. -/
theorem upper_clear_one (u : Nat) (hu : u < 256) (hu0 : 0 < u) :
    (2 ^ 64 - 2 ^ 8 + u) &&& (2 ^ 64 - 2 ^ 8 + u - 1) = 2 ^ 64 - 2 ^ 8 + (u &&& (u - 1)) := by
  have h : 2 ^ 64 - 2 ^ 8 + u - 1 = 2 ^ 64 - 2 ^ 8 + (u - 1) := by omega
  rw [h, upper_land_upper u (u - 1) hu (by omega)]

theorem clearBits_le (m : Nat) : ∀ k, clearBits m k ≤ m := by
  intro k
  induction k generalizing m with
  | zero => exact Nat.le_refl m
  | succ k ih =>
    calc clearBits m (k + 1) = clearBits (m &&& (m - 1)) k := rfl
      _ ≤ m &&& (m - 1) := ih _
      _ ≤ m := Nat.and_le_left

/-- Byte-level facts about one `mask &= mask - 1` step. -/
theorem byte_clear_one : ∀ u < 256, 0 < u →
    ones (u &&& (u - 1)) = ones u - 1 ∧ 0 < ones u := by decide

theorem byte_pos_of_ones : ∀ u < 256, 0 < ones u → 0 < u := by decide

/-- Clearing `pos < ones u` lowest set bits of an upper-saturated word
acts on the low byte alone, and leaves a nonzero byte. -/
theorem upper_clearBits (pos : Nat) : ∀ u, u < 256 → pos < ones u →
    clearBits (2 ^ 64 - 2 ^ 8 + u) pos = 2 ^ 64 - 2 ^ 8 + clearBits u pos ∧
    0 < ones (clearBits u pos) ∧ ones (clearBits u pos) = ones u - pos := by
  induction pos with
  | zero =>
    intro u _ h
    exact ⟨rfl, h, (Nat.sub_zero _).symm⟩
  | succ pos ih =>
    intro u hu hpos
    have hones0 : 0 < ones u := by omega
    have hu0 : 0 < u := byte_pos_of_ones u hu hones0
    have hc := byte_clear_one u hu hu0
    have hle : u &&& (u - 1) ≤ u := Nat.and_le_left
    have step : clearBits (2 ^ 64 - 2 ^ 8 + u) (pos + 1)
        = clearBits ((2 ^ 64 - 2 ^ 8 + u) &&& (2 ^ 64 - 2 ^ 8 + u - 1)) pos := rfl
    have stepl : clearBits u (pos + 1) = clearBits (u &&& (u - 1)) pos := rfl
    rw [step, stepl, upper_clear_one u hu hu0]
    have ihr := ih (u &&& (u - 1)) (by omega) (by omega)
    refine ⟨ihr.1, ihr.2.1, ?_⟩
    rw [ihr.2.2, hc.1]
    omega

/-- Selecting the lowest set bit (`mask & (!mask + 1)` with `u64`
wrap-around) of an upper-saturated word with nonzero low byte is a
low-byte computation. -/
theorem upper_selected (v : Nat) (hv : v < 256) (hv0 : 0 < v) :
    (2 ^ 64 - 2 ^ 8 + v) &&& ((u64not (2 ^ 64 - 2 ^ 8 + v) + 1) % 2 ^ 64)
      = v &&& (256 - v) := by
  rw [upper_not v hv]
  have h1 : (255 - v + 1) % 2 ^ 64 = 256 - v := by
    have : 255 - v + 1 = 256 - v := by omega
    rw [this]
    exact Nat.mod_eq_of_lt (by omega)
  rw [h1, upper_land_byte v (256 - v) hv (by omega)]

/-- All byte-level facts about one step of the `nth_permutation` loop on a
low byte `u` whose bits `size … 7` are all set (`size ≤ 8` elements still
available live in the low `size` bits): the popcount of the low window
dominates `pos`, the selected bit sits below `size`, and removing it
preserves the window shape while decrementing the low popcount. -/
theorem byte_step (size : Nat) (hsize : size < 9) : ∀ u < 256, ∀ pos < 8,
    (2 ^ 8 - 2 ^ size) &&& u = 2 ^ 8 - 2 ^ size →
    pos + 1 ≤ ones (u &&& (2 ^ size - 1)) →
    (ones (u &&& (2 ^ size - 1)) ≤ ones u ∧
     ctz (clearBits u pos &&& (256 - clearBits u pos)) < size ∧
     clearBits u pos &&& (256 - clearBits u pos) < 256 ∧
     (2 ^ 8 - 2 ^ size) &&& (u ^^^ (clearBits u pos &&& (256 - clearBits u pos)))
       = 2 ^ 8 - 2 ^ size ∧
     ones ((u ^^^ (clearBits u pos &&& (256 - clearBits u pos))) &&& (2 ^ size - 1))
       = ones (u &&& (2 ^ size - 1)) - 1 ∧
     u ^^^ (clearBits u pos &&& (256 - clearBits u pos)) < 256) := by
  interval_cases size <;> decide

/-- Every entry the `nth_permutation` loop emits is below `size`, as long
as the index is in range and the unused-word invariant holds. -/
theorem nthPermGo_entries : ∀ (i size u index : Nat), size < 9 → i ≤ size → u < 256 →
    (2 ^ 8 - 2 ^ size) &&& u = 2 ^ 8 - 2 ^ size →
    ones (u &&& (2 ^ size - 1)) = i →
    index < factorial i →
    ∀ x ∈ nthPermGo i index (2 ^ 64 - 2 ^ 8 + u), x < size := by
  intro i
  induction i with
  | zero => intro size u index _ _ _ _ _ _ x hx; simp [nthPermGo] at hx
  | succ i ih =>
    intro size u index hsize his hu hwin honeslow hidx x hx
    have hfp : 0 < factorial i := factorial_pos i (by omega)
    have hfs : factorial (i + 1) = (i + 1) * factorial i := factorial_succ_eq i (by omega)
    have hpos : index / factorial i < i + 1 := by
      rw [Nat.div_lt_iff_lt_mul hfp]
      omega
    set pos := index / factorial i with hposdef
    have hb := byte_step size hsize u hu pos (by omega) hwin (by omega)
    have hposu : pos < ones u := by omega
    obtain ⟨hcl, hvpos, hvones⟩ := upper_clearBits pos u hu hposu
    set v := clearBits u pos with hv
    have hvlt : v < 256 := Nat.lt_of_le_of_lt (clearBits_le u pos) hu
    have hv0 : 0 < v := byte_pos_of_ones v hvlt hvpos
    have hsel := upper_selected v hvlt hv0
    simp only [nthPermGo, List.mem_cons] at hx
    rw [hcl] at hx
    rcases hx with hx | hx
    · rw [hx, hsel]
      exact hb.2.1
    · have hxorstep : (2 ^ 64 - 2 ^ 8 + u) ^^^ (v &&& (256 - v))
          = 2 ^ 64 - 2 ^ 8 + (u ^^^ (v &&& (256 - v))) :=
        upper_xor_byte u _ hu hb.2.2.1
      rw [hsel, hxorstep] at hx
      exact ih size (u ^^^ (v &&& (256 - v))) (index % factorial i) hsize (by omega)
        hb.2.2.2.2.2 hb.2.2.2.1 (by omega) (Nat.mod_lt _ hfp) x hx

/-- Initial-state byte facts for the `nth_permutation` loop. -/
theorem byte_init : ∀ size < 9,
    (2 ^ 8 - 2 ^ size) &&& 255 = 2 ^ 8 - 2 ^ size ∧
    ones (255 &&& (2 ^ size - 1)) = size := by decide

/-- Entries of `nth_permutation(index, size)` are below `size` whenever
`size ≤ 8` and `index < size!`. -/
theorem nth_permutation_entries {size index : Nat} (hsize : size < 9)
    (hidx : index < factorial size) :
    ∀ x ∈ nth_permutation index size, x < size := by
  have h255 : (2 : Nat) ^ 64 - 1 = 2 ^ 64 - 2 ^ 8 + 255 := by norm_num
  have hi := byte_init size hsize
  intro x hx
  unfold nth_permutation at hx
  rw [h255] at hx
  exact nthPermGo_entries size size 255 index hsize (Nat.le_refl _) (by omega)
    hi.1 hi.2 hidx x hx

/-- `nth_permutation(index, size)` has exactly `size` entries. -/
theorem nth_permutation_length (index size : Nat) :
    (nth_permutation index size).length = size := by
  unfold nth_permutation
  generalize (2 : Nat) ^ 64 - 1 = u
  induction size generalizing index u with
  | zero => rfl
  | succ n ih => simp [nthPermGo, ih]

/-! ## Twist vocabulary (src/twist.rs) -/

/-- The eighteen face turns (`twist.rs::Twist`): for each face, quarter
turn clockwise (`1`), half turn (`2`), quarter counter-clockwise (`3`). -/
inductive Twist
  | L1 | L2 | L3
  | R1 | R2 | R3
  | U1 | U2 | U3
  | D1 | D2 | D3
  | F1 | F2 | F3
  | B1 | B2 | B3
deriving DecidableEq, Repr

/-- The `repr(u8)` discriminant of a twist (`L1 = 0`, …, `B3 = 17`). -/
def Twist.idx : Twist → Nat
  | .L1 => 0 | .L2 => 1 | .L3 => 2
  | .R1 => 3 | .R2 => 4 | .R3 => 5
  | .U1 => 6 | .U2 => 7 | .U3 => 8
  | .D1 => 9 | .D2 => 10 | .D3 => 11
  | .F1 => 12 | .F2 => 13 | .F3 => 14
  | .B1 => 15 | .B2 => 16 | .B3 => 17

/-- All eighteen twists in discriminant order (the order `TwistSet::iter`
yields them by ascending bit scan). -/
def allTwists : List Twist :=
  [.L1, .L2, .L3, .R1, .R2, .R3, .U1, .U2, .U3,
   .D1, .D2, .D3, .F1, .F2, .F3, .B1, .B2, .B3]

/-- `twist.rs::inversed`: `(F1, F3)` swap, `F2` self-inverse. -/
def inversed : Twist → Twist
  | .L1 => .L3 | .L2 => .L2 | .L3 => .L1
  | .R1 => .R3 | .R2 => .R2 | .R3 => .R1
  | .U1 => .U3 | .U2 => .U2 | .U3 => .U1
  | .D1 => .D3 | .D2 => .D2 | .D3 => .D1
  | .F1 => .F3 | .F2 => .F2 | .F3 => .F1
  | .B1 => .B3 | .B2 => .B2 | .B3 => .B1

namespace Twists

/-- `Twists::all()`: the 18-bit all-twists bitmap. -/
def all : Nat := 0b111111111111111111

/-- `Twists::h0()`: `{L2, R2, U1, U2, U3, D1, D2, D3, F2, B2}`. -/
def h0 : Nat := 0b010010111111010010

/-- `Twists::face_of(t)`: the 3-bit bitmap of twists sharing `t`'s face. -/
def face_of (t : Twist) : Nat :=
  match t with
  | .L1 | .L2 | .L3 => 0b000000000000000111
  | .R1 | .R2 | .R3 => 0b000000000000111000
  | .U1 | .U2 | .U3 => 0b000000000111000000
  | .D1 | .D2 | .D3 => 0b000000111000000000
  | .F1 | .F2 | .F3 => 0b000111000000000000
  | .B1 | .B2 | .B3 => 0b111000000000000000

/-- `Twists::contains`: bit test against the bitmap. -/
def contains (bits : Nat) (t : Twist) : Bool := bits.testBit t.idx

/-- The list of twists a bitmap's `iter` yields: ascending bit scan over
the discriminants. -/
def iterList (bits : Nat) : List Twist := allTwists.filter (contains bits)

end Twists

/-- `h0` as a twist list (the order `TwistSet::h0().iter()` yields). -/
def h0List : List Twist := Twists.iterList Twists.h0

/-! ## Corner cubies (src/corners.rs) -/

/-- `Corners`: eight bytes, each packing a cubie id (bits 0–3) and an
orientation (bits 4–7). -/
structure Corners where
  s : List Nat
deriving DecidableEq, Repr

namespace Corners

def PRM_SIZE : Nat := factorial 8
def ORI_SIZE : Nat := 3 ^ 7
def INDEX_SIZE : Nat := PRM_SIZE * ORI_SIZE

/-- `Corners::new`: pack `corners[i] | (orientations[i] << 4)`. -/
def new (corners orientations : List Nat) : Corners :=
  ⟨List.zipWith (fun c o => c ||| (o <<< 4)) corners orientations⟩

def solved : Corners := ⟨[0, 1, 2, 3, 4, 5, 6, 7]⟩

def cubie (c : Corners) (i : Nat) : Nat := c.s.getD i 0 &&& 0x0F

def orientation (c : Corners) (i : Nat) : Nat := c.s.getD i 0 >>> 4

def cubies (c : Corners) : List Nat := (List.range 8).map c.cubie

def orientations (c : Corners) : List Nat := (List.range 8).map c.orientation

end Corners

/-- `corners.rs::ori_swap_0_1` on one byte (`!state` is the `u8`
complement, modelled as xor with `255`). -/
def ori_swap_0_1 (state : Nat) : Nat := (((255 ^^^ state) &&& 0x20) >>> 1) ^^^ state

/-- `corners.rs::ori_swap_0_2` on one byte. -/
def ori_swap_0_2 (state : Nat) : Nat := (0x20 - (state &&& 0x30)) ||| (state &&& 0x0F)

/-- `corners.rs::ori_swap_1_2` on one byte. -/
def ori_swap_1_2 (state : Nat) : Nat :=
  (state &&& 0x0F) ||| ((state &&& 0x20) >>> 1) ||| ((state &&& 0x10) <<< 1)

/-- `for i in [0, 2, 4, 6] { s[i] = ori_swap_0_2(s[i]) }` on an 8-byte
array, written out slot by slot. -/
def ori_swap_l (s : List Nat) : List Nat :=
  [ori_swap_0_2 (s.getD 0 0), s.getD 1 0, ori_swap_0_2 (s.getD 2 0), s.getD 3 0,
   ori_swap_0_2 (s.getD 4 0), s.getD 5 0, ori_swap_0_2 (s.getD 6 0), s.getD 7 0]

/-- `ori_swap_0_2` at positions `1, 3, 5, 7`. -/
def ori_swap_r (s : List Nat) : List Nat :=
  [s.getD 0 0, ori_swap_0_2 (s.getD 1 0), s.getD 2 0, ori_swap_0_2 (s.getD 3 0),
   s.getD 4 0, ori_swap_0_2 (s.getD 5 0), s.getD 6 0, ori_swap_0_2 (s.getD 7 0)]

/-- `ori_swap_1_2` at positions `0, 1, 2, 3`. -/
def ori_swap_u (s : List Nat) : List Nat :=
  [ori_swap_1_2 (s.getD 0 0), ori_swap_1_2 (s.getD 1 0), ori_swap_1_2 (s.getD 2 0),
   ori_swap_1_2 (s.getD 3 0), s.getD 4 0, s.getD 5 0, s.getD 6 0, s.getD 7 0]

/-- `ori_swap_1_2` at positions `4, 5, 6, 7`. -/
def ori_swap_d (s : List Nat) : List Nat :=
  [s.getD 0 0, s.getD 1 0, s.getD 2 0, s.getD 3 0, ori_swap_1_2 (s.getD 4 0),
   ori_swap_1_2 (s.getD 5 0), ori_swap_1_2 (s.getD 6 0), ori_swap_1_2 (s.getD 7 0)]

/-- `ori_swap_0_1` at positions `0, 1, 4, 5`. -/
def ori_swap_f (s : List Nat) : List Nat :=
  [ori_swap_0_1 (s.getD 0 0), ori_swap_0_1 (s.getD 1 0), s.getD 2 0, s.getD 3 0,
   ori_swap_0_1 (s.getD 4 0), ori_swap_0_1 (s.getD 5 0), s.getD 6 0, s.getD 7 0]

/-- `ori_swap_0_1` at positions `2, 3, 6, 7`. -/
def ori_swap_b (s : List Nat) : List Nat :=
  [s.getD 0 0, s.getD 1 0, ori_swap_0_1 (s.getD 2 0), ori_swap_0_1 (s.getD 3 0),
   s.getD 4 0, s.getD 5 0, ori_swap_0_1 (s.getD 6 0), ori_swap_0_1 (s.getD 7 0)]

/-- `corners.rs::shuffled`. -/
def shuffled (s : List Nat) (a b c d e f g h : Nat) : List Nat :=
  [s.getD a 0, s.getD b 0, s.getD c 0, s.getD d 0,
   s.getD e 0, s.getD f 0, s.getD g 0, s.getD h 0]

/-- `Corners::twisted`: the hand-coded permutation and orientation update
for each face turn. -/
def Corners.twisted (c : Corners) (t : Twist) : Corners :=
  match t with
  | .L1 => ⟨ori_swap_l (shuffled c.s 2 1 6 3 0 5 4 7)⟩
  | .L2 => ⟨shuffled c.s 6 1 4 3 2 5 0 7⟩
  | .L3 => ⟨ori_swap_l (shuffled c.s 4 1 0 3 6 5 2 7)⟩
  | .R1 => ⟨ori_swap_r (shuffled c.s 0 5 2 1 4 7 6 3)⟩
  | .R2 => ⟨shuffled c.s 0 7 2 5 4 3 6 1⟩
  | .R3 => ⟨ori_swap_r (shuffled c.s 0 3 2 7 4 1 6 5)⟩
  | .U1 => ⟨ori_swap_u (shuffled c.s 1 3 0 2 4 5 6 7)⟩
  | .U2 => ⟨shuffled c.s 3 2 1 0 4 5 6 7⟩
  | .U3 => ⟨ori_swap_u (shuffled c.s 2 0 3 1 4 5 6 7)⟩
  | .D1 => ⟨ori_swap_d (shuffled c.s 0 1 2 3 6 4 7 5)⟩
  | .D2 => ⟨shuffled c.s 0 1 2 3 7 6 5 4⟩
  | .D3 => ⟨ori_swap_d (shuffled c.s 0 1 2 3 5 7 4 6)⟩
  | .F1 => ⟨ori_swap_f (shuffled c.s 4 0 2 3 5 1 6 7)⟩
  | .F2 => ⟨shuffled c.s 5 4 2 3 1 0 6 7⟩
  | .F3 => ⟨ori_swap_f (shuffled c.s 1 5 2 3 0 4 6 7)⟩
  | .B1 => ⟨ori_swap_b (shuffled c.s 0 1 3 7 4 5 2 6)⟩
  | .B2 => ⟨shuffled c.s 0 1 7 6 4 5 3 2⟩
  | .B3 => ⟨ori_swap_b (shuffled c.s 0 1 6 2 4 5 7 3)⟩

/-- `Corners::from_index(prm, ori)`: decode the Lehmer code and the seven
base-3 orientation digits (most significant digit first into `o0`), and
derive the eighth orientation by the encoding's parity constraint. -/
def Corners.from_index (prm ori : Nat) : Corners :=
  let p := nth_permutation prm 8
  let o6 := ori % 3
  let ori1 := ori / 3
  let o5 := ori1 % 3
  let ori2 := ori1 / 3
  let o4 := ori2 % 3
  let ori3 := ori2 / 3
  let o3 := ori3 % 3
  let ori4 := ori3 / 3
  let o2 := ori4 % 3
  let ori5 := ori4 / 3
  let o1 := ori5 % 3
  let ori6 := ori5 / 3
  let o0 := ori6 % 3
  let o7 := (12 + o0 - o1 - o2 + o3 - o4 + o5 + o6) % 3
  Corners.new p [o0, o1, o2, o3, o4, o5, o6, o7]

/-- `Corners::prm_index`. -/
def Corners.prm_index (c : Corners) : Nat := permutation_index c.cubies

/-- `Corners::ori_index`: little-endian base-3 encoding of the first
seven orientations. -/
def Corners.ori_index (c : Corners) : Nat :=
  let o := c.orientations
  o.getD 0 0 + o.getD 1 0 * 3 + o.getD 2 0 * 9 + o.getD 3 0 * 27
    + o.getD 4 0 * 81 + o.getD 5 0 * 243 + o.getD 6 0 * 729

/-- `Corners::from_combined_index`. -/
def Corners.from_combined_index (index : Nat) : Corners :=
  Corners.from_index (index / Corners.ORI_SIZE) (index % Corners.ORI_SIZE)

/-- `Corners::index`. -/
def Corners.index (c : Corners) : Nat :=
  c.prm_index * Corners.ORI_SIZE + c.ori_index

/-! ## Lemmas about `Corners` -/

theorem exists_eight {α : Type _} (l : List α) (hl : l.length = 8) :
    ∃ a b c d e f g h, l = [a, b, c, d, e, f, g, h] := by
  obtain ⟨a, l, rfl⟩ := List.exists_of_length_succ l hl
  simp only [List.length_cons] at hl
  obtain ⟨b, l, rfl⟩ := List.exists_of_length_succ l (show l.length = 6 + 1 by omega)
  simp only [List.length_cons] at hl
  obtain ⟨c, l, rfl⟩ := List.exists_of_length_succ l (show l.length = 5 + 1 by omega)
  simp only [List.length_cons] at hl
  obtain ⟨d, l, rfl⟩ := List.exists_of_length_succ l (show l.length = 4 + 1 by omega)
  simp only [List.length_cons] at hl
  obtain ⟨e, l, rfl⟩ := List.exists_of_length_succ l (show l.length = 3 + 1 by omega)
  simp only [List.length_cons] at hl
  obtain ⟨f, l, rfl⟩ := List.exists_of_length_succ l (show l.length = 2 + 1 by omega)
  simp only [List.length_cons] at hl
  obtain ⟨g, l, rfl⟩ := List.exists_of_length_succ l (show l.length = 1 + 1 by omega)
  simp only [List.length_cons] at hl
  obtain ⟨h, l, rfl⟩ := List.exists_of_length_succ l (show l.length = 0 + 1 by omega)
  simp only [List.length_cons] at hl
  have : l = [] := List.eq_nil_of_length_eq_zero (by omega)
  subst this
  exact ⟨a, b, c, d, e, f, g, h, rfl⟩

/-- A packed byte `c | (o << 4)` unpacks to its two nibbles. -/
theorem byte_pack : ∀ c < 16, ∀ o < 16,
    (c ||| (o <<< 4)) >>> 4 = o ∧ (c ||| (o <<< 4)) &&& 15 = c := by decide

/-- Claim C4: the claim is right and the code is wrong.  `ori_index`
encodes the orientations little-endian (`o0` is the least-significant
base-3 digit) while `from_index` decodes them big-endian (`ori % 3` is
assigned to `o6`), so the round trip fails already at `prm = 0`,
`ori = 1`: the decoded state re-encodes to `729 = 3^6`, not `1`.  The
repository's own test `corners.rs::test_index_bijection` asserts exactly
the claimed round trip over `prm, ori < 100` and fails at this input; the
combined-index round trip `index ∘ from_combined_index` fails at `1` the
same way.  (The permutation half of the round trip does hold.) -/
theorem c4_corners_roundtrip_code_bug :
    (Corners.from_index 0 1).ori_index = 729 ∧
    (Corners.from_index 0 1).prm_index = 0 ∧
    (Corners.from_combined_index 1).index = 729 ∧
    (729 : Nat) ≠ 1 := by decide

/-- Claim C5 (counterexample): the orientations of
`Corners::from_index(0, 729)` are `(1, 0, 0, 0, 0, 0, 0, 1)`, whose plain
sum is `2 ≢ 0 (mod 3)`. -/
theorem c5_plain_sum_counterexample :
    ¬ ((Corners.from_index 0 729).orientations.sum % 3 = 0) := by decide

/-- Claim C5 (amended): for every `prm < 40320` and `ori < 2187`, the
eight orientation values of `Corners::from_index(prm, ori)` satisfy the
signed parity constraint of this encoding,
`o0 − o1 − o2 + o3 − o4 + o5 + o6 − o7 ≡ 0 (mod 3)` (equivalently
`o0 + 2·o1 + 2·o2 + o3 + 2·o4 + o5 + o6 + 2·o7 ≡ 0 (mod 3)`): the eighth
orientation is determined from the first seven by this signed constraint,
not by the plain-sum constraint the claim states. -/
theorem c5_signed_orientation_sum (prm ori : Nat) (hp : prm < 40320) (_ho : ori < 2187) :
    ((Corners.from_index prm ori).orientations.getD 0 0
      + 2 * (Corners.from_index prm ori).orientations.getD 1 0
      + 2 * (Corners.from_index prm ori).orientations.getD 2 0
      + (Corners.from_index prm ori).orientations.getD 3 0
      + 2 * (Corners.from_index prm ori).orientations.getD 4 0
      + (Corners.from_index prm ori).orientations.getD 5 0
      + (Corners.from_index prm ori).orientations.getD 6 0
      + 2 * (Corners.from_index prm ori).orientations.getD 7 0) % 3 = 0 := by
  have hplen := nth_permutation_length prm 8
  have hfact : factorial 8 = 40320 := rfl
  have hpent := @nth_permutation_entries 8 prm (by omega) (by omega)
  obtain ⟨a, b, c, d, e, f, g, h, hpeq⟩ := exists_eight _ hplen
  have ha : a < 16 := by have := hpent a (by rw [hpeq]; simp); omega
  have hb : b < 16 := by have := hpent b (by rw [hpeq]; simp); omega
  have hc : c < 16 := by have := hpent c (by rw [hpeq]; simp); omega
  have hd : d < 16 := by have := hpent d (by rw [hpeq]; simp); omega
  have he : e < 16 := by have := hpent e (by rw [hpeq]; simp); omega
  have hf : f < 16 := by have := hpent f (by rw [hpeq]; simp); omega
  have hg : g < 16 := by have := hpent g (by rw [hpeq]; simp); omega
  have hh : h < 16 := by have := hpent h (by rw [hpeq]; simp); omega
  simp only [Corners.from_index]
  rw [hpeq]
  simp only [Corners.new, Corners.orientations, Corners.orientation, List.zipWith,
    show List.range 8 = [0, 1, 2, 3, 4, 5, 6, 7] from rfl,
    List.map, List.getD, List.getI, List.get?_eq_getElem?, List.getElem?_cons_zero,
    List.getElem?_cons_succ, Option.getD_some]
  rw [(byte_pack a ha _ (by omega)).1, (byte_pack b hb _ (by omega)).1,
    (byte_pack c hc _ (by omega)).1, (byte_pack d hd _ (by omega)).1,
    (byte_pack e he _ (by omega)).1, (byte_pack f hf _ (by omega)).1,
    (byte_pack g hg _ (by omega)).1, (byte_pack h hh _ (by omega)).1]
  omega

/-! ## Edge cubies (src/edges.rs) -/

/-- `Edges`: twelve bytes, each packing a cubie id (bits 0–3) and an
orientation (bits 4–7).  Cubies `8`–`11` are the slice (middle-layer)
edges. -/
structure Edges where
  s : List Nat
deriving DecidableEq, Repr

namespace Edges

def SLICE_PRM_SIZE : Nat := factorial 4
def NON_SLICE_PRM_SIZE : Nat := factorial 8
def SLICE_LOC_SIZE : Nat := binomial 12 4
def E_ORI_SIZE : Nat := 2 ^ 11

/-- `Edges::new` (the source names the cubie array `corners` too). -/
def new (corners orientations : List Nat) : Edges :=
  ⟨List.zipWith (fun c o => c ||| (o <<< 4)) corners orientations⟩

def cubie (e : Edges) (i : Nat) : Nat := e.s.getD i 0 &&& 0x0F

def orientation (e : Edges) (i : Nat) : Nat := e.s.getD i 0 >>> 4

def cubies (e : Edges) : List Nat := (List.range 12).map e.cubie

def orientations (e : Edges) : List Nat := (List.range 12).map e.orientation

def solved : Edges :=
  new [0, 1, 2, 3, 4, 5, 6, 7, 8, 9, 10, 11] [0, 0, 0, 0, 0, 0, 0, 0, 0, 0, 0, 0]

/-- `Edges::from_index`: interleave the slice permutation (ids shifted to
`8 …`) into the non-slice permutation at the positions named by the
combination index, and decode the eleven orientation bits plus the parity
bit. -/
def from_index (slice_prm non_slice_prm slice_loc_index ori : Nat) : Edges :=
  let slice_loc := nth_combination 12 4 slice_loc_index
  let non_slice := nth_permutation non_slice_prm 8
  let slice := (nth_permutation slice_prm 4).map (fun x => x + 8)
  let e0 := non_slice
  let e1 := e0.insertIdx (slice_loc.getD 0 0) (slice.getD 0 0)
  let e2 := e1.insertIdx (slice_loc.getD 1 0) (slice.getD 1 0)
  let e3 := e2.insertIdx (slice_loc.getD 2 0) (slice.getD 2 0)
  let e4 := e3.insertIdx (slice_loc.getD 3 0) (slice.getD 3 0)
  let o := (List.range 11).map (fun i => (ori >>> i) &&& 1) ++ [ones ori % 2]
  new e4 o

/-- `Edges::slice_prm_index`: the permutation index of the slice cubie
ids (minus `8`) in scan order. -/
def slice_prm_index (e : Edges) : Nat :=
  permutation_index ((e.cubies.filter (fun c => c > 7)).map (fun c => c - 8))

/-- `Edges::non_slice_prm_index`. -/
def non_slice_prm_index (e : Edges) : Nat :=
  permutation_index (e.cubies.filter (fun c => c ≤ 7))

/-- `Edges::slice_loc_index`: the combination index of the positions
holding slice cubies. -/
def slice_loc_index (e : Edges) : Nat :=
  combination_index 12 ((List.range 12).filter (fun i => e.cubie i > 7))

/-- `Edges::ori_index`: `index |= orientation(i) << i` for `i < 11`. -/
def ori_index (e : Edges) : Nat :=
  (List.range 11).foldl (fun acc i => acc ||| (e.orientation i <<< i)) 0

end Edges

/-- `edges.rs::ori_swap_l`: xor `0x10` into positions `4, 7, 8, 11`. -/
def edges_ori_swap_l (s : List Nat) : List Nat :=
  [s.getD 0 0, s.getD 1 0, s.getD 2 0, s.getD 3 0,
   s.getD 4 0 ^^^ 0x10, s.getD 5 0, s.getD 6 0, s.getD 7 0 ^^^ 0x10,
   s.getD 8 0 ^^^ 0x10, s.getD 9 0, s.getD 10 0, s.getD 11 0 ^^^ 0x10]

/-- `edges.rs::ori_swap_r`: xor `0x10` into positions `5, 6, 9, 10`. -/
def edges_ori_swap_r (s : List Nat) : List Nat :=
  [s.getD 0 0, s.getD 1 0, s.getD 2 0, s.getD 3 0,
   s.getD 4 0, s.getD 5 0 ^^^ 0x10, s.getD 6 0 ^^^ 0x10, s.getD 7 0,
   s.getD 8 0, s.getD 9 0 ^^^ 0x10, s.getD 10 0 ^^^ 0x10, s.getD 11 0]

/-- `edges.rs::shuffled` (twelve slots). -/
def edges_shuffled (s : List Nat) (a b c d e f g h i j k l : Nat) : List Nat :=
  [s.getD a 0, s.getD b 0, s.getD c 0, s.getD d 0, s.getD e 0, s.getD f 0,
   s.getD g 0, s.getD h 0, s.getD i 0, s.getD j 0, s.getD k 0, s.getD l 0]

/-- `Edges::twisted` (the `Twistable` impl of `edges.rs`). -/
def Edges.twisted (e : Edges) (t : Twist) : Edges :=
  match t with
  | .L1 => ⟨edges_ori_swap_l (edges_shuffled e.s 0 1 2 3 11 5 6 8 4 9 10 7)⟩
  | .L2 => ⟨edges_shuffled e.s 0 1 2 3 7 5 6 4 11 9 10 8⟩
  | .L3 => ⟨edges_ori_swap_l (edges_shuffled e.s 0 1 2 3 8 5 6 11 7 9 10 4)⟩
  | .R1 => ⟨edges_ori_swap_r (edges_shuffled e.s 0 1 2 3 4 9 10 7 8 6 5 11)⟩
  | .R2 => ⟨edges_shuffled e.s 0 1 2 3 4 6 5 7 8 10 9 11⟩
  | .R3 => ⟨edges_ori_swap_r (edges_shuffled e.s 0 1 2 3 4 10 9 7 8 5 6 11)⟩
  | .U1 => ⟨edges_shuffled e.s 5 4 2 3 0 1 6 7 8 9 10 11⟩
  | .U2 => ⟨edges_shuffled e.s 1 0 2 3 5 4 6 7 8 9 10 11⟩
  | .U3 => ⟨edges_shuffled e.s 4 5 2 3 1 0 6 7 8 9 10 11⟩
  | .D1 => ⟨edges_shuffled e.s 0 1 6 7 4 5 3 2 8 9 10 11⟩
  | .D2 => ⟨edges_shuffled e.s 0 1 3 2 4 5 7 6 8 9 10 11⟩
  | .D3 => ⟨edges_shuffled e.s 0 1 7 6 4 5 2 3 8 9 10 11⟩
  | .F1 => ⟨edges_shuffled e.s 8 1 2 9 4 5 6 7 3 0 10 11⟩
  | .F2 => ⟨edges_shuffled e.s 3 1 2 0 4 5 6 7 9 8 10 11⟩
  | .F3 => ⟨edges_shuffled e.s 9 1 2 8 4 5 6 7 0 3 10 11⟩
  | .B1 => ⟨edges_shuffled e.s 0 10 11 3 4 5 6 7 8 9 2 1⟩
  | .B2 => ⟨edges_shuffled e.s 0 2 1 3 4 5 6 7 8 9 11 10⟩
  | .B3 => ⟨edges_shuffled e.s 0 11 10 3 4 5 6 7 8 9 1 2⟩

/-! ## Coordinate cubes (src/cube.rs) -/

/-- `SubsetCube`: the phase-2 coordinate triple. -/
structure SubsetCube where
  e_slice_prm : Nat
  e_non_slice_prm : Nat
  c_prm : Nat
deriving DecidableEq, Repr

/-- `CosetCube`: the phase-1 coordinate triple. -/
structure CosetCube where
  c_ori : Nat
  e_ori : Nat
  e_slice_loc : Nat
deriving DecidableEq, Repr

namespace SubsetCube

/-- `SubsetCube::INDEX_SIZE = 24 · 40320 · 40320 / 2 = 19'508'428'800`. -/
def INDEX_SIZE : Nat :=
  Edges.SLICE_PRM_SIZE * Edges.NON_SLICE_PRM_SIZE * Corners.PRM_SIZE / 2

/-- `SubsetCube::solved`. -/
def solved : SubsetCube :=
  { c_prm := Corners.solved.prm_index
    e_slice_prm := Edges.solved.slice_prm_index
    e_non_slice_prm := Edges.solved.non_slice_prm_index }

/-- `SubsetCube::index`: the parity-halving dense index. -/
def index (s : SubsetCube) : Nat :=
  s.c_prm / 2 * Edges.SLICE_PRM_SIZE * Edges.NON_SLICE_PRM_SIZE
    + s.e_non_slice_prm * Edges.SLICE_PRM_SIZE
    + s.e_slice_prm

/-- `SubsetCube::from_index`: decode the three coordinates, recovering
the low bit of `c_prm` from the permutation-parity identity. -/
def from_index (index : Nat) : SubsetCube :=
  let e_slice_prm := index % Edges.SLICE_PRM_SIZE
  let index1 := index / Edges.SLICE_PRM_SIZE
  let e_non_slice_prm := index1 % Edges.NON_SLICE_PRM_SIZE
  let index2 := index1 / Edges.NON_SLICE_PRM_SIZE
  let c_prm0 := index2 * 2
  let e_even_prm :=
    ((is_even_permutation e_non_slice_prm).xor (is_even_permutation e_slice_prm)).xor true
  let c_prm := if e_even_prm ≠ is_even_permutation c_prm0 then c_prm0 + 1 else c_prm0
  { e_slice_prm := e_slice_prm, e_non_slice_prm := e_non_slice_prm, c_prm := c_prm }

end SubsetCube

namespace CosetCube

/-- `CosetCube::INDEX_SIZE = 2187 · 2048 · 495 = 2'217'093'120`. -/
def INDEX_SIZE : Nat := Corners.ORI_SIZE * Edges.E_ORI_SIZE * Edges.SLICE_LOC_SIZE

/-- `CosetCube::solved`. -/
def solved : CosetCube :=
  { c_ori := Corners.solved.ori_index
    e_ori := Edges.solved.ori_index
    e_slice_loc := Edges.solved.slice_loc_index }

/-- `CosetCube::in_subset`: equality with the solved coset. -/
def in_subset (c : CosetCube) : Bool := c = solved

/-- `CosetCube::index`. -/
def index (c : CosetCube) : Nat :=
  c.c_ori * (Edges.E_ORI_SIZE * Edges.SLICE_LOC_SIZE)
    + c.e_ori * Edges.SLICE_LOC_SIZE
    + c.e_slice_loc

/-- `CosetCube::from_index`. -/
def from_index (index : Nat) : CosetCube :=
  let e_slice_loc := index % Edges.SLICE_LOC_SIZE
  let index1 := index / Edges.SLICE_LOC_SIZE
  let e_ori := index1 % Edges.E_ORI_SIZE
  let index2 := index1 / Edges.E_ORI_SIZE
  { c_ori := index2, e_ori := e_ori, e_slice_loc := e_slice_loc }

end CosetCube

/-- Claim C6: for every `SubsetCube` whose coordinates are in range and
satisfy the permutation-parity invariant
`parity(c_prm) = parity(e_slice_prm) ⊕ parity(e_non_slice_prm)` (parities
of the lexicographic permutation indices), `from_index ∘ index` is the
identity and the index is below `19'508'428'800`; decoding reconstructs
the low bit of `c_prm` from the parity identity. -/
theorem c6_subset_index_roundtrip (s : SubsetCube)
    (h1 : s.e_slice_prm < 24) (h2 : s.e_non_slice_prm < 40320) (h3 : s.c_prm < 40320)
    (hpar : is_odd_permutation s.c_prm
      = (is_odd_permutation s.e_slice_prm).xor (is_odd_permutation s.e_non_slice_prm)) :
    SubsetCube.from_index s.index = s ∧ s.index < 19508428800 := by
  obtain ⟨esp, ensp, c⟩ := s
  simp only at h1 h2 h3
  simp only [is_odd_permutation] at hpar
  have hsz1 : Edges.SLICE_PRM_SIZE = 24 := rfl
  have hsz2 : Edges.NON_SLICE_PRM_SIZE = 40320 := rfl
  have hidx : SubsetCube.index ⟨esp, ensp, c⟩ = c / 2 * 24 * 40320 + ensp * 24 + esp := by
    simp [SubsetCube.index, hsz1, hsz2]
  refine ⟨?_, ?_⟩
  · unfold SubsetCube.from_index
    rw [hidx, hsz1, hsz2]
    dsimp only
    have e1 : (c / 2 * 24 * 40320 + ensp * 24 + esp) % 24 = esp := by omega
    have e2 : (c / 2 * 24 * 40320 + ensp * 24 + esp) / 24 % 40320 = ensp := by omega
    have e3 : (c / 2 * 24 * 40320 + ensp * 24 + esp) / 24 / 40320 = c / 2 := by omega
    rw [e1, e2, e3]
    simp only [SubsetCube.mk.injEq]
    refine ⟨trivial, trivial, ?_⟩
    have hbool : ∀ ea eb ec : Bool, (!ec) = ((!ea).xor (!eb)) →
        (eb.xor ea).xor true = ec := by
      intro ea eb ec
      cases ea <;> cases eb <;> cases ec <;> decide
    have hcnd := hbool _ _ _ hpar
    rcases Nat.mod_two_eq_zero_or_one c with hc | hc
    · have hc0 : c / 2 * 2 = c := by omega
      rw [hc0, if_neg (by rw [hcnd]; exact fun h => h rfl)]
    · have hodd : c = 2 * (c / 2) + 1 := by omega
      have hc0 : c / 2 * 2 = 2 * (c / 2) := by omega
      have hflip := is_even_permutation_flip (c / 2)
      rw [hc0]
      have h4 : is_even_permutation c = ! is_even_permutation (2 * (c / 2)) := by
        conv_lhs => rw [hodd]
        exact hflip
      have h5 : is_even_permutation (2 * (c / 2)) = ! is_even_permutation c := by
        rw [h4, Bool.not_not]
      have hcond : ((is_even_permutation ensp).xor (is_even_permutation esp)).xor true
          ≠ is_even_permutation (2 * (c / 2)) := by
        rw [h5, hcnd]
        cases is_even_permutation c <;> decide
      rw [if_pos hcond]
      omega
  · rw [hidx]
    omega

/-- Claim C6 witness: the round trip at the solved subset coordinates
`(0, 0, 0)`. -/
theorem c6_subset_index_roundtrip_witness :
    ((0 : Nat) < 24 ∧ (0 : Nat) < 40320 ∧
      is_odd_permutation (0 : Nat)
        = (is_odd_permutation (0 : Nat)).xor (is_odd_permutation (0 : Nat))) ∧
    SubsetCube.from_index (SubsetCube.index ⟨0, 0, 0⟩) = (⟨0, 0, 0⟩ : SubsetCube) ∧
    SubsetCube.index ⟨0, 0, 0⟩ < 19508428800 :=
  ⟨⟨by decide, by decide, by decide⟩,
    c6_subset_index_roundtrip ⟨0, 0, 0⟩ (by decide) (by decide) (by decide) (by decide)⟩

/-! ## Claim C8: twist followed by inverse twist is the identity -/

theorem exists_twelve {α : Type _} (l : List α) (hl : l.length = 12) :
    ∃ a b c d e f g h i j k m,
      l = [a, b, c, d, e, f, g, h, i, j, k, m] := by
  obtain ⟨a, l, rfl⟩ := List.exists_of_length_succ l hl
  simp only [List.length_cons] at hl
  obtain ⟨b, l, rfl⟩ := List.exists_of_length_succ l (show l.length = 10 + 1 by omega)
  simp only [List.length_cons] at hl
  obtain ⟨c, l, rfl⟩ := List.exists_of_length_succ l (show l.length = 9 + 1 by omega)
  simp only [List.length_cons] at hl
  obtain ⟨d, l, rfl⟩ := List.exists_of_length_succ l (show l.length = 8 + 1 by omega)
  simp only [List.length_cons] at hl
  obtain ⟨e, f, g, h, i, j, k, m, rfl⟩ := exists_eight l (by omega)
  exact ⟨a, b, c, d, e, f, g, h, i, j, k, m, rfl⟩

theorem ori_swap_0_2_invol : ∀ b < 48, ori_swap_0_2 (ori_swap_0_2 b) = b := by decide

theorem ori_swap_0_1_invol : ∀ b < 48, ori_swap_0_1 (ori_swap_0_1 b) = b := by decide

theorem ori_swap_1_2_invol : ∀ b < 48, ori_swap_1_2 (ori_swap_1_2 b) = b := by decide

theorem xor16_invol (b : Nat) : (b ^^^ 0x10) ^^^ 0x10 = b := by
  rw [Nat.xor_assoc]
  simp

/-- Any valid corner state (orientation nibbles at most 2, i.e. bytes
below 48) is restored by a twist followed by its inverse. -/
theorem corners_twist_inv (t : Twist) (c : Corners) (hlen : c.s.length = 8)
    (hb : ∀ b ∈ c.s, b < 48) :
    (c.twisted t).twisted (inversed t) = c := by
  obtain ⟨s⟩ := c
  simp only at hlen hb
  obtain ⟨a0, a1, a2, a3, a4, a5, a6, a7, rfl⟩ := exists_eight s hlen
  have h0 : a0 < 48 := hb a0 (by simp)
  have h1 : a1 < 48 := hb a1 (by simp)
  have h2 : a2 < 48 := hb a2 (by simp)
  have h3 : a3 < 48 := hb a3 (by simp)
  have h4 : a4 < 48 := hb a4 (by simp)
  have h5 : a5 < 48 := hb a5 (by simp)
  have h6 : a6 < 48 := hb a6 (by simp)
  have h7 : a7 < 48 := hb a7 (by simp)
  cases t <;>
    simp only [Corners.twisted, inversed, shuffled, ori_swap_l, ori_swap_r, ori_swap_u,
      ori_swap_d, ori_swap_f, ori_swap_b, List.getD_cons_zero, List.getD_cons_succ,
      ori_swap_0_2_invol a0 h0, ori_swap_0_2_invol a1 h1, ori_swap_0_2_invol a2 h2,
      ori_swap_0_2_invol a3 h3, ori_swap_0_2_invol a4 h4, ori_swap_0_2_invol a5 h5,
      ori_swap_0_2_invol a6 h6, ori_swap_0_2_invol a7 h7,
      ori_swap_0_1_invol a0 h0, ori_swap_0_1_invol a1 h1, ori_swap_0_1_invol a2 h2,
      ori_swap_0_1_invol a3 h3, ori_swap_0_1_invol a4 h4, ori_swap_0_1_invol a5 h5,
      ori_swap_0_1_invol a6 h6, ori_swap_0_1_invol a7 h7,
      ori_swap_1_2_invol a0 h0, ori_swap_1_2_invol a1 h1, ori_swap_1_2_invol a2 h2,
      ori_swap_1_2_invol a3 h3, ori_swap_1_2_invol a4 h4, ori_swap_1_2_invol a5 h5,
      ori_swap_1_2_invol a6 h6, ori_swap_1_2_invol a7 h7]

/-- Any edge state is restored by a twist followed by its inverse. -/
theorem edges_twist_inv (t : Twist) (e : Edges) (hlen : e.s.length = 12) :
    (e.twisted t).twisted (inversed t) = e := by
  obtain ⟨s⟩ := e
  simp only at hlen
  obtain ⟨a0, a1, a2, a3, a4, a5, a6, a7, a8, a9, a10, a11, rfl⟩ := exists_twelve s hlen
  cases t <;>
    simp only [Edges.twisted, inversed, edges_shuffled, edges_ori_swap_l, edges_ori_swap_r,
      List.getD_cons_zero, List.getD_cons_succ, xor16_invol]

/-- Claim C8: for every twist `t` among the 18 face turns and every
cubie-level state (any 8-byte `Corners` state with orientations in
`{0, 1, 2}` and any 12-byte `Edges` state), applying `twisted(t)` followed
by `twisted(inversed(t))` restores the original state, where `inversed`
swaps the `F1`/`F3` quarter turns of each face and fixes the half
turns. -/
theorem c8_twist_inverse_identity (t : Twist) (c : Corners) (e : Edges)
    (hc : c.s.length = 8) (hcb : ∀ b ∈ c.s, b < 48) (he : e.s.length = 12) :
    (c.twisted t).twisted (inversed t) = c ∧
    (e.twisted t).twisted (inversed t) = e :=
  ⟨corners_twist_inv t c hc hcb, edges_twist_inv t e he⟩

/-- Claim C8 witness: the round trip at `t = F1` on the solved corner and
edge states. -/
theorem c8_twist_inverse_identity_witness :
    (Corners.solved.s.length = 8 ∧ (∀ b ∈ Corners.solved.s, b < 48) ∧
      Edges.solved.s.length = 12) ∧
    (Corners.solved.twisted .F1).twisted (inversed .F1) = Corners.solved ∧
    (Edges.solved.twisted .F1).twisted (inversed .F1) = Edges.solved :=
  ⟨⟨by decide, by decide, by decide⟩,
    c8_twist_inverse_identity .F1 Corners.solved Edges.solved (by decide) (by decide)
      (by decide)⟩

/-! ## Packed direction-and-distance words (src/tables.rs) -/

namespace DirectionsAndDistance

/-- `DirectionsAndDistance::new(less, more, distance)`: pack the `less`
bitmap into bits 32–63, the `more` bitmap into bits 8–31 and the distance
into bits 0–7 of one 64-bit word. -/
def new (less more distance : Nat) : Nat :=
  (less <<< 32) ||| (more <<< 8) ||| distance

/-- `DirectionsAndDistance::less_distance` (the `as u32` cast keeps the
low 32 bits of the shifted word). -/
def less_distance (v : Nat) : Nat := (v >>> 32) % 2 ^ 32

/-- `DirectionsAndDistance::more_distance`. -/
def more_distance (v : Nat) : Nat := (v >>> 8) &&& 0xFFFFFF

/-- `DirectionsAndDistance::distance`. -/
def distance (v : Nat) : Nat := v &&& 0xFF

end DirectionsAndDistance

/-- The packed word is the plain sum of its three shifted fields when the
bitmaps fit in 24 bits and the distance in 8. -/
theorem directions_new_eq_add (less more d : Nat) (hl : less < 2 ^ 24)
    (hm : more < 2 ^ 24) (hd : d < 2 ^ 8) :
    DirectionsAndDistance.new less more d = less * 2 ^ 32 + more * 2 ^ 8 + d := by
  unfold DirectionsAndDistance.new
  have h1 : more <<< 8 = more * 2 ^ 8 := Nat.shiftLeft_eq more 8
  have h2 : less <<< 32 = less * 2 ^ 32 := Nat.shiftLeft_eq less 32
  rw [h1, h2]
  have h3 : less * 2 ^ 32 ||| more * 2 ^ 8 = less * 2 ^ 32 + more * 2 ^ 8 := by
    rw [Nat.mul_comm less (2 ^ 32)]
    exact (Nat.mul_add_lt_is_or (by omega) less).symm
  rw [h3]
  have h4 : less * 2 ^ 32 + more * 2 ^ 8 = 2 ^ 8 * (less * 2 ^ 24 + more) := by ring
  rw [h4, ← Nat.mul_add_lt_is_or hd, ← h4]

/-- Claim C10: for every pair of twist bitmaps `less`, `more` using only
the low 18 bits and every 8-bit distance `d`, the packed 64-bit word
round-trips exactly — the three fields live in disjoint bit ranges (bits
0–7 distance, 8–31 `more`, 32–63 `less`) and never clobber each other. -/
theorem c10_directions_word_roundtrip (less more d : Nat)
    (hl : less < 2 ^ 18) (hm : more < 2 ^ 18) (hd : d < 2 ^ 8) :
    DirectionsAndDistance.less_distance (DirectionsAndDistance.new less more d) = less ∧
    DirectionsAndDistance.more_distance (DirectionsAndDistance.new less more d) = more ∧
    DirectionsAndDistance.distance (DirectionsAndDistance.new less more d) = d := by
  rw [directions_new_eq_add less more d (by omega) (by omega) hd]
  unfold DirectionsAndDistance.less_distance DirectionsAndDistance.more_distance
    DirectionsAndDistance.distance
  rw [Nat.shiftRight_eq_div_pow, Nat.shiftRight_eq_div_pow,
    show (0xFFFFFF : Nat) = 2 ^ 24 - 1 by norm_num,
    show (0xFF : Nat) = 2 ^ 8 - 1 by norm_num,
    Nat.and_pow_two_sub_one_eq_mod, Nat.and_pow_two_sub_one_eq_mod]
  refine ⟨?_, ?_, ?_⟩ <;> omega

/-- Claim C10 witness: the round trip at `less = 5`, `more = 131072`,
`d = 12`. -/
theorem c10_directions_word_roundtrip_witness :
    ((5 : Nat) < 2 ^ 18 ∧ (131072 : Nat) < 2 ^ 18 ∧ (12 : Nat) < 2 ^ 8) ∧
    DirectionsAndDistance.less_distance (DirectionsAndDistance.new 5 131072 12) = 5 ∧
    DirectionsAndDistance.more_distance (DirectionsAndDistance.new 5 131072 12) = 131072 ∧
    DirectionsAndDistance.distance (DirectionsAndDistance.new 5 131072 12) = 12 :=
  ⟨⟨by decide, by decide, by decide⟩,
    c10_directions_word_roundtrip 5 131072 12 (by decide) (by decide) (by decide)⟩

/-! ## Distance-table BFS (src/tables.rs, `DistanceTable::create`)

`DistanceTable::create` is generic over the state type: it only ever sees
states through `index`/`from_index`, so the model works directly on dense
indices, with `step i t` standing for `index(from_index(i).twisted(t))`.
The parallel level-synchronous loop with atomic compare-exchange claims is
modelled as the sequential level-by-level scan the claim text fixes: the
CAS `0xFF → d+1` becomes "write `d+1` only into a cell currently holding
the sentinel".  The byte array is modelled as a function `Nat → Nat`. -/

namespace DistanceTable

/-- Write `v` into cell `k`. -/
def setCell (tbl : Nat → Nat) (k v : Nat) : Nat → Nat :=
  fun j => if j = k then v else tbl j

/-- Expand one frontier cell `i` at distance `d`: for each allowed twist,
claim the neighbour if it still holds the sentinel (`0xFF → d+1`),
recording in the flag whether any claim succeeded. -/
def expandCell (step : Nat → Twist → Nat) (ts : List Twist) (d i : Nat)
    (acc : (Nat → Nat) × Bool) : (Nat → Nat) × Bool :=
  ts.foldl (fun acc t =>
    if acc.1 (step i t) = 255 then (setCell acc.1 (step i t) (d + 1), true) else acc) acc

/-- One BFS level: scan all indices and expand every cell holding `d`. -/
def runLevel (step : Nat → Twist → Nat) (ts : List Twist) (n d : Nat)
    (tbl : Nat → Nat) : (Nat → Nat) × Bool :=
  (List.range n).foldl
    (fun acc i => if acc.1 i = d then expandCell step ts d i acc else acc) (tbl, false)

/-- The `for d in 0..SENTINEL-1` loop, stopping early when a level claims
nothing. -/
def createLoop (step : Nat → Twist → Nat) (ts : List Twist) (n : Nat) :
    Nat → Nat → (Nat → Nat) → (Nat → Nat)
  | 0, _, tbl => tbl
  | fuel + 1, d, tbl =>
    let r := runLevel step ts n d tbl
    if r.2 then createLoop step ts n fuel (d + 1) r.1 else r.1

/-- The initial table: all sentinel, `0` at the origin's index. -/
def initTable (o : Nat) : Nat → Nat := fun j => if j = o then 0 else 255

/-- `DistanceTable::create` (sequential level-by-level model). -/
def create (step : Nat → Twist → Nat) (ts : List Twist) (n o : Nat) : Nat → Nat :=
  createLoop step ts n 254 0 (initTable o)

/-- The table after the first `d` full levels (no early exit), used to
express the write-once property. -/
def levelTable (step : Nat → Twist → Nat) (ts : List Twist) (n o : Nat) : Nat → Nat → Nat
  | 0 => initTable o
  | d + 1 => (runLevel step ts n d (levelTable step ts n o d)).1

/-- Applying a list of twists, index by index. -/
def walkTo (step : Nat → Twist → Nat) (x : Nat) (l : List Twist) : Nat :=
  l.foldl step x

/-- The state with index `i` is reached from `o` by some sequence of `k`
twists drawn from `ts`. -/
def ReachesIn (step : Nat → Twist → Nat) (ts : List Twist) (o k i : Nat) : Prop :=
  ∃ l : List Twist, (∀ t ∈ l, t ∈ ts) ∧ l.length = k ∧ walkTo step o l = i

/-- `k` is the length of a shortest twist sequence from `o` to `i`. -/
def IsShortest (step : Nat → Twist → Nat) (ts : List Twist) (o k i : Nat) : Prop :=
  ReachesIn step ts o k i ∧ ∀ k' < k, ¬ ReachesIn step ts o k' i

section Lemmas

variable {step : Nat → Twist → Nat} {ts : List Twist} {n o : Nat}

theorem walkTo_lt (hstep : ∀ i < n, ∀ t ∈ ts, step i t < n) :
    ∀ (l : List Twist) (x : Nat), x < n → (∀ t ∈ l, t ∈ ts) → walkTo step x l < n := by
  intro l
  induction l with
  | nil => intro x hx _; exact hx
  | cons t l ih =>
    intro x hx hmem
    exact ih (step x t) (hstep x hx t (hmem t (by simp))) (fun t' ht' => hmem t' (by simp [ht']))

theorem reachesIn_snoc {k y : Nat} (h : ReachesIn step ts o k y) {t : Twist} (ht : t ∈ ts) :
    ReachesIn step ts o (k + 1) (step y t) := by
  obtain ⟨l, hmem, hlen, hwalk⟩ := h
  refine ⟨l ++ [t], ?_, by simp [hlen], ?_⟩
  · intro t' ht'
    rcases List.mem_append.mp ht' with h' | h'
    · exact hmem t' h'
    · simp at h'
      subst h'
      exact ht
  · simp [walkTo, List.foldl_append] at *
    rw [hwalk]

theorem exists_shortest {i : Nat} (h : ∃ k, ReachesIn step ts o k i) :
    ∃ k, IsShortest step ts o k i := by
  classical
  obtain ⟨k, hk⟩ := h
  have hex : ∃ k, ReachesIn step ts o k i := ⟨k, hk⟩
  refine ⟨Nat.find hex, Nat.find_spec hex, ?_⟩
  intro k' hk'
  exact Nat.find_min hex hk'

theorem reachesIn_zero : ReachesIn step ts o 0 o := ⟨[], by simp, rfl, rfl⟩

theorem reachesIn_zero_eq {i : Nat} (h : ReachesIn step ts o 0 i) : i = o := by
  obtain ⟨l, _, hlen, hwalk⟩ := h
  have : l = [] := List.eq_nil_of_length_eq_zero hlen
  subst this
  exact hwalk.symm

/-- A state at shortest distance `k + 1` has a predecessor at shortest
distance `k`. -/
theorem shortest_succ (hstep : ∀ i < n, ∀ t ∈ ts, step i t < n) (ho : o < n)
    {k j : Nat} (h : IsShortest step ts o (k + 1) j) :
    ∃ y t, y < n ∧ t ∈ ts ∧ IsShortest step ts o k y ∧ step y t = j := by
  obtain ⟨⟨l, hmem, hlen, hwalk⟩, hmin⟩ := h
  obtain ⟨l', t, rfl⟩ : ∃ l' t, l = l' ++ [t] := by
    rcases List.eq_nil_or_concat l with h' | ⟨L, b, hc⟩
    · subst h'; simp at hlen
    · exact ⟨L, b, by simpa [List.concat_eq_append] using hc⟩
  have hmem' : ∀ t' ∈ l', t' ∈ ts := fun t' ht' => hmem t' (List.mem_append.mpr (Or.inl ht'))
  have hts : t ∈ ts := hmem t (by simp)
  have hlen' : l'.length = k := by simp at hlen; omega
  set y := walkTo step o l' with hy
  have hreach : ReachesIn step ts o k y := ⟨l', hmem', hlen', rfl⟩
  have hylt : y < n := walkTo_lt hstep l' o ho hmem'
  have hstepy : step y t = j := by
    rw [← hwalk]
    simp [hy, walkTo, List.foldl_append]
  obtain ⟨k', hk'⟩ := exists_shortest ⟨k, hreach⟩
  have hk'le : k' ≤ k := by
    by_contra hgt
    exact hk'.2 k (by omega) hreach
  have hk'ge : k = k' := by
    by_contra hne
    have : ReachesIn step ts o (k' + 1) j := hstepy ▸ reachesIn_snoc hk'.1 hts
    exact hmin (k' + 1) (by omega) this
  exact ⟨y, t, hylt, hts, hk'ge ▸ hk', hstepy⟩

/-- If no state has shortest distance `d + 1`, no state has any shortest
distance above `d`. -/
theorem no_frontier_above (hstep : ∀ i < n, ∀ t ∈ ts, step i t < n) (ho : o < n)
    (d : Nat) (hnone : ∀ j, ¬ IsShortest step ts o (d + 1) j) :
    ∀ k, d < k → ∀ j, ¬ IsShortest step ts o k j := by
  intro k
  induction k with
  | zero => omega
  | succ k ih =>
    intro hk j hj
    rcases Nat.lt_or_ge d k with hdk | hdk
    · obtain ⟨y, t, _, _, hy, _⟩ := shortest_succ hstep ho hj
      exact ih hdk y hy
    · have : k = d := by omega
      subst this
      exact hnone j hj

/-- Pointwise characterisation of an in-progress level table: cells in
the claim set `C` hold `d + 1`, all others still hold their level-start
value. -/
def TblInv (tbl0 : Nat → Nat) (d : Nat) (C : Nat → Prop) (f : Nat → Nat) : Prop :=
  ∀ j, (tbl0 j = 255 ∧ C j → f j = d + 1) ∧ (¬ (tbl0 j = 255 ∧ C j) → f j = tbl0 j)

theorem tblInv_congr {tbl0 : Nat → Nat} {d : Nat} {C C' : Nat → Prop} {f : Nat → Nat}
    (h : ∀ j, tbl0 j = 255 → (C j ↔ C' j)) (hI : TblInv tbl0 d C f) :
    TblInv tbl0 d C' f := by
  intro j
  rcases hI j with ⟨h1, h2⟩
  by_cases hj : tbl0 j = 255
  · constructor
    · intro ⟨hv, hc⟩; exact h1 ⟨hv, (h j hj).mpr hc⟩
    · intro hn; exact h2 (fun ⟨hv, hc⟩ => hn ⟨hv, (h j hj).mp hc⟩)
  · exact ⟨fun ⟨hv, _⟩ => absurd hv hj, fun _ => h2 (fun ⟨hv, _⟩ => hj hv)⟩

/-- Specification of the CAS loop over one cell's twists. -/
theorem expandCell_spec (tbl0 : Nat → Nat) (d i : Nat) (hd : d + 1 ≠ 255) :
    ∀ (l : List Twist) (acc : (Nat → Nat) × Bool) (C : Nat → Prop) (B : Prop),
    TblInv tbl0 d C acc.1 →
    (acc.2 = true ↔ (B ∨ ∃ j, tbl0 j = 255 ∧ C j)) →
    TblInv tbl0 d (fun j => C j ∨ (tbl0 j = 255 ∧ ∃ t ∈ l, step i t = j))
        (l.foldl (fun acc t =>
          if acc.1 (step i t) = 255 then (setCell acc.1 (step i t) (d + 1), true) else acc)
          acc).1 ∧
    ((l.foldl (fun acc t =>
          if acc.1 (step i t) = 255 then (setCell acc.1 (step i t) (d + 1), true) else acc)
          acc).2 = true ↔
      (B ∨ ∃ j, tbl0 j = 255 ∧ (C j ∨ (tbl0 j = 255 ∧ ∃ t ∈ l, step i t = j)))) := by
  intro l
  induction l with
  | nil =>
    intro acc C B hI hB
    simp only [List.foldl_nil, List.mem_nil_iff]
    constructor
    · exact tblInv_congr (by intro j _; simp) hI
    · rw [hB]
      constructor
      · rintro (hb | ⟨j, hj, hc⟩)
        · exact Or.inl hb
        · exact Or.inr ⟨j, hj, Or.inl hc⟩
      · rintro (hb | ⟨j, hj, hc | ⟨_, _, h', _⟩⟩)
        · exact Or.inl hb
        · exact Or.inr ⟨j, hj, hc⟩
        · simp at h'
  | cons t l ih =>
    intro acc C B hI hB
    simp only [List.foldl_cons]
    by_cases hcas : acc.1 (step i t) = 255
    · have hnc : ¬ (tbl0 (step i t) = 255 ∧ C (step i t)) := by
        intro hx
        have := (hI (step i t)).1 hx
        omega
      have ht0 : tbl0 (step i t) = 255 := by
        have := (hI (step i t)).2 hnc
        omega
      rw [if_pos hcas]
      have hI' : TblInv tbl0 d (fun j => C j ∨ j = step i t)
          (setCell acc.1 (step i t) (d + 1)) := by
        intro j
        unfold setCell
        by_cases hj : j = step i t
        · subst hj
          exact ⟨fun _ => by simp, fun hn => absurd ⟨ht0, Or.inr rfl⟩ hn⟩
        · rw [if_neg hj]
          rcases hI j with ⟨h1, h2⟩
          constructor
          · rintro ⟨hv, hc | hc⟩
            · exact h1 ⟨hv, hc⟩
            · exact absurd hc hj
          · intro hn
            exact h2 (fun ⟨hv, hc⟩ => hn ⟨hv, Or.inl hc⟩)
      have hB' : (true = true) ↔ (B ∨ ∃ j, tbl0 j = 255 ∧ (C j ∨ j = step i t)) := by
        simp only [true_iff]
        exact Or.inr ⟨step i t, ht0, Or.inr rfl⟩
      obtain ⟨rI, rB⟩ := ih (setCell acc.1 (step i t) (d + 1), true)
        (fun j => C j ∨ j = step i t) B hI' hB'
      constructor
      · refine tblInv_congr ?_ rI
        intro j hj
        constructor
        · rintro ((hc | hc) | ⟨_, t', ht', hs⟩)
          · exact Or.inl hc
          · exact Or.inr ⟨hj, t, by simp, hc.symm⟩
          · exact Or.inr ⟨hj, t', by simp [ht'], hs⟩
        · rintro (hc | ⟨_, t', ht', hs⟩)
          · exact Or.inl (Or.inl hc)
          · rcases List.mem_cons.mp ht' with h' | h'
            · subst h'
              exact Or.inl (Or.inr hs.symm)
            · exact Or.inr ⟨hj, t', h', hs⟩
      · rw [rB]
        constructor
        · rintro (hb | ⟨j, hj, hc⟩)
          · exact Or.inl hb
          · refine Or.inr ⟨j, hj, ?_⟩
            rcases hc with (hc | hc) | ⟨_, t', ht', hs⟩
            · exact Or.inl hc
            · exact Or.inr ⟨hj, t, by simp, hc.symm⟩
            · exact Or.inr ⟨hj, t', by simp [ht'], hs⟩
        · rintro (hb | ⟨j, hj, hc⟩)
          · exact Or.inl hb
          · refine Or.inr ⟨j, hj, ?_⟩
            rcases hc with hc | ⟨_, t', ht', hs⟩
            · exact Or.inl (Or.inl hc)
            · rcases List.mem_cons.mp ht' with h' | h'
              · subst h'
                exact Or.inl (Or.inr hs.symm)
              · exact Or.inr ⟨hj, t', h', hs⟩
    · rw [if_neg hcas]
      have habs : tbl0 (step i t) = 255 → C (step i t) := by
        intro ht0
        by_contra hnc
        have := (hI (step i t)).2 (fun ⟨_, hc⟩ => hnc hc)
        omega
      obtain ⟨rI, rB⟩ := ih acc C B hI hB
      constructor
      · refine tblInv_congr ?_ rI
        intro j hj
        constructor
        · rintro (hc | ⟨_, t', ht', hs⟩)
          · exact Or.inl hc
          · exact Or.inr ⟨hj, t', by simp [ht'], hs⟩
        · rintro (hc | ⟨_, t', ht', hs⟩)
          · exact Or.inl hc
          · rcases List.mem_cons.mp ht' with h' | h'
            · subst h'
              exact Or.inl (hs ▸ habs (hs ▸ hj))
            · exact Or.inr ⟨hj, t', h', hs⟩
      · rw [rB]
        constructor
        · rintro (hb | ⟨j, hj, hc⟩)
          · exact Or.inl hb
          · refine Or.inr ⟨j, hj, ?_⟩
            rcases hc with hc | ⟨_, t', ht', hs⟩
            · exact Or.inl hc
            · exact Or.inr ⟨hj, t', by simp [ht'], hs⟩
        · rintro (hb | ⟨j, hj, hc⟩)
          · exact Or.inl hb
          · refine Or.inr ⟨j, hj, ?_⟩
            rcases hc with hc | ⟨_, t', ht', hs⟩
            · exact Or.inl hc
            · rcases List.mem_cons.mp ht' with h' | h'
              · subst h'
                exact Or.inl (hs ▸ habs (hs ▸ hj))
              · exact Or.inr ⟨hj, t', h', hs⟩

/-- The claim set of one full level scan over the cells in `lst`. -/
def LClaim (tbl0 : Nat → Nat) (d : Nat) (stp : Nat → Twist → Nat) (tws : List Twist)
    (lst : List Nat) (j : Nat) : Prop :=
  tbl0 j = 255 ∧ ∃ i ∈ lst, tbl0 i = d ∧ ∃ t ∈ tws, stp i t = j

/-- Specification of the scan over a list of cells at level `d`. -/
theorem scan_spec (tbl0 : Nat → Nat) (d : Nat) (hd : d + 1 ≠ 255) (hd' : d ≠ 255) :
    ∀ (lst : List Nat) (acc : (Nat → Nat) × Bool) (C : Nat → Prop) (B : Prop),
    TblInv tbl0 d C acc.1 →
    (acc.2 = true ↔ (B ∨ ∃ j, tbl0 j = 255 ∧ C j)) →
    TblInv tbl0 d (fun j => C j ∨ LClaim tbl0 d step ts lst j)
        (lst.foldl (fun acc i => if acc.1 i = d then expandCell step ts d i acc else acc)
          acc).1 ∧
    ((lst.foldl (fun acc i => if acc.1 i = d then expandCell step ts d i acc else acc)
          acc).2 = true ↔
      (B ∨ ∃ j, tbl0 j = 255 ∧ (C j ∨ LClaim tbl0 d step ts lst j))) := by
  intro lst
  induction lst with
  | nil =>
    intro acc C B hI hB
    simp only [List.foldl_nil]
    constructor
    · refine tblInv_congr ?_ hI
      intro j hj
      simp [LClaim]
    · rw [hB]
      constructor
      · rintro (hb | ⟨j, hj, hc⟩)
        · exact Or.inl hb
        · exact Or.inr ⟨j, hj, Or.inl hc⟩
      · rintro (hb | ⟨j, hj, hc | ⟨_, i, hi, _⟩⟩)
        · exact Or.inl hb
        · exact Or.inr ⟨j, hj, hc⟩
        · simp at hi
  | cons i lst ih =>
    intro acc C B hI hB
    simp only [List.foldl_cons]
    have hacc_i : acc.1 i = d ↔ tbl0 i = d := by
      rcases hI i with ⟨h1, h2⟩
      by_cases hc : tbl0 i = 255 ∧ C i
      · rw [h1 hc]
        constructor
        · omega
        · intro h'; rw [h'] at hc; omega
      · rw [h2 hc]
    by_cases hexp : acc.1 i = d
    · have ht0i : tbl0 i = d := hacc_i.mp hexp
      rw [if_pos hexp]
      have hec := @expandCell_spec step tbl0 d i hd ts acc C B hI hB
      rw [show (ts.foldl (fun acc t =>
            if acc.1 (step i t) = 255 then (setCell acc.1 (step i t) (d + 1), true) else acc)
            acc) = expandCell step ts d i acc from rfl] at hec
      obtain ⟨rI, rB⟩ := ih (expandCell step ts d i acc)
        (fun j => C j ∨ (tbl0 j = 255 ∧ ∃ t ∈ ts, step i t = j)) B hec.1 hec.2
      have hcng : ∀ j, tbl0 j = 255 →
          (((C j ∨ (tbl0 j = 255 ∧ ∃ t ∈ ts, step i t = j)) ∨
              LClaim tbl0 d step ts lst j) ↔
            (C j ∨ LClaim tbl0 d step ts (i :: lst) j)) := by
        intro j hj
        unfold LClaim
        constructor
        · rintro ((hc | ⟨_, t, htm, hs⟩) | ⟨_, i', hi', hrest⟩)
          · exact Or.inl hc
          · exact Or.inr ⟨hj, i, by simp, ht0i, t, htm, hs⟩
          · exact Or.inr ⟨hj, i', by simp [hi'], hrest⟩
        · rintro (hc | ⟨_, i', hi', hrest⟩)
          · exact Or.inl (Or.inl hc)
          · rcases List.mem_cons.mp hi' with h' | h'
            · subst h'
              exact Or.inl (Or.inr ⟨hj, hrest.2⟩)
            · exact Or.inr ⟨hj, i', h', hrest⟩
      refine ⟨tblInv_congr hcng rI, ?_⟩
      rw [rB]
      constructor
      · rintro (hb | ⟨j, hj, hc⟩)
        · exact Or.inl hb
        · exact Or.inr ⟨j, hj, (hcng j hj).mp hc⟩
      · rintro (hb | ⟨j, hj, hc⟩)
        · exact Or.inl hb
        · exact Or.inr ⟨j, hj, (hcng j hj).mpr hc⟩
    · have ht0i : tbl0 i ≠ d := fun h' => hexp (hacc_i.mpr h')
      rw [if_neg hexp]
      obtain ⟨rI, rB⟩ := ih acc C B hI hB
      have hcng : ∀ j, tbl0 j = 255 →
          ((C j ∨ LClaim tbl0 d step ts lst j) ↔
            (C j ∨ LClaim tbl0 d step ts (i :: lst) j)) := by
        intro j hj
        unfold LClaim
        constructor
        · rintro (hc | ⟨_, i', hi', hrest⟩)
          · exact Or.inl hc
          · exact Or.inr ⟨hj, i', by simp [hi'], hrest⟩
        · rintro (hc | ⟨_, i', hi', hrest⟩)
          · exact Or.inl hc
          · rcases List.mem_cons.mp hi' with h' | h'
            · subst h'
              exact absurd hrest.1 ht0i
            · exact Or.inr ⟨hj, i', h', hrest⟩
      refine ⟨tblInv_congr hcng rI, ?_⟩
      rw [rB]
      constructor
      · rintro (hb | ⟨j, hj, hc⟩)
        · exact Or.inl hb
        · exact Or.inr ⟨j, hj, (hcng j hj).mp hc⟩
      · rintro (hb | ⟨j, hj, hc⟩)
        · exact Or.inl hb
        · exact Or.inr ⟨j, hj, (hcng j hj).mpr hc⟩

/-- The one-level specification of `runLevel`: a cell is claimed (set to
`d + 1`) exactly when it holds the sentinel and is the `step`-image of a
frontier cell; the changed flag reports whether any claim happened. -/
theorem runLevel_spec (tbl0 : Nat → Nat) (d : Nat) (hd : d < 254) :
    (∀ j, ((tbl0 j = 255 ∧ ∃ i < n, tbl0 i = d ∧ ∃ t ∈ ts, step i t = j) →
        (runLevel step ts n d tbl0).1 j = d + 1) ∧
      (¬ (tbl0 j = 255 ∧ ∃ i < n, tbl0 i = d ∧ ∃ t ∈ ts, step i t = j) →
        (runLevel step ts n d tbl0).1 j = tbl0 j)) ∧
    ((runLevel step ts n d tbl0).2 = true ↔
      ∃ j, tbl0 j = 255 ∧ ∃ i < n, tbl0 i = d ∧ ∃ t ∈ ts, step i t = j) := by
  have h := @scan_spec step ts tbl0 d (by omega) (by omega)
    (List.range n) (tbl0, false) (fun _ => False) False
    (fun j => ⟨fun ⟨_, hc⟩ => absurd hc id, fun _ => rfl⟩)
    (by simp)
  rw [show ((List.range n).foldl
      (fun acc i => if acc.1 i = d then expandCell step ts d i acc else acc)
      (tbl0, false)) = runLevel step ts n d tbl0 from rfl] at h
  obtain ⟨rI, rB⟩ := h
  have hiff : ∀ j, ((tbl0 j = 255 ∧ (False ∨ LClaim tbl0 d step ts (List.range n) j)) ↔
      (tbl0 j = 255 ∧ ∃ i < n, tbl0 i = d ∧ ∃ t ∈ ts, step i t = j)) := by
    intro j
    unfold LClaim
    simp only [false_or, List.mem_range]
    constructor
    · rintro ⟨hj, _, i, hi, hrest⟩
      exact ⟨hj, i, hi, hrest⟩
    · rintro ⟨hj, i, hi, hrest⟩
      exact ⟨hj, hj, i, hi, hrest⟩
  constructor
  · intro j
    rcases rI j with ⟨h1, h2⟩
    constructor
    · intro hc
      exact h1 ((hiff j).mpr hc)
    · intro hc
      exact h2 (fun hx => hc ((hiff j).mp hx))
  · rw [rB]
    simp only [LClaim, List.mem_range, false_or]
    constructor
    · rintro ⟨j, hj, _, hrest⟩
      exact ⟨j, hj, hrest⟩
    · rintro ⟨j, hj, hrest⟩
      exact ⟨j, hj, hj, hrest⟩

/-- The BFS invariant: after `d` levels, every state whose shortest
distance is at most `d` holds exactly that distance, every other state
still holds the sentinel, and every non-sentinel cell holds a genuine
shortest distance. -/
theorem levelTable_inv (hstep : ∀ i < n, ∀ t ∈ ts, step i t < n) (ho : o < n) :
    ∀ d ≤ 254,
    (∀ i, i < n → ∀ k, IsShortest step ts o k i →
        (k ≤ d → levelTable step ts n o d i = k) ∧
        (d < k → levelTable step ts n o d i = 255)) ∧
    (∀ i, i < n → levelTable step ts n o d i ≠ 255 →
        ∃ k, IsShortest step ts o k i ∧ levelTable step ts n o d i = k ∧ k ≤ d) := by
  intro d
  induction d with
  | zero =>
    intro _
    constructor
    · intro i hi k hk
      constructor
      · intro hk0
        have hk0' : k = 0 := by omega
        subst hk0'
        have : i = o := reachesIn_zero_eq hk.1
        subst this
        simp [levelTable, initTable]
      · intro hpos
        have hio : i ≠ o := by
          intro h'
          subst h'
          exact hk.2 0 (by omega) reachesIn_zero
        simp [levelTable, initTable, hio]
    · intro i _ hv
      have hio : i = o := by
        by_contra h'
        simp [levelTable, initTable, h'] at hv
      subst hio
      refine ⟨0, ⟨reachesIn_zero, by omega⟩, by simp [levelTable, initTable], by omega⟩
  | succ d ih =>
    intro hd254
    obtain ⟨F1, F2⟩ := ih (by omega)
    have hdlt : d < 254 := by omega
    obtain ⟨rCell, _⟩ := @runLevel_spec step ts n
      (levelTable step ts n o d) d hdlt
    have hT' : levelTable step ts n o (d + 1)
        = (runLevel step ts n d (levelTable step ts n o d)).1 := rfl
    have D1 : ∀ i, i < n → levelTable step ts n o d i = d → IsShortest step ts o d i := by
      intro i hi hv
      obtain ⟨k, hk, hvk, _⟩ := F2 i hi (by omega)
      have : k = d := by omega
      subst this
      exact hk
    have D2 : ∀ i, i < n → IsShortest step ts o d i → levelTable step ts n o d i = d :=
      fun i hi hk => (F1 i hi d hk).1 (Nat.le_refl d)
    constructor
    · intro i hi k hk
      constructor
      · intro hkd
        rcases Nat.lt_or_ge k (d + 1) with hlt | hge
        · have hTi : levelTable step ts n o d i = k := (F1 i hi k hk).1 (by omega)
          have hnc : ¬ (levelTable step ts n o d i = 255 ∧
              ∃ i' < n, levelTable step ts n o d i' = d ∧ ∃ t ∈ ts, step i' t = i) := by
            rintro ⟨h255, _⟩
            omega
          rw [hT', (rCell i).2 hnc, hTi]
        · have hkd1 : k = d + 1 := by omega
          subst hkd1
          have hTi : levelTable step ts n o d i = 255 := (F1 i hi _ hk).2 (by omega)
          obtain ⟨y, t, hy, hts, hSPy, hsy⟩ := shortest_succ hstep ho hk
          have hclaim : levelTable step ts n o d i = 255 ∧
              ∃ i' < n, levelTable step ts n o d i' = d ∧ ∃ t' ∈ ts, step i' t' = i :=
            ⟨hTi, y, hy, D2 y hy hSPy, t, hts, hsy⟩
          rw [hT', (rCell i).1 hclaim]
      · intro hgt
        have hTi : levelTable step ts n o d i = 255 := (F1 i hi _ hk).2 (by omega)
        have hnc : ¬ (levelTable step ts n o d i = 255 ∧
            ∃ i' < n, levelTable step ts n o d i' = d ∧ ∃ t ∈ ts, step i' t = i) := by
          rintro ⟨_, i', hi', hvi', t, hts, hst⟩
          have hSPi' := D1 i' hi' hvi'
          have : ReachesIn step ts o (d + 1) i := hst ▸ reachesIn_snoc hSPi'.1 hts
          exact hk.2 (d + 1) (by omega) this
        rw [hT', (rCell i).2 hnc, hTi]
    · intro i hi hv
      rw [hT'] at hv
      by_cases hcl : levelTable step ts n o d i = 255 ∧
          ∃ i' < n, levelTable step ts n o d i' = d ∧ ∃ t ∈ ts, step i' t = i
      · obtain ⟨h255, i', hi', hvi', t, hts, hst⟩ := hcl
        have hSPi' := D1 i' hi' hvi'
        have hreach : ReachesIn step ts o (d + 1) i := hst ▸ reachesIn_snoc hSPi'.1 hts
        obtain ⟨k, hk⟩ := exists_shortest ⟨d + 1, hreach⟩
        have hkle : k ≤ d + 1 := by
          by_contra h'
          exact hk.2 (d + 1) (by omega) hreach
        have hkeq : k = d + 1 := by
          rcases Nat.lt_or_ge k (d + 1) with h' | h'
          · have := (F1 i hi k hk).1 (by omega)
            omega
          · omega
        subst hkeq
        refine ⟨d + 1, hk, ?_, by omega⟩
        rw [hT', (rCell i).1 ⟨h255, i', hi', hvi', t, hts, hst⟩]
      · rw [(rCell i).2 hcl] at hv
        obtain ⟨k, hk, hvk, hkd⟩ := F2 i hi hv
        exact ⟨k, hk, by rw [hT', (rCell i).2 hcl]; exact hvk, by omega⟩

/-- Correctness of the capped loop with early exit, starting at level `d`
with `fuel + d = 254`. -/
theorem createLoop_correct (hstep : ∀ i < n, ∀ t ∈ ts, step i t < n) (ho : o < n)
    (hdiam : ∀ i, i < n → ∀ k, IsShortest step ts o k i → k ≤ 254) :
    ∀ (fuel d : Nat), fuel + d = 254 →
    ∀ i, i < n →
      (∀ k, IsShortest step ts o k i →
        createLoop step ts n fuel d (levelTable step ts n o d) i = k) ∧
      ((∀ k, ¬ ReachesIn step ts o k i) →
        createLoop step ts n fuel d (levelTable step ts n o d) i = 255) := by
  intro fuel
  induction fuel with
  | zero =>
    intro d hfd i hi
    have hd : d = 254 := by omega
    subst hd
    obtain ⟨F1, F2⟩ := levelTable_inv hstep ho 254 (by omega)
    constructor
    · intro k hk
      exact (F1 i hi k hk).1 (hdiam i hi k hk)
    · intro hun
      by_contra hne
      obtain ⟨k, hk, _, _⟩ := F2 i hi hne
      exact hun k hk.1
  | succ fuel ihf =>
    intro d hfd i hi
    have hdlt : d < 254 := by omega
    obtain ⟨F1, F2⟩ := levelTable_inv hstep ho d (by omega)
    obtain ⟨rCell, rCh⟩ := @runLevel_spec step ts n
      (levelTable step ts n o d) d hdlt
    have hT' : (runLevel step ts n d (levelTable step ts n o d)).1
        = levelTable step ts n o (d + 1) := rfl
    have hunfold : createLoop step ts n (fuel + 1) d (levelTable step ts n o d)
        = if (runLevel step ts n d (levelTable step ts n o d)).2 = true then
            createLoop step ts n fuel (d + 1)
              (runLevel step ts n d (levelTable step ts n o d)).1
          else (runLevel step ts n d (levelTable step ts n o d)).1 := rfl
    rw [hunfold]
    by_cases hch : (runLevel step ts n d (levelTable step ts n o d)).2 = true
    · rw [if_pos hch, hT']
      exact ihf (d + 1) (by omega) i hi
    · rw [if_neg hch]
      have hnone : ∀ j, ¬ IsShortest step ts o (d + 1) j := by
        intro j hj
        obtain ⟨y, t, hy, hts, hSPy, hsy⟩ := shortest_succ hstep ho hj
        have hjn : j < n := hsy ▸ hstep y hy t hts
        have hTj : levelTable step ts n o d j = 255 := (F1 j hjn _ hj).2 (by omega)
        have hTy : levelTable step ts n o d y = d := (F1 y hy d hSPy).1 (Nat.le_refl d)
        exact hch (rCh.mpr ⟨j, hTj, y, hy, hTy, t, hts, hsy⟩)
      have hnoabove := no_frontier_above hstep ho d hnone
      constructor
      · intro k hk
        have hkd : k ≤ d := by
          by_contra h'
          exact hnoabove k (by omega) i hk
        have hTi : levelTable step ts n o d i = k := (F1 i hi k hk).1 hkd
        have hnc : ¬ (levelTable step ts n o d i = 255 ∧
            ∃ i' < n, levelTable step ts n o d i' = d ∧ ∃ t ∈ ts, step i' t = i) := by
          rintro ⟨h255, _⟩
          omega
        rw [(rCell i).2 hnc, hTi]
      · intro hun
        have hTi : levelTable step ts n o d i = 255 := by
          by_contra h'
          obtain ⟨k, hk, _, _⟩ := F2 i hi h'
          exact hun k hk.1
        have hnc : ¬ (levelTable step ts n o d i = 255 ∧
            ∃ i' < n, levelTable step ts n o d i' = d ∧ ∃ t ∈ ts, step i' t = i) := by
          rintro ⟨_, i', hi', hvi', t, hts, hst⟩
          obtain ⟨k', hk', hvk', _⟩ := F2 i' hi' (by omega)
          exact hun (k' + 1) (hst ▸ reachesIn_snoc hk'.1 hts)
        rw [(rCell i).2 hnc, hTi]

end Lemmas

/-- Claim C2: after the (sequentially modelled) level-by-level BFS of
`DistanceTable::create` completes, every cell holds exactly the length of
a shortest twist sequence from the origin to the state with that index,
and the sentinel `0xFF` for every unreachable state; moreover a cell's
value changes exactly once, from the sentinel to its shortest distance at
the level equal to that distance, and never changes again.  (The
hypotheses say the index graph is closed under the twist step and that
shortest distances fit in the byte table, as they do for all three tables
the repository builds.) -/
theorem c2_distance_table_bfs (step : Nat → Twist → Nat) (ts : List Twist) (n o : Nat)
    (hstep : ∀ i < n, ∀ t ∈ ts, step i t < n) (ho : o < n)
    (hdiam : ∀ i, i < n → ∀ k, IsShortest step ts o k i → k ≤ 254) :
    (∀ i, i < n → ∀ k, IsShortest step ts o k i → create step ts n o i = k) ∧
    (∀ i, i < n → (∀ k, ¬ ReachesIn step ts o k i) → create step ts n o i = 255) ∧
    (∀ i, i < n → ∀ k, IsShortest step ts o k i → ∀ d, d ≤ 254 →
        levelTable step ts n o d i = if k ≤ d then k else 255) := by
  have hloop := @createLoop_correct step ts n o
    hstep ho hdiam 254 0 (by omega)
  have hcreate : ∀ i, create step ts n o i
      = createLoop step ts n 254 0 (levelTable step ts n o 0) i := fun i => rfl
  refine ⟨?_, ?_, ?_⟩
  · intro i hi k hk
    rw [hcreate i]
    exact (hloop i hi).1 k hk
  · intro i hi hun
    rw [hcreate i]
    exact (hloop i hi).2 hun
  · intro i hi k hk d hd
    obtain ⟨F1, _⟩ := @levelTable_inv step ts n o
      hstep ho d hd
    rcases le_or_lt k d with hkd | hkd
    · rw [if_pos hkd]
      exact (F1 i hi k hk).1 hkd
    · rw [if_neg (by omega)]
      exact (F1 i hi k hk).2 hkd

/-- Claim C2 witness: the theorem applied to the one-state graph whose
single twist is a self-loop at the origin. -/
theorem c2_distance_table_bfs_witness :
    ((0 : Nat) < 1 ∧
      IsShortest (fun _ _ => 0) [Twist.U1] 0 0 0) ∧
    create (fun _ _ => 0) [Twist.U1] 1 0 0 = 0 := by
  have hsp : IsShortest (fun _ _ => 0) [Twist.U1] 0 0 0 :=
    ⟨⟨[], by simp, rfl, rfl⟩, by omega⟩
  have hdiam : ∀ i, i < 1 → ∀ k, IsShortest (fun _ _ => 0) [Twist.U1] 0 k i → k ≤ 254 := by
    intro i hi k hk
    have hi0 : i = 0 := by omega
    subst hi0
    by_contra h'
    exact hk.2 0 (by omega) ⟨[], by simp, rfl, rfl⟩
  exact ⟨⟨by omega, hsp⟩,
    (c2_distance_table_bfs (fun _ _ => 0) [Twist.U1] 1 0
      (fun _ _ _ _ => Nat.zero_lt_one) (by omega) hdiam).1 0 (by omega) 0 hsp⟩

/-- If every allowed twist fixes the origin's index, the BFS never leaves
the origin: the created table is `0` at the origin and the sentinel
everywhere else (its maximum is the sentinel `255`, not a genuine
diameter). -/
theorem create_fixpoint (step : Nat → Twist → Nat) (ts : List Twist) (n o : Nat)
    (hfix : ∀ t ∈ ts, step o t = o) :
    ∀ i, create step ts n o i = initTable o i := by
  obtain ⟨rCell, rCh⟩ := @runLevel_spec step ts n
    (initTable o) 0 (by omega)
  have hnoclaim : ¬ ∃ j, initTable o j = 255 ∧
      ∃ i < n, initTable o i = 0 ∧ ∃ t ∈ ts, step i t = j := by
    rintro ⟨j, hj, i, _, hvi, t, ht, hst⟩
    have hio : i = o := by
      by_cases h' : i = o
      · exact h'
      · simp [initTable, h'] at hvi
    subst hio
    rw [hfix t ht] at hst
    subst hst
    simp [initTable] at hj
  have hch : (runLevel step ts n 0 (initTable o)).2 = false := by
    rw [Bool.eq_false_iff]
    intro h
    exact hnoclaim (rCh.mp h)
  have hunfold : create step ts n o
      = if (runLevel step ts n 0 (initTable o)).2 = true then
          createLoop step ts n 253 1 (runLevel step ts n 0 (initTable o)).1
        else (runLevel step ts n 0 (initTable o)).1 := rfl
  intro i
  rw [hunfold, hch]
  simp only [Bool.false_eq_true, if_false]
  exact (rCell i).2 (fun hx => hnoclaim ⟨i, hx⟩)

end DistanceTable

/-- Modelled from `main.rs::coset_distance_table` (lines 42–59): the twist
set it passes to the distance-table builder for the coset table. -/
def main_coset_table_twists : Nat := Twists.h0

/-- Modelled from `stored_tables.rs::coset_direction_table` (lines
79–111): the twist set it passes to `DirectionsTable::create`. -/
def stored_coset_table_twists : Nat := Twists.all

/-- Claim C7: the claim is right and `main.rs` is wrong.  The coset
pruning table must be built with all 18 face turns (as
`stored_tables.rs::coset_direction_table` does, asserting diameter 12
afterwards), but `main.rs::coset_distance_table` passes `Twists::h0()`.
Every `h0` twist fixes the solved coset at the cubie level, so a BFS over
the coset space seeded at the solved coset with the `h0` twist set never
claims a single cell: the resulting table is `0` at the origin and `0xFF`
everywhere else, nothing like a diameter-12 table. -/
theorem c7_coset_table_twists_code_bug :
    main_coset_table_twists = Twists.h0 ∧
    main_coset_table_twists ≠ Twists.all ∧
    stored_coset_table_twists = Twists.all ∧
    (h0List.all (fun t =>
      ((Corners.solved.twisted t).ori_index == 0 &&
       ((Edges.solved.twisted t).ori_index == 0 &&
        (Edges.solved.twisted t).slice_loc_index == 494))) = true) ∧
    (∀ (step : Nat → Twist → Nat) (n o : Nat),
      (∀ t ∈ h0List, step o t = o) →
      ∀ i, i ≠ o → DistanceTable.create step h0List n o i = 255) := by
  refine ⟨rfl, by decide, rfl, by decide, ?_⟩
  intro step n o hfix i hio
  rw [DistanceTable.create_fixpoint step h0List n o hfix i]
  simp [DistanceTable.initTable, hio]

/-- Claim C7 witness: the degenerate-BFS consequence instantiated with
the coset index space, the identity step (every `h0` twist fixes every
index, as it fixes the solved coset) and the unsolved coset of index 0. -/
theorem c7_coset_table_twists_code_bug_witness :
    (∀ t ∈ h0List, (fun (i : Nat) (_ : Twist) => i) CosetCube.solved.index t
      = CosetCube.solved.index) ∧
    DistanceTable.create (fun i _ => i) h0List CosetCube.INDEX_SIZE
      CosetCube.solved.index 0 = 255 :=
  ⟨fun _ _ => rfl,
    (c7_coset_table_twists_code_bug.2.2.2.2 (fun i _ => i) CosetCube.INDEX_SIZE
      CosetCube.solved.index (fun _ _ => rfl) 0 (by decide))⟩

/-! ## Phase-1 candidate twist sets (src/two_phase.rs) -/

/-- Bitwise complement of a `u32` bitmap (`TwistSet::unset_twists` uses
`self.0 &= !t.0`). -/
def u32not (x : Nat) : Nat := 0xFFFFFFFF ^^^ x

/-- The `relevant_twists` vector built in `TwoPhaseSolver::new`: entry
`i` is the twist bitmap allowed after the twist of discriminant `i`
(entry 18 is for the `Twist::None` root sentinel). -/
def relevant_twists : List Nat :=
  [0b111111111111111000,
   0b111111111111111000,
   0b111111111111111000,
   0b111111111111000000,
   0b111111111111000000,
   0b111111111111000000,
   0b111111111000111111,
   0b111111111000111111,
   0b111111111000111111,
   0b111111000000111111,
   0b111111000000111111,
   0b111111000000111111,
   0b111000111111111111,
   0b111000111111111111,
   0b111000111111111111,
   0b000000111111111111,
   0b000000111111111111,
   0b000000111111111111,
   0b111111111111111111]

/-- The discriminant used to index `relevant_twists` (`Twist::None` is
variant 18). -/
def otwistIdx : Option Twist → Nat
  | some t => t.idx
  | none => 18

/-- `self.relevant_twists[twist as usize]`. -/
def relevantTwists (prev : Option Twist) : Nat :=
  relevant_twists.getD (otwistIdx prev) 0

/-- The candidate twist set of a `search_phase_1` node (two_phase.rs
lines 140–149): start from `relevant_twists[prev]`, keep only the `less`
set when the remaining depth equals the table distance, drop the `more`
set when it exceeds it by one, and drop `h0` at depth 1. -/
def candidateTwists (prev : Option Twist) (p1_depth sd less more : Nat) : Nat :=
  let tw0 := relevantTwists prev
  let tw1 :=
    if p1_depth = sd then tw0 &&& less
    else if p1_depth = sd + 1 then tw0 &&& u32not more
    else tw0
  if p1_depth = 1 then tw1 &&& u32not Twists.h0 else tw1

theorem testBit_land_false {x : Nat} (j : Nat) (h : x.testBit j = false) (y : Nat) :
    (x &&& y).testBit j = false := by
  simp [Nat.testBit_land, h]

/-- Every restriction applied on top of `relevant_twists[prev]` only
removes twists: a bit clear in the relevant set stays clear. -/
theorem candidate_testBit_false (prev : Option Twist) (p1 sd less more j : Nat)
    (h : (relevantTwists prev).testBit j = false) :
    (candidateTwists prev p1 sd less more).testBit j = false := by
  unfold candidateTwists
  dsimp only
  split_ifs with h1 h2 h3 h4 h5 <;>
    first
      | exact h
      | exact testBit_land_false j h _
      | exact testBit_land_false j (testBit_land_false j h _) _

theorem land_eq_zero_of {x m : Nat} (h : ∀ j, m.testBit j = true → x.testBit j = false) :
    x &&& m = 0 := by
  apply Nat.eq_of_testBit_eq
  intro j
  simp only [Nat.testBit_land, Nat.zero_testBit]
  cases hm : m.testBit j with
  | false => simp
  | true => simp [h j hm]

theorem land_testBit_false_right {x m j : Nat} (h : x &&& m = 0)
    (hx : x.testBit j = true) : m.testBit j = false := by
  have := congrArg (fun v => v.testBit j) h
  simp only [Nat.testBit_land, Nat.zero_testBit] at this
  rw [hx] at this
  simpa using this

/-- Claim C9: at a phase-1 node whose previous twist is an R-face, D-face
or B-face twist, the candidate twist set excludes the whole previous face
and the whole opposite face (L, U, F respectively), whatever the depth
and whatever the directions-table bitmaps; hence every twist the node's
bit-scan iteration tries lies on neither of those two faces. -/
theorem c9_opposite_face_exclusion (prev : Twist) (p1 sd less more : Nat) :
    ((prev = .R1 ∨ prev = .R2 ∨ prev = .R3) →
      candidateTwists (some prev) p1 sd less more &&&
        (Twists.face_of .L1 ||| Twists.face_of .R1) = 0) ∧
    ((prev = .D1 ∨ prev = .D2 ∨ prev = .D3) →
      candidateTwists (some prev) p1 sd less more &&&
        (Twists.face_of .U1 ||| Twists.face_of .D1) = 0) ∧
    ((prev = .B1 ∨ prev = .B2 ∨ prev = .B3) →
      candidateTwists (some prev) p1 sd less more &&&
        (Twists.face_of .F1 ||| Twists.face_of .B1) = 0) ∧
    (∀ t ∈ Twists.iterList (candidateTwists (some prev) p1 sd less more),
      ((prev = .R1 ∨ prev = .R2 ∨ prev = .R3) →
        Twists.face_of t &&& (Twists.face_of .L1 ||| Twists.face_of .R1) = 0) ∧
      ((prev = .D1 ∨ prev = .D2 ∨ prev = .D3) →
        Twists.face_of t &&& (Twists.face_of .U1 ||| Twists.face_of .D1) = 0) ∧
      ((prev = .B1 ∨ prev = .B2 ∨ prev = .B3) →
        Twists.face_of t &&& (Twists.face_of .F1 ||| Twists.face_of .B1) = 0)) := by
  have key : ∀ (m : Nat), m < 2 ^ 18 →
      (∀ j < 18, m.testBit j = true → (relevantTwists (some prev)).testBit j = false) →
      candidateTwists (some prev) p1 sd less more &&& m = 0 := by
    intro m hm hrel
    apply land_eq_zero_of
    intro j hj
    have hj18 : j < 18 := by
      by_contra h'
      rw [Nat.testBit_lt_two_pow (Nat.lt_of_lt_of_le hm
        (Nat.pow_le_pow_right (by omega) (by omega)))] at hj
      exact Bool.false_ne_true hj
    exact candidate_testBit_false (some prev) p1 sd less more j (hrel j hj18 hj)
  have hR : (prev = .R1 ∨ prev = .R2 ∨ prev = .R3) →
      candidateTwists (some prev) p1 sd less more &&&
        (Twists.face_of .L1 ||| Twists.face_of .R1) = 0 := by
    intro hprev
    refine key _ (by decide) ?_
    rcases hprev with rfl | rfl | rfl <;> decide
  have hD : (prev = .D1 ∨ prev = .D2 ∨ prev = .D3) →
      candidateTwists (some prev) p1 sd less more &&&
        (Twists.face_of .U1 ||| Twists.face_of .D1) = 0 := by
    intro hprev
    refine key _ (by decide) ?_
    rcases hprev with rfl | rfl | rfl <;> decide
  have hB : (prev = .B1 ∨ prev = .B2 ∨ prev = .B3) →
      candidateTwists (some prev) p1 sd less more &&&
        (Twists.face_of .F1 ||| Twists.face_of .B1) = 0 := by
    intro hprev
    refine key _ (by decide) ?_
    rcases hprev with rfl | rfl | rfl <;> decide
  refine ⟨hR, hD, hB, ?_⟩
  intro t ht
  have hbit : (candidateTwists (some prev) p1 sd less more).testBit t.idx = true := by
    have := List.mem_filter.mp ht
    simpa [Twists.contains] using this.2
  refine ⟨?_, ?_, ?_⟩
  · intro hprev
    have hm := land_testBit_false_right (hR hprev) hbit
    cases t <;> first
      | (exact absurd hm (by decide))
      | decide
  · intro hprev
    have hm := land_testBit_false_right (hD hprev) hbit
    cases t <;> first
      | (exact absurd hm (by decide))
      | decide
  · intro hprev
    have hm := land_testBit_false_right (hB hprev) hbit
    cases t <;> first
      | (exact absurd hm (by decide))
      | decide

/-- Claim C9 witness: the exclusion after `R1` at depth 7, table distance
3 and empty direction bitmaps. -/
theorem c9_opposite_face_exclusion_witness :
    (Twist.R1 = Twist.R1 ∨ Twist.R1 = Twist.R2 ∨ Twist.R1 = Twist.R3) ∧
    candidateTwists (some .R1) 7 3 0 0 &&&
      (Twists.face_of .L1 ||| Twists.face_of .R1) = 0 :=
  ⟨Or.inl rfl, (c9_opposite_face_exclusion .R1 7 3 0 0).1 (Or.inl rfl)⟩

/-! ## The move-table engine (src/twister.rs)

`twister.rs` is written against the source revision in which `Twist` has
a nineteenth variant `Twist::None` (discriminant 18) and the cubie
constructors are named `from_indices`; that revision of `twist.rs`,
`corners.rs` and `edges.rs` is not checked in.  Modelled from the spec:
`Twist::None` is "a distinguished `None` twist used by the solver as an
identity sentinel", so the cubie models treat it as the identity, and the
previous twist is written `Option Twist` with `none` for `Twist::None`. -/

/-- `Corners::twisted` extended to the 19-variant twist enum.  Modelled
from the spec: `Twist::None` is an identity sentinel. -/
def Corners.twistedO (c : Corners) : Option Twist → Corners
  | some t => c.twisted t
  | none => c

/-- `Edges::twisted` extended to the 19-variant twist enum.  Modelled
from the spec: `Twist::None` is an identity sentinel. -/
def Edges.twistedO (e : Edges) : Option Twist → Edges
  | some t => e.twisted t
  | none => e

/-- `COUNT = TwistSet::full_and_none().count()`: the number of table
columns (18 face turns plus the `None` sentinel). -/
def COUNT : Nat := 19

/-- The twist with a given discriminant (`Twist::None` is 18). -/
def twistOfIdx : Nat → Option Twist
  | 0 => some .L1 | 1 => some .L2 | 2 => some .L3
  | 3 => some .R1 | 4 => some .R2 | 5 => some .R3
  | 6 => some .U1 | 7 => some .U2 | 8 => some .U3
  | 9 => some .D1 | 10 => some .D2 | 11 => some .D3
  | 12 => some .F1 | 13 => some .F2 | 14 => some .F3
  | 15 => some .B1 | 16 => some .B2 | 17 => some .B3
  | _ => none

/-- The `c_ori` vector of `Twister::new` as a function of the flat index:
row `i` (one `par_chunks_mut(COUNT)` chunk) column `twist as usize`
holds `Corners::from_indices(0, i).twisted(twist).ori_index() as u16`. -/
def c_ori_tbl (flat : Nat) : Nat :=
  ((Corners.from_index 0 (flat / COUNT)).twistedO (twistOfIdx (flat % COUNT))).ori_index
    % 2 ^ 16

/-- The `c_prm` vector of `Twister::new`: row `i`, column `twist` holds
`Corners::from_indices(i, 0).twisted(twist).prm_index() as u16`. -/
def c_prm_tbl (flat : Nat) : Nat :=
  ((Corners.from_index (flat / COUNT) 0).twistedO (twistOfIdx (flat % COUNT))).prm_index
    % 2 ^ 16

/-- The `e_ori` vector of `Twister::new`: row `i`, column `twist` holds
`Edges::from_indices(0, 0, 0, i).twisted(twist).ori_index() as u16`. -/
def e_ori_tbl (flat : Nat) : Nat :=
  ((Edges.from_index 0 0 0 (flat / COUNT)).twistedO (twistOfIdx (flat % COUNT))).ori_index
    % 2 ^ 16

/-- The `e_slice_prm` vector of `Twister::new`: row `i` decodes as
`(i / SLICE_LOC_SIZE, i % SLICE_LOC_SIZE)` and the entry holds
`Edges::from_indices(i / SLICE_LOC_SIZE, 0, i % SLICE_LOC_SIZE, 0)
.twisted(twist).slice_prm_index() as u8`. -/
def e_slice_prm_tbl (flat : Nat) : Nat :=
  ((Edges.from_index (flat / COUNT / Edges.SLICE_LOC_SIZE) 0
      (flat / COUNT % Edges.SLICE_LOC_SIZE) 0).twistedO
    (twistOfIdx (flat % COUNT))).slice_prm_index % 2 ^ 8

/-- The `e_non_slice_prm` vector of `Twister::new`: row `i` decodes as
`(i / SLICE_LOC_SIZE, i % SLICE_LOC_SIZE)` and the entry holds
`Edges::from_indices(0, i / SLICE_LOC_SIZE, i % SLICE_LOC_SIZE, 0)
.twisted(twist).non_slice_prm_index() as u16`. -/
def e_non_slice_prm_tbl (flat : Nat) : Nat :=
  ((Edges.from_index 0 (flat / COUNT / Edges.SLICE_LOC_SIZE)
      (flat / COUNT % Edges.SLICE_LOC_SIZE) 0).twistedO
    (twistOfIdx (flat % COUNT))).non_slice_prm_index % 2 ^ 16

/-- The `e_slice_loc` vector of `Twister::new`: row `i`, column `twist`
holds `Edges::from_indices(0, 0, i, 0).twisted(twist).slice_loc_index()
as u16`. -/
def e_slice_loc_tbl (flat : Nat) : Nat :=
  ((Edges.from_index 0 0 (flat / COUNT) 0).twistedO
    (twistOfIdx (flat % COUNT))).slice_loc_index % 2 ^ 16

/-- `Twister::twisted_c_ori`: `self.c_ori[c_ori * COUNT + twist as usize]`. -/
def twisted_c_ori (c_ori : Nat) (t : Option Twist) : Nat :=
  c_ori_tbl (c_ori * COUNT + otwistIdx t)

/-- `Twister::twisted_c_prm`. -/
def twisted_c_prm (c_prm : Nat) (t : Option Twist) : Nat :=
  c_prm_tbl (c_prm * COUNT + otwistIdx t)

/-- `Twister::twisted_e_ori`. -/
def twisted_e_ori (e_ori : Nat) (t : Option Twist) : Nat :=
  e_ori_tbl (e_ori * COUNT + otwistIdx t)

/-- `Twister::twisted_e_slice_prm`:
`self.e_slice_prm[(e_slice_prm * SLICE_LOC_SIZE + e_slice_loc) * COUNT + twist]`. -/
def twisted_e_slice_prm (e_slice_prm e_slice_loc : Nat) (t : Option Twist) : Nat :=
  e_slice_prm_tbl ((e_slice_prm * Edges.SLICE_LOC_SIZE + e_slice_loc) * COUNT + otwistIdx t)

/-- `Twister::twisted_e_non_slice_prm`. -/
def twisted_e_non_slice_prm (e_non_slice_prm e_slice_loc : Nat) (t : Option Twist) : Nat :=
  e_non_slice_prm_tbl
    ((e_non_slice_prm * Edges.SLICE_LOC_SIZE + e_slice_loc) * COUNT + otwistIdx t)

/-- `Twister::twisted_e_slice_loc`. -/
def twisted_e_slice_loc (e_slice_loc : Nat) (t : Option Twist) : Nat :=
  e_slice_loc_tbl (e_slice_loc * COUNT + otwistIdx t)

/-! ## Bounds on the coordinate encodings (for the `u8`/`u16` casts) -/

/-- `sumFac n = 0! + 1! + … + (n-1)!`. -/
def sumFac : Nat → Nat
  | 0 => 0
  | n + 1 => factorial n + sumFac n

theorem otwistIdx_le (t : Option Twist) : otwistIdx t ≤ 18 := by
  rcases t with _ | tw
  · exact Nat.le_refl 18
  · cases tw <;> simp [otwistIdx, Twist.idx]

theorem twistOfIdx_otwistIdx (t : Option Twist) : twistOfIdx (otwistIdx t) = t := by
  rcases t with _ | tw
  · rfl
  · cases tw <;> rfl

/-- Each Lehmer digit is at most the entry itself, so a permutation of
values `≤ 7` has index at most `7·(0! + … + (n-1)!)`. -/
theorem permIndexGo_le : ∀ (l : List Nat) (bb : Nat), (∀ x ∈ l, x ≤ 7) →
    permIndexGo l bb ≤ 7 * sumFac l.length := by
  intro l
  induction l with
  | nil => intro bb _; simp [permIndexGo, sumFac]
  | cons x rest ih =>
    intro bb hx
    have h1 : x - ones (bb &&& (2 ^ x - 1)) ≤ 7 :=
      le_trans (Nat.sub_le _ _) (hx x (by simp))
    have h2 := ih (bb ||| 2 ^ x) (fun y hy => hx y (by simp [hy]))
    calc permIndexGo (x :: rest) bb
        = (x - ones (bb &&& (2 ^ x - 1))) * factorial rest.length
          + permIndexGo rest (bb ||| 2 ^ x) := rfl
      _ ≤ 7 * factorial rest.length + 7 * sumFac rest.length :=
          Nat.add_le_add (Nat.mul_le_mul_right _ h1) h2
      _ = 7 * sumFac (rest.length + 1) := by rw [sumFac]; ring
      _ = 7 * sumFac (x :: rest).length := by simp

theorem permutation_index_le (l : List Nat) (h : ∀ x ∈ l, x ≤ 7) :
    permutation_index l ≤ 7 * sumFac l.length :=
  permIndexGo_le l 0 h

theorem sumFac_eight : sumFac 8 = 5914 := by decide

theorem sumFac_four : sumFac 4 = 10 := by decide

/-- Every entry of Pascal's triangle with row at most `11` is at most
`462` (the largest entry of row 11). -/
theorem binomial_le_462 : ∀ m ≤ 11, ∀ r ≤ 11, binomial m r ≤ 462 := by decide

/-- The inner while loop of `combination_index` adds at most `462` per
iteration once `j ≥ 1`. -/
theorem combWhileGo_le (r : Nat) (hr : r ≤ 11) :
    ∀ (fuel j c : Nat), 1 ≤ j → combWhileGo 12 r fuel j c ≤ fuel * 462 := by
  intro fuel
  induction fuel with
  | zero => intro j c _; simp [combWhileGo]
  | succ fuel ih =>
    intro j c hj
    show (if j < c + 1 then binomial (12 - j) r + combWhileGo 12 r fuel (j + 1) c else 0)
        ≤ (fuel + 1) * 462
    split_ifs with hjc
    · have hb : binomial (12 - j) r ≤ 462 := binomial_le_462 (12 - j) (by omega) r hr
      have hrec := ih (j + 1) c (by omega)
      calc binomial (12 - j) r + combWhileGo 12 r fuel (j + 1) c
          ≤ 462 + fuel * 462 := Nat.add_le_add hb hrec
        _ = (fuel + 1) * 462 := by ring
    · exact Nat.zero_le _

theorem combIndexGo_le : ∀ (l : List Nat) (j : Nat), (∀ c ∈ l, c < 12) →
    l.length ≤ 12 → combIndexGo 12 l j ≤ l.length * 5082 := by
  intro l
  induction l with
  | nil => intro j _ _; simp [combIndexGo]
  | cons c rest ih =>
    intro j hc hlen
    have hc12 : c < 12 := hc c (by simp)
    have hr : rest.length ≤ 11 := by simp at hlen; omega
    have hw : combIndexWhile 12 rest.length (j + 1) c ≤ 11 * 462 := by
      have h1 := combWhileGo_le rest.length hr (c + 1 - (j + 1)) (j + 1) c (by omega)
      have h2 : (c + 1 - (j + 1)) * 462 ≤ 11 * 462 := Nat.mul_le_mul_right _ (by omega)
      calc combIndexWhile 12 rest.length (j + 1) c
          = combWhileGo 12 rest.length (c + 1 - (j + 1)) (j + 1) c := rfl
        _ ≤ (c + 1 - (j + 1)) * 462 := h1
        _ ≤ 11 * 462 := h2
    have hrec := ih (c + 1) (fun x hx => hc x (by simp [hx])) (by simp at hlen ⊢; omega)
    calc combIndexGo 12 (c :: rest) j
        = combIndexWhile 12 rest.length (j + 1) c + combIndexGo 12 rest (c + 1) := rfl
      _ ≤ 11 * 462 + rest.length * 5082 := Nat.add_le_add hw hrec
      _ ≤ 5082 + rest.length * 5082 := by omega
      _ = (c :: rest).length * 5082 := by simp; ring

theorem combination_index_le (l : List Nat) (hc : ∀ c ∈ l, c < 12)
    (hlen : l.length ≤ 12) : combination_index 12 l ≤ 60984 := by
  unfold combination_index
  calc combIndexGo 12 l 0 ≤ l.length * 5082 := combIndexGo_le l 0 hc hlen
    _ ≤ 12 * 5082 := Nat.mul_le_mul_right _ hlen
    _ = 60984 := rfl

/-- The well-formedness the corner byte array keeps through twists:
eight bytes, each below `0x30` with a cubie nibble below `8`. -/
def CValidS (s : List Nat) : Prop :=
  s.length = 8 ∧ ∀ b ∈ s, b < 48 ∧ b &&& 0xF < 8

theorem mem_zipWith {f : Nat → Nat → Nat} :
    ∀ {l1 l2 : List Nat} {x : Nat}, x ∈ List.zipWith f l1 l2 →
      ∃ a ∈ l1, ∃ b ∈ l2, x = f a b := by
  intro l1
  induction l1 with
  | nil => intro l2 x hx; simp at hx
  | cons a l1 ih =>
    intro l2 x hx
    cases l2 with
    | nil => simp at hx
    | cons b l2 =>
      rcases List.mem_cons.mp hx with h | h
      · exact ⟨a, by simp, b, by simp, h⟩
      · obtain ⟨a', ha', b', hb', he⟩ := ih h
        exact ⟨a', by simp [ha'], b', by simp [hb'], he⟩

theorem corner_pack_bound : ∀ a < 8, ∀ b < 3,
    (a ||| b <<< 4) < 48 ∧ (a ||| b <<< 4) &&& 0xF = a := by decide

/-- `Corners::from_index` emits a well-formed byte array for every
in-range permutation index. -/
theorem corners_from_index_valid (prm ori : Nat) (hp : prm < 40320) :
    CValidS (Corners.from_index prm ori).s := by
  unfold Corners.from_index
  dsimp only
  constructor
  · show (List.zipWith _ (nth_permutation prm 8) _).length = 8
    rw [List.length_zipWith, nth_permutation_length]
    rfl
  · intro x hx
    obtain ⟨a, ha, b, hb, he⟩ := mem_zipWith hx
    have ha8 : a < 8 := nth_permutation_entries (by omega) (by
      have : factorial 8 = 40320 := rfl
      omega) a ha
    have hb3 : b < 3 := by
      simp only [List.mem_cons, List.not_mem_nil, or_false] at hb
      rcases hb with rfl | rfl | rfl | rfl | rfl | rfl | rfl | rfl <;>
        first
          | exact Nat.mod_lt _ (by omega)
          | omega
    subst he
    exact ⟨(corner_pack_bound a ha8 b hb3).1, by
      rw [(corner_pack_bound a ha8 b hb3).2]; exact ha8⟩

/-- The orientation transform a corner twist applies at one slot:
`0` none, `1` `ori_swap_0_1`, `2` `ori_swap_0_2`, `3` `ori_swap_1_2`. -/
def corner_op (op b : Nat) : Nat :=
  match op with
  | 1 => ori_swap_0_1 b
  | 2 => ori_swap_0_2 b
  | 3 => ori_swap_1_2 b
  | _ => b

/-- `Corners::twisted` written as a slot table: slot `k` of the result is
`corner_op opₖ (s[srcₖ])` for the pair `(srcₖ, opₖ)`. -/
def cornerPairs : Twist → List (Nat × Nat)
  | .L1 => [(2,2),(1,0),(6,2),(3,0),(0,2),(5,0),(4,2),(7,0)]
  | .L2 => [(6,0),(1,0),(4,0),(3,0),(2,0),(5,0),(0,0),(7,0)]
  | .L3 => [(4,2),(1,0),(0,2),(3,0),(6,2),(5,0),(2,2),(7,0)]
  | .R1 => [(0,0),(5,2),(2,0),(1,2),(4,0),(7,2),(6,0),(3,2)]
  | .R2 => [(0,0),(7,0),(2,0),(5,0),(4,0),(3,0),(6,0),(1,0)]
  | .R3 => [(0,0),(3,2),(2,0),(7,2),(4,0),(1,2),(6,0),(5,2)]
  | .U1 => [(1,3),(3,3),(0,3),(2,3),(4,0),(5,0),(6,0),(7,0)]
  | .U2 => [(3,0),(2,0),(1,0),(0,0),(4,0),(5,0),(6,0),(7,0)]
  | .U3 => [(2,3),(0,3),(3,3),(1,3),(4,0),(5,0),(6,0),(7,0)]
  | .D1 => [(0,0),(1,0),(2,0),(3,0),(6,3),(4,3),(7,3),(5,3)]
  | .D2 => [(0,0),(1,0),(2,0),(3,0),(7,0),(6,0),(5,0),(4,0)]
  | .D3 => [(0,0),(1,0),(2,0),(3,0),(5,3),(7,3),(4,3),(6,3)]
  | .F1 => [(4,1),(0,1),(2,0),(3,0),(5,1),(1,1),(6,0),(7,0)]
  | .F2 => [(5,0),(4,0),(2,0),(3,0),(1,0),(0,0),(6,0),(7,0)]
  | .F3 => [(1,1),(5,1),(2,0),(3,0),(0,1),(4,1),(6,0),(7,0)]
  | .B1 => [(0,0),(1,0),(3,1),(7,1),(4,0),(5,0),(2,1),(6,1)]
  | .B2 => [(0,0),(1,0),(7,0),(6,0),(4,0),(5,0),(3,0),(2,0)]
  | .B3 => [(0,0),(1,0),(6,1),(2,1),(4,0),(5,0),(7,1),(3,1)]

theorem corners_twisted_eq_map (t : Twist) (s : List Nat) :
    (Corners.twisted ⟨s⟩ t).s
      = (cornerPairs t).map (fun q => corner_op q.2 (s.getD q.1 0)) := by
  cases t <;> rfl

theorem corner_op_valid : ∀ op < 4, ∀ b < 48, b &&& 0xF < 8 →
    corner_op op b < 48 ∧ corner_op op b &&& 0xF < 8 := by decide

theorem cornerPairs_bounds (t : Twist) : ∀ q ∈ cornerPairs t, q.1 < 8 ∧ q.2 < 4 := by
  cases t <;> decide

theorem cornerPairs_length (t : Twist) : (cornerPairs t).length = 8 := by
  cases t <;> rfl

/-- A corner twist keeps the byte array well formed. -/
theorem CValidS_twisted (t : Twist) (c : Corners) (h : CValidS c.s) :
    CValidS (c.twisted t).s := by
  have he : c = ⟨c.s⟩ := rfl
  rw [he, corners_twisted_eq_map]
  constructor
  · rw [List.length_map, cornerPairs_length]
  · intro x hx
    obtain ⟨q, hq, rfl⟩ := List.mem_map.mp hx
    have hqb := cornerPairs_bounds t q hq
    have hL : c.s.length = 8 := h.1
    have hmem : c.s.getD q.1 0 ∈ c.s := by
      rw [List.getD_eq_getElem c.s 0 (by omega : q.1 < c.s.length)]
      exact List.getElem_mem _
    obtain ⟨hb48, hbn⟩ := h.2 _ hmem
    exact corner_op_valid q.2 hqb.2 _ hb48 hbn

theorem CValidS_twistedO (t : Option Twist) (c : Corners) (h : CValidS c.s) :
    CValidS (c.twistedO t).s := by
  rcases t with _ | tw
  · exact h
  · exact CValidS_twisted tw c h

/-- A well-formed corner state's permutation index fits in a `u16`. -/
theorem prm_index_bound (c : Corners) (h : CValidS c.s) : c.prm_index < 2 ^ 16 := by
  have hle : permutation_index c.cubies ≤ 7 * sumFac c.cubies.length := by
    apply permutation_index_le
    intro x hx
    obtain ⟨i, hi, rfl⟩ := List.mem_map.mp hx
    have hi8 : i < 8 := List.mem_range.mp hi
    have hL : c.s.length = 8 := h.1
    have hmem : c.s.getD i 0 ∈ c.s := by
      rw [List.getD_eq_getElem c.s 0 (by omega : i < c.s.length)]
      exact List.getElem_mem _
    have := (h.2 _ hmem).2
    show c.s.getD i 0 &&& 0xF ≤ 7
    omega
  have hlen : c.cubies.length = 8 := by
    simp [Corners.cubies]
  rw [hlen, sumFac_eight] at hle
  show permutation_index c.cubies < 2 ^ 16
  omega

/-- A well-formed corner state's orientation index is below `3^7`. -/
theorem ori_index_bound (c : Corners) (h : CValidS c.s) : c.ori_index < 2187 := by
  have hL : c.s.length = 8 := h.1
  have horient : ∀ i < 8, c.orientations.getD i 0 ≤ 2 := by
    intro i hi
    have hgd : c.orientations.getD i 0 = c.orientation i := by
      have hlen : c.orientations.length = 8 := by simp [Corners.orientations]
      rw [List.getD_eq_getElem c.orientations 0 (by omega : i < c.orientations.length)]
      simp [Corners.orientations]
    rw [hgd]
    have hmem : c.s.getD i 0 ∈ c.s := by
      rw [List.getD_eq_getElem c.s 0 (by omega : i < c.s.length)]
      exact List.getElem_mem _
    have := (h.2 _ hmem).1
    show c.s.getD i 0 >>> 4 ≤ 2
    rw [Nat.shiftRight_eq_div_pow]
    omega
  have h0 := horient 0 (by omega)
  have h1 := horient 1 (by omega)
  have h2 := horient 2 (by omega)
  have h3 := horient 3 (by omega)
  have h4 := horient 4 (by omega)
  have h5 := horient 5 (by omega)
  have h6 := horient 6 (by omega)
  show c.orientations.getD 0 0 + c.orientations.getD 1 0 * 3 + c.orientations.getD 2 0 * 9
      + c.orientations.getD 3 0 * 27 + c.orientations.getD 4 0 * 81
      + c.orientations.getD 5 0 * 243 + c.orientations.getD 6 0 * 729 < 2187
  omega

theorem binomial_eq_choose : ∀ m ≤ 12, ∀ r ≤ 4, binomial m r = Nat.choose m r := by
  decide

/-- The emitting loop of `nth_combination 12 4`: starting at position `i`
with `size` entries already emitted and a remainder below
`C(12 - i, 4 - size)`, it emits exactly `4 - size` strictly ascending
positions in `[i, 12)`. -/
theorem nthCombGo_spec : ∀ (fuel i size index : Nat), i + fuel = 12 → size ≤ 4 →
    index < Nat.choose (12 - i) (4 - size) →
    (nthCombGo 12 4 fuel i size index).length = 4 - size ∧
    (nthCombGo 12 4 fuel i size index).Chain' (· < ·) ∧
    (∀ x ∈ nthCombGo 12 4 fuel i size index, i ≤ x ∧ x < 12) := by
  intro fuel
  induction fuel with
  | zero =>
    intro i size index hif hsz hidx
    have hi : i = 12 := by omega
    subst hi
    have hsz4 : size = 4 := by
      by_contra hne
      have h40 : 0 < 4 - size := by omega
      rw [show (12 : Nat) - 12 = 0 from rfl, Nat.choose_eq_zero_of_lt (by omega)] at hidx
      omega
    subst hsz4
    refine ⟨by simp [nthCombGo], by simp [nthCombGo], by simp [nthCombGo]⟩
  | succ fuel ih =>
    intro i size index hif hsz hidx
    have hi12 : i < 12 := by omega
    by_cases hsz4 : size < 4
    · have hguard : i < 12 ∧ size < 4 := ⟨hi12, hsz4⟩
      have hunfold : nthCombGo 12 4 (fuel + 1) i size index
          = if i < 12 ∧ size < 4 then
              if binomial (12 - 1 - i) (4 - size - 1) > index then
                i :: nthCombGo 12 4 fuel (i + 1) (size + 1) index
              else nthCombGo 12 4 fuel (i + 1) size
                (index - binomial (12 - 1 - i) (4 - size - 1))
            else [] := by
        rfl
      rw [hunfold, if_pos hguard]
      have hbc : binomial (12 - 1 - i) (4 - size - 1)
          = Nat.choose (11 - i) (3 - size) := by
        rw [show 12 - 1 - i = 11 - i by omega, show 4 - size - 1 = 3 - size by omega]
        exact binomial_eq_choose (11 - i) (by omega) (3 - size) (by omega)
      have hpascal : Nat.choose (12 - i) (4 - size)
          = Nat.choose (11 - i) (3 - size) + Nat.choose (11 - i) (4 - size) := by
        rw [show 12 - i = (11 - i) + 1 by omega, show 4 - size = (3 - size) + 1 by omega,
          Nat.choose_succ_succ]
      split_ifs with hcnt
      · obtain ⟨hl, hch, hm⟩ := ih (i + 1) (size + 1) index (by omega) (by omega) (by
          rw [hbc] at hcnt
          rw [show 12 - (i + 1) = 11 - i by omega, show 4 - (size + 1) = 3 - size by omega]
          omega)
        refine ⟨by simp [hl]; omega, ?_, ?_⟩
        · rw [List.chain'_cons']
          refine ⟨?_, hch⟩
          intro b hb
          have hbm := hm b (List.mem_of_mem_head? hb)
          omega
        · intro x hx
          rcases List.mem_cons.mp hx with rfl | hx'
          · omega
          · have := hm x hx'
            omega
      · obtain ⟨hl, hch, hm⟩ := ih (i + 1) size
          (index - binomial (12 - 1 - i) (4 - size - 1)) (by omega) (by omega) (by
          rw [hbc]
          rw [show 12 - (i + 1) = 11 - i by omega]
          omega)
        refine ⟨hl, hch, ?_⟩
        intro x hx
        have := hm x hx
        omega
    · have hsz' : size = 4 := by omega
      subst hsz'
      have hunfold : nthCombGo 12 4 (fuel + 1) i 4 index
          = if i < 12 ∧ (4 : Nat) < 4 then
              if binomial (12 - 1 - i) (4 - 4 - 1) > index then
                i :: nthCombGo 12 4 fuel (i + 1) (4 + 1) index
              else nthCombGo 12 4 fuel (i + 1) 4
                (index - binomial (12 - 1 - i) (4 - 4 - 1))
            else [] := by
        rfl
      rw [hunfold, if_neg (by omega)]
      refine ⟨by simp, by simp, by simp⟩

theorem exists_four {α : Type _} (l : List α) (hl : l.length = 4) :
    ∃ a b c d, l = [a, b, c, d] := by
  match l, hl with
  | [a, b, c, d], _ => exact ⟨a, b, c, d, rfl⟩

/-- For every index below `C(12,4) = 495`, `nth_combination 12 4` returns
four strictly ascending positions below `12`. -/
theorem nth_combination_spec (index : Nat) (h : index < 495) :
    ∃ a b c d, nth_combination 12 4 index = [a, b, c, d] ∧
      a < b ∧ b < c ∧ c < d ∧ d < 12 := by
  have hspec := nthCombGo_spec 12 0 0 index (by omega) (by omega) (by
    rw [show (12 : Nat) - 0 = 12 from rfl, show (4 : Nat) - 0 = 4 from rfl]
    have : Nat.choose 12 4 = 495 := by decide
    omega)
  have hdef : nth_combination 12 4 index = nthCombGo 12 4 12 0 0 index := by
    unfold nth_combination
    rw [if_neg (by omega)]
  obtain ⟨hl, hch, hm⟩ := hspec
  rw [← hdef] at hl hch hm
  obtain ⟨a, b, c, d, he⟩ := exists_four _ (by rw [hl])
  rw [he] at hch hm
  simp only [List.chain'_cons, List.chain'_singleton, and_true] at hch
  refine ⟨a, b, c, d, he, ?_, ?_, ?_, ?_⟩
  · exact hch.1
  · exact hch.2.1
  · exact hch.2.2
  · exact (hm d (by simp)).2

/-- The well-formedness the edge byte array keeps through twists: twelve
bytes below `0x20`, exactly four of which carry a slice cubie
(nibble `> 7`). -/
def EValidS (s : List Nat) : Prop :=
  s.length = 12 ∧ (∀ b ∈ s, b < 32) ∧ s.countP (fun b => b &&& 0xF > 7) = 4

theorem countP_insertIdx (p : Nat → Bool) :
    ∀ (n : Nat) (l : List Nat) (a : Nat), n ≤ l.length →
      (l.insertIdx n a).countP p = (a :: l).countP p := by
  intro n
  induction n with
  | zero => intro l a _; rfl
  | succ n ih =>
    intro l a hn
    cases l with
    | nil => simp at hn
    | cons x l =>
      have he : (x :: l).insertIdx (n + 1) a = x :: l.insertIdx n a := rfl
      simp only [he, List.countP_cons, ih l a (by simpa using hn)]
      omega

theorem pack_low : ∀ a < 16, ∀ b < 16, (a ||| b <<< 4) &&& 0xF = a := by decide

theorem edge_pack_bound : ∀ a < 12, ∀ b < 2, (a ||| b <<< 4) < 32 := by decide

theorem zip_low : ∀ (l1 l2 : List Nat), l1.length = l2.length →
    (∀ a ∈ l1, a < 16) → (∀ b ∈ l2, b < 16) →
    (List.zipWith (fun c o => c ||| o <<< 4) l1 l2).map (fun b => b &&& 0xF) = l1 := by
  intro l1
  induction l1 with
  | nil => intro l2 _ _ _; simp
  | cons a l1 ih =>
    intro l2 hlen ha hb
    cases l2 with
    | nil => simp at hlen
    | cons b l2 =>
      simp only [List.zipWith_cons_cons, List.map_cons]
      rw [pack_low a (ha a (by simp)) b (hb b (by simp)),
        ih l2 (by simpa using hlen) (fun x hx => ha x (by simp [hx]))
          (fun y hy => hb y (by simp [hy]))]

theorem rangeGetD12 (s : List Nat) (h : s.length = 12) :
    (List.range 12).map (fun k => s.getD k 0) = s := by
  obtain ⟨b0, b1, b2, b3, b4, b5, b6, b7, b8, b9, b10, b11, rfl⟩ := exists_twelve s h
  rfl

/-- `Edges::from_index` emits a well-formed byte array for every tuple of
in-range coordinates. -/
theorem edges_from_index_valid (sp nsp loc ori : Nat) (hsp : sp < 24)
    (hnsp : nsp < 40320) (hloc : loc < 495) :
    EValidS (Edges.from_index sp nsp loc ori).s := by
  obtain ⟨a, b, c, d, hcomb, hab, hbc, hcd, hd12⟩ := nth_combination_spec loc hloc
  have hslen : (nth_permutation sp 4).length = 4 := nth_permutation_length sp 4
  obtain ⟨x0, x1, x2, x3, hxeq⟩ := exists_four _ hslen
  have hxmem : ∀ x ∈ nth_permutation sp 4, x < 4 :=
    @nth_permutation_entries 4 sp (by omega)
      (by have : factorial 4 = 24 := rfl; omega)
  have hx0 : x0 < 4 := hxmem x0 (by rw [hxeq]; simp)
  have hx1 : x1 < 4 := hxmem x1 (by rw [hxeq]; simp)
  have hx2 : x2 < 4 := hxmem x2 (by rw [hxeq]; simp)
  have hx3 : x3 < 4 := hxmem x3 (by rw [hxeq]; simp)
  have hnlen : (nth_permutation nsp 8).length = 8 := nth_permutation_length nsp 8
  have hnmem : ∀ x ∈ nth_permutation nsp 8, x < 8 :=
    @nth_permutation_entries 8 nsp (by omega)
      (by have : factorial 8 = 40320 := rfl; omega)
  have hmain : Edges.from_index sp nsp loc ori
      = Edges.new
          (((((nth_permutation nsp 8).insertIdx a (x0 + 8)).insertIdx b
              (x1 + 8)).insertIdx c (x2 + 8)).insertIdx d (x3 + 8))
          ((List.range 11).map (fun i => (ori >>> i) &&& 1) ++ [ones ori % 2]) := by
    simp only [Edges.from_index]
    rw [hcomb, hxeq]
    rfl
  set ns := nth_permutation nsp 8 with hns
  set e1 := ns.insertIdx a (x0 + 8) with he1
  set e2 := e1.insertIdx b (x1 + 8) with he2
  set e3 := e2.insertIdx c (x2 + 8) with he3
  set e4 := e3.insertIdx d (x3 + 8) with he4
  have hl1 : e1.length = 9 := by
    rw [he1, List.length_insertIdx a ns (by omega), hnlen]
  have hl2 : e2.length = 10 := by
    rw [he2, List.length_insertIdx b e1 (by omega), hl1]
  have hl3 : e3.length = 11 := by
    rw [he3, List.length_insertIdx c e2 (by omega), hl2]
  have hl4 : e4.length = 12 := by
    rw [he4, List.length_insertIdx d e3 (by omega), hl3]
  have hmem4 : ∀ v ∈ e4, v < 12 := by
    intro v hv
    rw [he4] at hv
    rcases (List.mem_insertIdx (by omega)).mp hv with rfl | hv
    · omega
    rw [he3] at hv
    rcases (List.mem_insertIdx (by omega)).mp hv with rfl | hv
    · omega
    rw [he2] at hv
    rcases (List.mem_insertIdx (by omega)).mp hv with rfl | hv
    · omega
    rw [he1] at hv
    rcases (List.mem_insertIdx (by omega)).mp hv with rfl | hv
    · omega
    have := hnmem v hv
    omega
  have hcnt4 : e4.countP (fun v => v > 7) = 4 := by
    have hps : ∀ y : Nat, (fun v => v > 7 : Nat → Bool) (y + 8) = true := by
      intro y
      simp
    have hz : ns.countP (fun v => v > 7) = 0 := by
      rw [List.countP_eq_zero]
      intro v hv
      have hv8 := hnmem v hv
      simp
      omega
    rw [he4, countP_insertIdx (fun v => v > 7) d e3 (x3 + 8) (by omega), List.countP_cons,
      he3, countP_insertIdx (fun v => v > 7) c e2 (x2 + 8) (by omega), List.countP_cons,
      he2, countP_insertIdx (fun v => v > 7) b e1 (x1 + 8) (by omega), List.countP_cons,
      he1, countP_insertIdx (fun v => v > 7) a ns (x0 + 8) (by omega), List.countP_cons,
      hz]
    simp only [hps]
    simp
  set os := (List.range 11).map (fun i => (ori >>> i) &&& 1) ++ [ones ori % 2] with hos
  have hoslen : os.length = 12 := by
    rw [hos]
    simp
  have hosmem : ∀ v ∈ os, v < 2 := by
    intro v hv
    rw [hos] at hv
    rcases List.mem_append.mp hv with hv | hv
    · obtain ⟨i, _, rfl⟩ := List.mem_map.mp hv
      have : (ori >>> i) &&& 1 ≤ 1 := Nat.and_le_right
      omega
    · simp at hv
      subst hv
      exact Nat.mod_lt _ (by omega)
  rw [hmain]
  have hsbytes : (Edges.new e4 os).s = List.zipWith (fun c o => c ||| o <<< 4) e4 os := rfl
  have hlen : (Edges.new e4 os).s.length = 12 := by
    rw [hsbytes, List.length_zipWith, hl4, hoslen]
    omega
  have hmap : (Edges.new e4 os).s.map (fun b => b &&& 0xF) = e4 := by
    rw [hsbytes]
    exact zip_low e4 os (by omega) (fun v hv => by have := hmem4 v hv; omega)
      (fun v hv => by have := hosmem v hv; omega)
  refine ⟨hlen, ?_, ?_⟩
  · intro x hx
    rw [hsbytes] at hx
    obtain ⟨v, hv, o, ho, rfl⟩ := mem_zipWith hx
    exact edge_pack_bound v (hmem4 v hv) o (hosmem o ho)
  · have h1 : (Edges.new e4 os).s.countP (fun b => b &&& 0xF > 7)
        = ((Edges.new e4 os).s.map (fun b => b &&& 0xF)).countP (fun v => v > 7) := by
      rw [List.countP_map]
      rfl
    rw [h1, hmap, hcnt4]

/-- `Edges::twisted` written as a slot table: slot `k` of the result is
`s[srcₖ] ^^^ mₖ` for the pair `(srcₖ, mₖ)` (mask `0x10` on the slots an
`ori_swap` flips, `0` elsewhere). -/
def edgePairs : Twist → List (Nat × Nat)
  | .L1 => [(0,0),(1,0),(2,0),(3,0),(11,16),(5,0),(6,0),(8,16),(4,16),(9,0),(10,0),(7,16)]
  | .L2 => [(0,0),(1,0),(2,0),(3,0),(7,0),(5,0),(6,0),(4,0),(11,0),(9,0),(10,0),(8,0)]
  | .L3 => [(0,0),(1,0),(2,0),(3,0),(8,16),(5,0),(6,0),(11,16),(7,16),(9,0),(10,0),(4,16)]
  | .R1 => [(0,0),(1,0),(2,0),(3,0),(4,0),(9,16),(10,16),(7,0),(8,0),(6,16),(5,16),(11,0)]
  | .R2 => [(0,0),(1,0),(2,0),(3,0),(4,0),(6,0),(5,0),(7,0),(8,0),(10,0),(9,0),(11,0)]
  | .R3 => [(0,0),(1,0),(2,0),(3,0),(4,0),(10,16),(9,16),(7,0),(8,0),(5,16),(6,16),(11,0)]
  | .U1 => [(5,0),(4,0),(2,0),(3,0),(0,0),(1,0),(6,0),(7,0),(8,0),(9,0),(10,0),(11,0)]
  | .U2 => [(1,0),(0,0),(2,0),(3,0),(5,0),(4,0),(6,0),(7,0),(8,0),(9,0),(10,0),(11,0)]
  | .U3 => [(4,0),(5,0),(2,0),(3,0),(1,0),(0,0),(6,0),(7,0),(8,0),(9,0),(10,0),(11,0)]
  | .D1 => [(0,0),(1,0),(6,0),(7,0),(4,0),(5,0),(3,0),(2,0),(8,0),(9,0),(10,0),(11,0)]
  | .D2 => [(0,0),(1,0),(3,0),(2,0),(4,0),(5,0),(7,0),(6,0),(8,0),(9,0),(10,0),(11,0)]
  | .D3 => [(0,0),(1,0),(7,0),(6,0),(4,0),(5,0),(2,0),(3,0),(8,0),(9,0),(10,0),(11,0)]
  | .F1 => [(8,0),(1,0),(2,0),(9,0),(4,0),(5,0),(6,0),(7,0),(3,0),(0,0),(10,0),(11,0)]
  | .F2 => [(3,0),(1,0),(2,0),(0,0),(4,0),(5,0),(6,0),(7,0),(9,0),(8,0),(10,0),(11,0)]
  | .F3 => [(9,0),(1,0),(2,0),(8,0),(4,0),(5,0),(6,0),(7,0),(0,0),(3,0),(10,0),(11,0)]
  | .B1 => [(0,0),(10,0),(11,0),(3,0),(4,0),(5,0),(6,0),(7,0),(8,0),(9,0),(2,0),(1,0)]
  | .B2 => [(0,0),(2,0),(1,0),(3,0),(4,0),(5,0),(6,0),(7,0),(8,0),(9,0),(11,0),(10,0)]
  | .B3 => [(0,0),(11,0),(10,0),(3,0),(4,0),(5,0),(6,0),(7,0),(8,0),(9,0),(1,0),(2,0)]

theorem edges_twisted_eq_map (t : Twist) (s : List Nat) :
    (Edges.twisted ⟨s⟩ t).s
      = (edgePairs t).map (fun q => s.getD q.1 0 ^^^ q.2) := by
  cases t <;>
    simp [Edges.twisted, edgePairs, edges_shuffled, edges_ori_swap_l, edges_ori_swap_r]

theorem edgePairs_bounds (t : Twist) :
    ∀ q ∈ edgePairs t, q.1 < 12 ∧ (q.2 = 0 ∨ q.2 = 16) := by
  cases t <;> decide

theorem edgePairs_fst_perm (t : Twist) :
    ((edgePairs t).map Prod.fst).Perm (List.range 12) := by
  cases t <;> decide

theorem xor16_low_aux : ∀ b < 32,
    (b ^^^ 0) &&& 0xF = b &&& 0xF ∧ (b ^^^ 16) &&& 0xF = b &&& 0xF := by decide

theorem xor16_low (b : Nat) (hb : b < 32) (m : Nat) (hm : m = 0 ∨ m = 16) :
    (b ^^^ m) &&& 0xF = b &&& 0xF := by
  rcases hm with rfl | rfl
  · exact (xor16_low_aux b hb).1
  · exact (xor16_low_aux b hb).2

theorem xor16_lt (b m : Nat) (hb : b < 32) (hm : m = 0 ∨ m = 16) : b ^^^ m < 32 := by
  rcases hm with rfl | rfl
  · simpa using hb
  · exact @Nat.xor_lt_two_pow b 16 5 hb (by omega)

/-- An edge twist keeps the byte array well formed: the bytes are
permuted and some are flipped by `0x10`, which changes neither the byte
bound nor the cubie nibble. -/
theorem EValidS_twisted (t : Twist) (e : Edges) (h : EValidS e.s) :
    EValidS (e.twisted t).s := by
  have he : e = ⟨e.s⟩ := rfl
  have hL : e.s.length = 12 := h.1
  rw [he, edges_twisted_eq_map]
  have hplen : (edgePairs t).length = 12 := by cases t <;> rfl
  have hmemD : ∀ k < 12, e.s.getD k 0 ∈ e.s := by
    intro k hk
    rw [List.getD_eq_getElem e.s 0 (by omega : k < e.s.length)]
    exact List.getElem_mem _
  refine ⟨by rw [List.length_map, hplen], ?_, ?_⟩
  · intro x hx
    obtain ⟨q, hq, rfl⟩ := List.mem_map.mp hx
    have hqb := edgePairs_bounds t q hq
    exact xor16_lt _ _ (h.2.1 _ (hmemD q.1 hqb.1)) hqb.2
  · rw [List.countP_map]
    have hcongr : ((edgePairs t).countP ((fun b => b &&& 0xF > 7) ∘ fun q => e.s.getD q.1 0 ^^^ q.2))
        = ((edgePairs t).countP ((fun b => b &&& 0xF > 7) ∘ fun q => e.s.getD q.1 0)) := by
      apply List.countP_congr
      intro q hq
      have hqb := edgePairs_bounds t q hq
      have hxl := xor16_low (e.s.getD q.1 0) (h.2.1 _ (hmemD q.1 hqb.1)) q.2 hqb.2
      simp only [Function.comp_apply, hxl]
    rw [hcongr]
    have hmapped : ((edgePairs t).countP ((fun b => b &&& 0xF > 7) ∘ fun q => e.s.getD q.1 0))
        = (((edgePairs t).map Prod.fst).countP
            ((fun b => b &&& 0xF > 7) ∘ fun k => e.s.getD k 0)) := by
      rw [List.countP_map]
      rfl
    rw [hmapped, List.Perm.countP_eq _ (edgePairs_fst_perm t), ← List.countP_map,
      rangeGetD12 e.s hL]
    exact h.2.2

theorem EValidS_twistedO (t : Option Twist) (e : Edges) (h : EValidS e.s) :
    EValidS (e.twistedO t).s := by
  rcases t with _ | tw
  · exact h
  · exact EValidS_twisted tw e h

/-- A well-formed edge state's orientation index fits in 11 bits. -/
theorem edges_ori_index_bound (e : Edges) (h : EValidS e.s) : e.ori_index < 2048 := by
  have hL : e.s.length = 12 := h.1
  have horb : ∀ i < 12, e.orientation i ≤ 1 := by
    intro i hi
    have hmem : e.s.getD i 0 ∈ e.s := by
      rw [List.getD_eq_getElem e.s 0 (by omega : i < e.s.length)]
      exact List.getElem_mem _
    have := h.2.1 _ hmem
    show e.s.getD i 0 >>> 4 ≤ 1
    rw [Nat.shiftRight_eq_div_pow]
    omega
  have hfold : ∀ (l : List Nat) (acc : Nat), (∀ i ∈ l, i < 11) → acc < 2048 →
      l.foldl (fun a i => a ||| (e.orientation i <<< i)) acc < 2048 := by
    intro l
    induction l with
    | nil => intro acc _ hacc; exact hacc
    | cons i l ih =>
      intro acc hmem hacc
      simp only [List.foldl_cons]
      apply ih _ (fun j hj => hmem j (by simp [hj]))
      have hi : i < 11 := hmem i (by simp)
      have hsh : e.orientation i <<< i < 2048 := by
        rw [Nat.shiftLeft_eq]
        calc e.orientation i * 2 ^ i
            ≤ 1 * 2 ^ 10 :=
              Nat.mul_le_mul (horb i (by omega)) (Nat.pow_le_pow_right (by omega) (by omega))
          _ < 2048 := by omega
      exact @Nat.or_lt_two_pow acc (e.orientation i <<< i) 11 hacc hsh
  exact hfold (List.range 11) 0 (fun i hi => List.mem_range.mp hi) (by omega)

/-- The slice-location index is below `2^16` for any twelve-byte state. -/
theorem edges_slice_loc_bound (e : Edges) : e.slice_loc_index ≤ 60984 := by
  apply combination_index_le
  · intro c hc
    exact List.mem_range.mp (List.mem_of_mem_filter hc)
  · calc ((List.range 12).filter (fun i => e.cubie i > 7)).length
        ≤ (List.range 12).length := List.length_filter_le _ _
      _ = 12 := by simp

theorem cubies_eq_map (e : Edges) (hL : e.s.length = 12) :
    e.cubies = e.s.map (fun b => b &&& 0xF) := by
  show (List.range 12).map e.cubie = _
  have hcomp : (List.range 12).map e.cubie
      = ((List.range 12).map (fun k => e.s.getD k 0)).map (fun b => b &&& 0xF) := by
    rw [List.map_map]
    rfl
  rw [hcomp, rangeGetD12 e.s hL]

theorem cubies_slice_count (e : Edges) (h : EValidS e.s) :
    e.cubies.countP (fun c => c > 7) = 4 := by
  rw [cubies_eq_map e h.1, List.countP_map]
  exact h.2.2

theorem cubies_le_15 (e : Edges) (h : EValidS e.s) : ∀ c ∈ e.cubies, c ≤ 15 := by
  intro c hc
  rw [cubies_eq_map e h.1] at hc
  obtain ⟨b, _, rfl⟩ := List.mem_map.mp hc
  have : b &&& 0xF ≤ 0xF := Nat.and_le_right
  omega

/-- A well-formed edge state's slice permutation index fits in a `u8`. -/
theorem edges_slice_prm_bound (e : Edges) (h : EValidS e.s) :
    e.slice_prm_index < 256 := by
  have hflen : (e.cubies.filter (fun c => c > 7)).length = 4 := by
    rw [← List.countP_eq_length_filter]
    exact cubies_slice_count e h
  have hlen : ((e.cubies.filter (fun c => c > 7)).map (fun c => c - 8)).length = 4 := by
    rw [List.length_map, hflen]
  have hle : permutation_index ((e.cubies.filter (fun c => c > 7)).map (fun c => c - 8))
      ≤ 7 * sumFac 4 := by
    rw [← hlen]
    apply permutation_index_le
    intro x hx
    obtain ⟨c, hc, rfl⟩ := List.mem_map.mp hx
    have := cubies_le_15 e h c (List.mem_of_mem_filter hc)
    omega
  rw [sumFac_four] at hle
  show permutation_index ((e.cubies.filter (fun c => c > 7)).map (fun c => c - 8)) < 256
  omega

/-- A well-formed edge state's non-slice permutation index fits in a
`u16`. -/
theorem edges_non_slice_prm_bound (e : Edges) (h : EValidS e.s) :
    e.non_slice_prm_index < 2 ^ 16 := by
  have hclen : e.cubies.length = 12 := by
    rw [cubies_eq_map e h.1, List.length_map, h.1]
  have hsplit : ∀ l : List Nat,
      l.countP (fun c => c ≤ 7) + l.countP (fun c => c > 7) = l.length := by
    intro l
    induction l with
    | nil => rfl
    | cons x l ih =>
      simp only [List.countP_cons, List.length_cons]
      by_cases hx : x ≤ 7
      · rw [if_pos (decide_eq_true hx), if_neg (by simp only [decide_eq_true_eq]; omega)]
        omega
      · rw [if_neg (by simp only [decide_eq_true_eq]; omega),
          if_pos (decide_eq_true (by omega : x > 7))]
        omega
  have h4 := cubies_slice_count e h
  have hflen : (e.cubies.filter (fun c => c ≤ 7)).length = 8 := by
    rw [← List.countP_eq_length_filter]
    have := hsplit e.cubies
    omega
  have hle : permutation_index (e.cubies.filter (fun c => c ≤ 7)) ≤ 7 * sumFac 8 := by
    rw [← hflen]
    apply permutation_index_le
    intro x hx
    have := List.of_mem_filter hx
    simp at this
    omega
  rw [sumFac_eight] at hle
  show permutation_index (e.cubies.filter (fun c => c ≤ 7)) < 2 ^ 16
  have : (2 : Nat) ^ 16 = 65536 := by norm_num
  omega

/-- Claim C3: for each of the six coordinate axes, the Twister's table
lookup at any valid coordinate (and, for the two slice-dependent
permutation axes, any valid slice location) and any twist — the eighteen
face turns and the `None` sentinel alike — equals the coordinate read
back from the cubie-level state built from that coordinate (all other
coordinates zero) after the hand-coded cubie `twisted`.  In particular
the `u8`/`u16` narrowing casts in the table builder never truncate. -/
theorem c3_twister_refinement :
    (∀ i, i < Corners.ORI_SIZE → ∀ t : Option Twist,
      twisted_c_ori i t = ((Corners.from_index 0 i).twistedO t).ori_index) ∧
    (∀ i, i < Corners.PRM_SIZE → ∀ t : Option Twist,
      twisted_c_prm i t = ((Corners.from_index i 0).twistedO t).prm_index) ∧
    (∀ i, i < Edges.E_ORI_SIZE → ∀ t : Option Twist,
      twisted_e_ori i t = ((Edges.from_index 0 0 0 i).twistedO t).ori_index) ∧
    (∀ sp, sp < Edges.SLICE_PRM_SIZE → ∀ loc, loc < Edges.SLICE_LOC_SIZE →
      ∀ t : Option Twist,
      twisted_e_slice_prm sp loc t
        = ((Edges.from_index sp 0 loc 0).twistedO t).slice_prm_index) ∧
    (∀ nsp, nsp < Edges.NON_SLICE_PRM_SIZE → ∀ loc, loc < Edges.SLICE_LOC_SIZE →
      ∀ t : Option Twist,
      twisted_e_non_slice_prm nsp loc t
        = ((Edges.from_index 0 nsp loc 0).twistedO t).non_slice_prm_index) ∧
    (∀ loc, loc < Edges.SLICE_LOC_SIZE → ∀ t : Option Twist,
      twisted_e_slice_loc loc t
        = ((Edges.from_index 0 0 loc 0).twistedO t).slice_loc_index) := by
  refine ⟨?_, ?_, ?_, ?_, ?_, ?_⟩
  · intro i _hi t
    have hm := otwistIdx_le t
    have hdiv : (i * COUNT + otwistIdx t) / COUNT = i := by
      show (i * 19 + otwistIdx t) / 19 = i
      omega
    have hmod : (i * COUNT + otwistIdx t) % COUNT = otwistIdx t := by
      show (i * 19 + otwistIdx t) % 19 = otwistIdx t
      omega
    unfold twisted_c_ori c_ori_tbl
    rw [hdiv, hmod, twistOfIdx_otwistIdx]
    apply Nat.mod_eq_of_lt
    have hv := CValidS_twistedO t _ (corners_from_index_valid 0 i (by omega))
    have := ori_index_bound _ hv
    omega
  · intro i hi t
    have hm := otwistIdx_le t
    have hdiv : (i * COUNT + otwistIdx t) / COUNT = i := by
      show (i * 19 + otwistIdx t) / 19 = i
      omega
    have hmod : (i * COUNT + otwistIdx t) % COUNT = otwistIdx t := by
      show (i * 19 + otwistIdx t) % 19 = otwistIdx t
      omega
    unfold twisted_c_prm c_prm_tbl
    rw [hdiv, hmod, twistOfIdx_otwistIdx]
    apply Nat.mod_eq_of_lt
    have hi' : i < 40320 := hi
    exact prm_index_bound _ (CValidS_twistedO t _ (corners_from_index_valid i 0 hi'))
  · intro i _hi t
    have hm := otwistIdx_le t
    have hdiv : (i * COUNT + otwistIdx t) / COUNT = i := by
      show (i * 19 + otwistIdx t) / 19 = i
      omega
    have hmod : (i * COUNT + otwistIdx t) % COUNT = otwistIdx t := by
      show (i * 19 + otwistIdx t) % 19 = otwistIdx t
      omega
    unfold twisted_e_ori e_ori_tbl
    rw [hdiv, hmod, twistOfIdx_otwistIdx]
    apply Nat.mod_eq_of_lt
    have hv := EValidS_twistedO t _
      (edges_from_index_valid 0 0 0 i (by omega) (by omega) (by omega))
    have := edges_ori_index_bound _ hv
    omega
  · intro sp hsp loc hloc t
    have hm := otwistIdx_le t
    have hsp' : sp < 24 := hsp
    have hloc' : loc < 495 := hloc
    have hdiv : ((sp * Edges.SLICE_LOC_SIZE + loc) * COUNT + otwistIdx t) / COUNT
        / Edges.SLICE_LOC_SIZE = sp := by
      show ((sp * 495 + loc) * 19 + otwistIdx t) / 19 / 495 = sp
      omega
    have hdiv2 : ((sp * Edges.SLICE_LOC_SIZE + loc) * COUNT + otwistIdx t) / COUNT
        % Edges.SLICE_LOC_SIZE = loc := by
      show ((sp * 495 + loc) * 19 + otwistIdx t) / 19 % 495 = loc
      omega
    have hmod : ((sp * Edges.SLICE_LOC_SIZE + loc) * COUNT + otwistIdx t) % COUNT
        = otwistIdx t := by
      show ((sp * 495 + loc) * 19 + otwistIdx t) % 19 = otwistIdx t
      omega
    unfold twisted_e_slice_prm e_slice_prm_tbl
    rw [hdiv, hdiv2, hmod, twistOfIdx_otwistIdx]
    apply Nat.mod_eq_of_lt
    have hv := EValidS_twistedO t _
      (edges_from_index_valid sp 0 loc 0 hsp' (by omega) hloc')
    have := edges_slice_prm_bound _ hv
    omega
  · intro nsp hnsp loc hloc t
    have hm := otwistIdx_le t
    have hnsp' : nsp < 40320 := hnsp
    have hloc' : loc < 495 := hloc
    have hdiv : ((nsp * Edges.SLICE_LOC_SIZE + loc) * COUNT + otwistIdx t) / COUNT
        / Edges.SLICE_LOC_SIZE = nsp := by
      show ((nsp * 495 + loc) * 19 + otwistIdx t) / 19 / 495 = nsp
      omega
    have hdiv2 : ((nsp * Edges.SLICE_LOC_SIZE + loc) * COUNT + otwistIdx t) / COUNT
        % Edges.SLICE_LOC_SIZE = loc := by
      show ((nsp * 495 + loc) * 19 + otwistIdx t) / 19 % 495 = loc
      omega
    have hmod : ((nsp * Edges.SLICE_LOC_SIZE + loc) * COUNT + otwistIdx t) % COUNT
        = otwistIdx t := by
      show ((nsp * 495 + loc) * 19 + otwistIdx t) % 19 = otwistIdx t
      omega
    unfold twisted_e_non_slice_prm e_non_slice_prm_tbl
    rw [hdiv, hdiv2, hmod, twistOfIdx_otwistIdx]
    apply Nat.mod_eq_of_lt
    exact edges_non_slice_prm_bound _ (EValidS_twistedO t _
      (edges_from_index_valid 0 nsp loc 0 (by omega) hnsp' hloc'))
  · intro loc hloc t
    have hm := otwistIdx_le t
    have hloc' : loc < 495 := hloc
    have hdiv : (loc * COUNT + otwistIdx t) / COUNT = loc := by
      show (loc * 19 + otwistIdx t) / 19 = loc
      omega
    have hmod : (loc * COUNT + otwistIdx t) % COUNT = otwistIdx t := by
      show (loc * 19 + otwistIdx t) % 19 = otwistIdx t
      omega
    unfold twisted_e_slice_loc e_slice_loc_tbl
    rw [hdiv, hmod, twistOfIdx_otwistIdx]
    apply Nat.mod_eq_of_lt
    have := edges_slice_loc_bound ((Edges.from_index 0 0 loc 0).twistedO t)
    omega

/-- Claim C3 witness: the corner-orientation axis at coordinate `0` and
twist `U1`. -/
theorem c3_twister_refinement_witness :
    (0 : Nat) < Corners.ORI_SIZE ∧
    twisted_c_ori 0 (some .U1)
      = ((Corners.from_index 0 0).twistedO (some .U1)).ori_index :=
  ⟨by decide, c3_twister_refinement.1 0 (by decide) (some .U1)⟩

/-! ## The two-phase solver (src/two_phase.rs)

The solver is verified against an abstract engine: a record of the
Twister lookups and the three pruning tables it holds references to,
with the claim's premise — "the pruning tables and the Twister are
correctly built" — captured by the `EngineOK` hypotheses below. -/

/-- The lookups `TwoPhaseSolver` performs: the six Twister axes, the
phase-1 `DirectionsTable` (`distance`, `less_distance`, `more_distance`
by coset index), the phase-2 `DistanceTable` (by subset index) and the
corner `DistanceTable`. -/
structure Engine where
  tw_c_prm : Nat → Option Twist → Nat
  tw_c_ori : Nat → Option Twist → Nat
  tw_e_ori : Nat → Option Twist → Nat
  tw_e_slice_prm : Nat → Nat → Option Twist → Nat
  tw_e_non_slice_prm : Nat → Nat → Option Twist → Nat
  tw_e_slice_loc : Nat → Option Twist → Nat
  d1 : Nat → Nat
  less : Nat → Nat
  more : Nat → Nat
  d2 : Nat → Nat
  dc : Nat → Nat

/-- The subset-coordinate half of a twist application exactly as
`search_phase_1` computes it: both permutation lookups read the
pre-twist `coset.e_slice_loc`. -/
def subTwisted (E : Engine) (s : SubsetCube) (loc : Nat) (t : Option Twist) : SubsetCube :=
  ⟨E.tw_e_slice_prm s.e_slice_prm loc t,
   E.tw_e_non_slice_prm s.e_non_slice_prm loc t,
   E.tw_c_prm s.c_prm t⟩

/-- The coset-coordinate half of a twist application
(`CosetCube`'s `Twistable` impl and `search_phase_1`'s lookups). -/
def cosTwisted (E : Engine) (c : CosetCube) (t : Option Twist) : CosetCube :=
  ⟨E.tw_c_ori c.c_ori t, E.tw_e_ori c.e_ori t, E.tw_e_slice_loc c.e_slice_loc t⟩

/-- `Cube`'s `Twistable` impl: all six lookups, the permutation lookups
reading the old `e_slice_loc`. -/
def fullTwisted (E : Engine) (p : SubsetCube × CosetCube) (t : Option Twist) :
    SubsetCube × CosetCube :=
  (subTwisted E p.1 p.2.e_slice_loc t, cosTwisted E p.2 t)

/-- Applying an ordered twist sequence to the input cube via the
Twister. -/
def walkFull (E : Engine) (p : SubsetCube × CosetCube) (l : List Twist) :
    SubsetCube × CosetCube :=
  l.foldl (fun q t => fullTwisted E q (some t)) p

/-- `SubsetCube`'s `Twistable` impl (cube.rs): both permutation lookups
use the solved slice location. -/
def subsetTwistedP2 (E : Engine) (s : SubsetCube) (t : Twist) : SubsetCube :=
  subTwisted E s Edges.solved.slice_loc_index (some t)

/-- `CornersCube::index` for the corner pruning probe.  The `CornersCube`
revision of `cube.rs` is absent from `src/`; modelled from
`Corners::combine_indices` / `Corners::index`: `prm · 2187 + ori`. -/
def cornersCombinedIndex (prm ori : Nat) : Nat := prm * Corners.ORI_SIZE + ori

/-- The greedy descent loop of `search_phase_2`: for `d` from the table
distance down to `1`, take the first `h0` twist whose successor the
phase-2 table puts below `d`.  Returns the pushed twists and the final
subset state. -/
def phase2Build (E : Engine) : Nat → SubsetCube → List Twist × SubsetCube
  | 0, subset => ([], subset)
  | d + 1, subset =>
    match h0List.find? (fun twist => E.d2 (subsetTwistedP2 E subset twist).index < d + 1) with
    | some twist =>
      let deeper := phase2Build E d (subsetTwistedP2 E subset twist)
      (twist :: deeper.1, deeper.2)
    | none => phase2Build E d subset

/-- `TwoPhaseSolver::search_phase_2`: succeed iff the table distance is
within the depth budget, emitting the greedy descent twists. -/
def search_phase_2 (E : Engine) (subset : SubsetCube) (depth : Nat) : Option (List Twist) :=
  let solution_distance := E.d2 subset.index
  if solution_distance ≤ depth then some (phase2Build E solution_distance subset).1
  else none

/-- `TwoPhaseSolver::search_phase_1`, with the previous twist as
`Option Twist` (`none` for the `Twist::None` root sentinel) and the
solution segment returned instead of pushed onto the deque.  The
candidate bitmaps never contain the `None` bit, so every recursive call
decrements `p1_depth` (the source's `next_p1_depth` equals
`p1_depth - 1` for every twist its iteration yields). -/
def search_phase_1 (E : Engine) :
    Nat → SubsetCube → CosetCube → Nat → Option Twist → Option (List Twist)
  | 0, sub, cos, p2_depth, tw =>
    let c_prm := E.tw_c_prm sub.c_prm tw
    let e_slice_prm := E.tw_e_slice_prm sub.e_slice_prm cos.e_slice_loc tw
    let e_non_slice_prm := E.tw_e_non_slice_prm sub.e_non_slice_prm cos.e_slice_loc tw
    search_phase_2 E ⟨e_slice_prm, e_non_slice_prm, c_prm⟩ p2_depth
  | p1 + 1, sub, cos, p2_depth, tw =>
    let c_prm := E.tw_c_prm sub.c_prm tw
    let c_ori := E.tw_c_ori cos.c_ori tw
    if p1 + 1 + p2_depth < 9 ∧ p1 + 1 + p2_depth < E.dc (cornersCombinedIndex c_prm c_ori)
    then none
    else
      let e_ori := E.tw_e_ori cos.e_ori tw
      let e_slice_loc := E.tw_e_slice_loc cos.e_slice_loc tw
      let next_coset : CosetCube := ⟨c_ori, e_ori, e_slice_loc⟩
      if next_coset.in_subset then none
      else
        let coset_index := next_coset.index
        let subset_distance := E.d1 coset_index
        let twists := candidateTwists tw (p1 + 1) subset_distance
          (E.less coset_index) (E.more coset_index)
        if twists = 0 then none
        else
          let next_subset : SubsetCube :=
            ⟨E.tw_e_slice_prm sub.e_slice_prm cos.e_slice_loc tw,
             E.tw_e_non_slice_prm sub.e_non_slice_prm cos.e_slice_loc tw,
             c_prm⟩
          (Twists.iterList twists).findSome? (fun t2 =>
            (search_phase_1 E p1 next_subset next_coset p2_depth (some t2)).map
              (fun sol => t2 :: sol))

/-- `TwoPhaseSolver::solve`: try each phase-1 depth from the coset table
distance up to the budget, at the root with the `Twist::None` sentinel;
on exhaustion return the structured error. -/
def solve (E : Engine) (subset : SubsetCube) (coset : CosetCube)
    (max_solution_length : Nat) : Except String (List Twist) :=
  let subset_distance := E.d1 coset.index
  match (List.range' subset_distance (max_solution_length + 1 - subset_distance)).findSome?
      (fun p1_depth =>
        search_phase_1 E p1_depth subset coset (max_solution_length - p1_depth) none) with
  | some sol => Except.ok sol
  | none => Except.error "No solution found"

/-- The coset coordinate ranges (the comments of `cube.rs`). -/
def CosValid (c : CosetCube) : Prop :=
  c.c_ori < 2187 ∧ c.e_ori < 2048 ∧ c.e_slice_loc < 495

/-- The subset coordinate ranges plus the in-G1 permutation-parity
invariant `SubsetCube::from_index` decodes by. -/
def SubValid (s : SubsetCube) : Prop :=
  s.e_slice_prm < 24 ∧ s.e_non_slice_prm < 40320 ∧ s.c_prm < 40320 ∧
  is_even_permutation s.c_prm
    = ((is_even_permutation s.e_non_slice_prm).xor
        (is_even_permutation s.e_slice_prm)).xor true

/-- "The three pruning tables and the Twister are correctly built",
relative to an invariant `Inv` describing the coordinate states that
represent legal cubes (every scramble of the solved cube): the `None`
sentinel is the identity; `Inv` is closed under twisting, its members
carry in-range coset coordinates, and on the solved coset — that is,
inside G1 — its subset half satisfies the factored permutation-parity
identity the spec states for G1 and `SubsetCube::from_index` decodes by
(the identity deliberately is not assumed at other slice locations,
where the genuine cubie model does not preserve it); the phase-1
table's distance is `0` exactly on the solved coset with `less` listing
the distance-decreasing twists, `more` covering the distance-increasing
ones, and a one-step metric bound; the phase-2 table's distance is `0`
exactly on the solved G1 subset state and positive distances admit a
decreasing `h0` twist; and `h0` twists fix the solved coset. -/
structure EngineOK (E : Engine) (Inv : SubsetCube × CosetCube → Prop) : Prop where
  none_c_prm : ∀ x, E.tw_c_prm x none = x
  none_c_ori : ∀ x, E.tw_c_ori x none = x
  none_e_ori : ∀ x, E.tw_e_ori x none = x
  none_e_slice_prm : ∀ x loc, E.tw_e_slice_prm x loc none = x
  none_e_non_slice_prm : ∀ x loc, E.tw_e_non_slice_prm x loc none = x
  none_e_slice_loc : ∀ x, E.tw_e_slice_loc x none = x
  inv_step : ∀ p, Inv p → ∀ t : Twist, Inv (fullTwisted E p (some t))
  inv_cos : ∀ p, Inv p → CosValid p.2
  inv_g1 : ∀ s, Inv (s, CosetCube.solved) → SubValid s
  d1_zero : ∀ c, CosValid c → E.d1 c.index = 0 → c = CosetCube.solved
  d1_less : ∀ c (t : Twist), CosValid c →
    Twists.contains (E.less c.index) t = true →
    E.d1 (cosTwisted E c (some t)).index < E.d1 c.index
  d1_more : ∀ c (t : Twist), CosValid c →
    Twists.contains (E.more c.index) t = false →
    E.d1 (cosTwisted E c (some t)).index ≤ E.d1 c.index
  d1_step : ∀ c (t : Twist), CosValid c →
    E.d1 (cosTwisted E c (some t)).index ≤ E.d1 c.index + 1
  d2_zero : ∀ s, SubValid s → E.d2 s.index = 0 → s = SubsetCube.solved
  d2_desc : ∀ s, SubValid s → 0 < E.d2 s.index →
    ∃ t ∈ h0List, E.d2 (subsetTwistedP2 E s t).index < E.d2 s.index
  h0_fix : ∀ t ∈ h0List, cosTwisted E CosetCube.solved (some t) = CosetCube.solved

/-- A degenerate engine on which every hypothesis of `EngineOK` is
checkable by evaluation: every real twist jumps straight to the solved
coordinates, both distance tables are the indicator of the solved index,
`less` allows everything away from the origin and `more` nothing. -/
def trivEngine : Engine where
  tw_c_prm := fun x t => match t with | none => x | some _ => SubsetCube.solved.c_prm
  tw_c_ori := fun x t => match t with | none => x | some _ => CosetCube.solved.c_ori
  tw_e_ori := fun x t => match t with | none => x | some _ => CosetCube.solved.e_ori
  tw_e_slice_prm := fun x _ t =>
    match t with | none => x | some _ => SubsetCube.solved.e_slice_prm
  tw_e_non_slice_prm := fun x _ t =>
    match t with | none => x | some _ => SubsetCube.solved.e_non_slice_prm
  tw_e_slice_loc := fun x t => match t with | none => x | some _ => CosetCube.solved.e_slice_loc
  d1 := fun i => if i = CosetCube.solved.index then 0 else 1
  less := fun i => if i = CosetCube.solved.index then 0 else Twists.all
  more := fun _ => 0
  d2 := fun i => if i = SubsetCube.solved.index then 0 else 1
  dc := fun _ => 0

theorem subTwisted_none (E : Engine) {Inv : SubsetCube × CosetCube → Prop}
    (hE : EngineOK E Inv) (s : SubsetCube) (loc : Nat) :
    subTwisted E s loc none = s := by
  obtain ⟨a, b, c⟩ := s
  simp [subTwisted, hE.none_e_slice_prm, hE.none_e_non_slice_prm, hE.none_c_prm]

theorem cosTwisted_none (E : Engine) {Inv : SubsetCube × CosetCube → Prop}
    (hE : EngineOK E Inv) (c : CosetCube) :
    cosTwisted E c none = c := by
  obtain ⟨a, b, lo⟩ := c
  simp [cosTwisted, hE.none_c_ori, hE.none_e_ori, hE.none_e_slice_loc]

/-- The final state of the greedy descent is the fold of the emitted
twists over the start state. -/
theorem phase2Build_snd (E : Engine) :
    ∀ (fuel : Nat) (s : SubsetCube),
      (phase2Build E fuel s).2 = (phase2Build E fuel s).1.foldl (subsetTwistedP2 E) s := by
  intro fuel
  induction fuel with
  | zero => intro s; rfl
  | succ d ih =>
    intro s
    cases hf : h0List.find?
        (fun twist => E.d2 (subsetTwistedP2 E s twist).index < d + 1) with
    | none =>
      simp only [phase2Build, hf]
      exact ih s
    | some tw =>
      simp only [phase2Build, hf]
      rw [List.foldl_cons]
      exact ih (subsetTwistedP2 E s tw)

/-- Inside G1 an `h0` twist acts on the full state as the phase-2
`SubsetCube::twisted` on the subset half, the coset staying solved. -/
theorem fullTwisted_g1 (E : Engine)
    (hfix : ∀ t ∈ h0List, cosTwisted E CosetCube.solved (some t) = CosetCube.solved)
    (s : SubsetCube) (t : Twist) (ht : t ∈ h0List) :
    fullTwisted E (s, CosetCube.solved) (some t)
      = (subsetTwistedP2 E s t, CosetCube.solved) := by
  unfold fullTwisted
  rw [show cosTwisted E (s, CosetCube.solved).2 (some t) = CosetCube.solved from
    hfix t ht]
  rfl

/-- The greedy descent reaches a zero-distance state: if the distance is
within the fuel, the emitted list has at most `fuel` twists, all from
`h0`, and ends on a legal G1 state the phase-2 table maps to `0`. -/
theorem phase2Build_solves (E : Engine) {Inv : SubsetCube × CosetCube → Prop}
    (hE : EngineOK E Inv) :
    ∀ (fuel : Nat) (s : SubsetCube), Inv (s, CosetCube.solved) → E.d2 s.index ≤ fuel →
      (phase2Build E fuel s).1.length ≤ fuel ∧
      (∀ t ∈ (phase2Build E fuel s).1, t ∈ h0List) ∧
      Inv ((phase2Build E fuel s).2, CosetCube.solved) ∧
      E.d2 (phase2Build E fuel s).2.index = 0 := by
  intro fuel
  induction fuel with
  | zero =>
    intro s hs hd
    exact ⟨Nat.le_refl 0, by simp [phase2Build], hs,
      by rw [show (phase2Build E 0 s).2 = s from rfl]; omega⟩
  | succ d ih =>
    intro s hs hd
    cases hf : h0List.find?
        (fun twist => E.d2 (subsetTwistedP2 E s twist).index < d + 1) with
    | none =>
      have hds : E.d2 s.index ≤ d := by
        by_contra hgt
        have hpos : 0 < E.d2 s.index := by omega
        obtain ⟨t, htmem, htlt⟩ := hE.d2_desc s (hE.inv_g1 s hs) hpos
        have hnone := List.find?_eq_none.mp hf t htmem
        simp only [decide_eq_true_eq] at hnone
        omega
      obtain ⟨h1, h2, h3, h4⟩ := ih s hs hds
      refine ⟨?_, ?_, ?_, ?_⟩ <;> simp only [phase2Build, hf]
      · omega
      · exact h2
      · exact h3
      · exact h4
    | some tw =>
      have htmem : tw ∈ h0List := List.mem_of_find?_eq_some hf
      have htlt : E.d2 (subsetTwistedP2 E s tw).index < d + 1 := by
        have := List.find?_some hf
        simpa using this
      have hvnext : Inv (subsetTwistedP2 E s tw, CosetCube.solved) := by
        have hstep := hE.inv_step (s, CosetCube.solved) hs tw
        rw [fullTwisted_g1 E hE.h0_fix s tw htmem] at hstep
        exact hstep
      obtain ⟨h1, h2, h3, h4⟩ := ih (subsetTwistedP2 E s tw) hvnext (by omega)
      refine ⟨?_, ?_, ?_, ?_⟩ <;> simp only [phase2Build, hf]
      · simpa using h1
      · intro t ht
        rcases List.mem_cons.mp ht with rfl | ht'
        · exact htmem
        · exact h2 t ht'
      · exact h3
      · exact h4

/-- `search_phase_2` soundness: a success emits at most `depth` twists,
all from `h0`, whose fold solves the subset state. -/
theorem search_phase_2_spec (E : Engine) {Inv : SubsetCube × CosetCube → Prop}
    (hE : EngineOK E Inv) (s : SubsetCube)
    (hs : Inv (s, CosetCube.solved)) (depth : Nat) :
    ∀ l, search_phase_2 E s depth = some l →
      l.length ≤ depth ∧ (∀ t ∈ l, t ∈ h0List) ∧
      l.foldl (subsetTwistedP2 E) s = SubsetCube.solved := by
  intro l hl
  unfold search_phase_2 at hl
  dsimp only at hl
  split_ifs at hl with hsd
  obtain ⟨rfl⟩ : (phase2Build E (E.d2 s.index) s).1 = l := by
    injection hl
  obtain ⟨h1, h2, h3, h4⟩ :=
    phase2Build_solves E hE (E.d2 s.index) s hs (Nat.le_refl _)
  refine ⟨by omega, h2, ?_⟩
  rw [← phase2Build_snd]
  exact hE.d2_zero _ (hE.inv_g1 _ h3) h4

/-- Walking `h0` twists from a state whose coset part is solved keeps
the coset solved and acts on the subset part as the phase-2 fold. -/
theorem walkFull_phase2 (E : Engine)
    (hfix : ∀ t ∈ h0List, cosTwisted E CosetCube.solved (some t) = CosetCube.solved) :
    ∀ (l : List Twist), (∀ t ∈ l, t ∈ h0List) → ∀ s : SubsetCube,
      walkFull E (s, CosetCube.solved) l
        = (l.foldl (subsetTwistedP2 E) s, CosetCube.solved) := by
  intro l
  induction l with
  | nil => intro _ s; rfl
  | cons t l ih =>
    intro hmem s
    have ht : t ∈ h0List := hmem t (by simp)
    show walkFull E (fullTwisted E (s, CosetCube.solved) (some t)) l = _
    rw [fullTwisted_g1 E hfix s t ht,
      ih (fun t' ht' => hmem t' (by simp [ht'])) (subsetTwistedP2 E s t),
      List.foldl_cons]

theorem twist_idx_lt (t : Twist) : t.idx < 18 := by cases t <;> decide

theorem u32_ones_testBit : ∀ j < 32, (0xFFFFFFFF : Nat).testBit j = true := by decide

theorem testBit_u32not (m j : Nat) (hj : j < 32) :
    (u32not m).testBit j = ! m.testBit j := by
  unfold u32not
  rw [Nat.testBit_xor, u32_ones_testBit j hj]
  cases m.testBit j <;> rfl

/-- When the remaining depth equals the table distance, the `keep_only`
restriction leaves only twists of the `less` set. -/
theorem contains_candidate_less (prev : Option Twist) (sd less more : Nat) (t : Twist)
    (h : Twists.contains (candidateTwists prev sd sd less more) t = true) :
    Twists.contains less t = true := by
  unfold candidateTwists at h
  dsimp only at h
  rw [if_pos rfl] at h
  unfold Twists.contains at h ⊢
  by_cases h1 : sd = 1
  · rw [if_pos h1] at h
    simp only [Nat.testBit_land, Bool.and_eq_true] at h
    exact h.1.2
  · rw [if_neg h1] at h
    simp only [Nat.testBit_land, Bool.and_eq_true] at h
    exact h.2

/-- When the remaining depth exceeds the table distance by one, the
`unset_twists` restriction removes every twist of the `more` set. -/
theorem contains_candidate_notmore (prev : Option Twist) (p1d sd less more : Nat)
    (t : Twist) (hne : p1d ≠ sd) (hsd : p1d = sd + 1)
    (h : Twists.contains (candidateTwists prev p1d sd less more) t = true) :
    Twists.contains more t = false := by
  unfold candidateTwists at h
  dsimp only at h
  rw [if_neg hne, if_pos hsd] at h
  unfold Twists.contains at h ⊢
  have hnot : (u32not more).testBit t.idx = ! more.testBit t.idx :=
    testBit_u32not more t.idx (by have := twist_idx_lt t; omega)
  by_cases h1 : p1d = 1
  · rw [if_pos h1] at h
    simp only [Nat.testBit_land, Bool.and_eq_true] at h
    have h2 := h.1.2
    rw [hnot] at h2
    cases hm : more.testBit t.idx
    · rfl
    · rw [hm] at h2; exact absurd h2 (by decide)
  · rw [if_neg h1] at h
    simp only [Nat.testBit_land, Bool.and_eq_true] at h
    have h2 := h.2
    rw [hnot] at h2
    cases hm : more.testBit t.idx
    · rfl
    · rw [hm] at h2; exact absurd h2 (by decide)

/-- Soundness of `search_phase_1`: a success under the gap invariant
(`phase_1.distance` of the post-twist coset at most the remaining
phase-1 depth) yields a twist sequence, at most as long as the two
depth budgets combined, that walks the post-twist state to the solved
cube. -/
theorem search_phase_1_sound (E : Engine) {Inv : SubsetCube × CosetCube → Prop}
    (hE : EngineOK E Inv) :
    ∀ (p1 : Nat) (sub : SubsetCube) (cos : CosetCube) (p2 : Nat) (tw : Option Twist)
      (l : List Twist),
      Inv (subTwisted E sub cos.e_slice_loc tw, cosTwisted E cos tw) →
      E.d1 (cosTwisted E cos tw).index ≤ p1 →
      search_phase_1 E p1 sub cos p2 tw = some l →
      l.length ≤ p1 + p2 ∧
      walkFull E (subTwisted E sub cos.e_slice_loc tw, cosTwisted E cos tw) l
        = (SubsetCube.solved, CosetCube.solved) := by
  intro p1
  induction p1 with
  | zero =>
    intro sub cos p2 tw l hInvP hd1 hsome
    have hcv : CosValid (cosTwisted E cos tw) :=
      hE.inv_cos (subTwisted E sub cos.e_slice_loc tw, cosTwisted E cos tw) hInvP
    have hsome' : search_phase_2 E (subTwisted E sub cos.e_slice_loc tw) p2 = some l :=
      hsome
    have hcs : cosTwisted E cos tw = CosetCube.solved := hE.d1_zero _ hcv (by omega)
    rw [hcs] at hInvP
    obtain ⟨hlen, hmem, hfold⟩ :=
      search_phase_2_spec E hE (subTwisted E sub cos.e_slice_loc tw) hInvP p2 l hsome'
    refine ⟨by omega, ?_⟩
    rw [hcs, walkFull_phase2 E hE.h0_fix l hmem _, hfold]
  | succ p1 ih =>
    intro sub cos p2 tw l hInvP hd1 hsome
    have hcv : CosValid (cosTwisted E cos tw) :=
      hE.inv_cos (subTwisted E sub cos.e_slice_loc tw, cosTwisted E cos tw) hInvP
    have hsome' : (if p1 + 1 + p2 < 9 ∧ p1 + 1 + p2 < E.dc (cornersCombinedIndex
            (E.tw_c_prm sub.c_prm tw) (E.tw_c_ori cos.c_ori tw)) then
          none
        else if (cosTwisted E cos tw).in_subset then none
        else if candidateTwists tw (p1 + 1) (E.d1 (cosTwisted E cos tw).index)
            (E.less (cosTwisted E cos tw).index) (E.more (cosTwisted E cos tw).index)
            = 0 then none
        else
          (Twists.iterList (candidateTwists tw (p1 + 1)
              (E.d1 (cosTwisted E cos tw).index)
              (E.less (cosTwisted E cos tw).index)
              (E.more (cosTwisted E cos tw).index))).findSome? (fun t2 =>
            (search_phase_1 E p1 (subTwisted E sub cos.e_slice_loc tw)
                (cosTwisted E cos tw) p2 (some t2)).map (fun sol => t2 :: sol)))
        = some l := hsome
    split_ifs at hsome' with hcut hsubcut hzero <;>
      try exact Option.noConfusion hsome'
    obtain ⟨t2, ht2mem, hf⟩ := List.exists_of_findSome?_eq_some hsome'
    rw [Option.map_eq_some'] at hf
    obtain ⟨sol, hrec, hcons⟩ := hf
    have hcont : Twists.contains (candidateTwists tw (p1 + 1)
        (E.d1 (cosTwisted E cos tw).index)
        (E.less (cosTwisted E cos tw).index)
        (E.more (cosTwisted E cos tw).index)) t2 = true :=
      (List.mem_filter.mp ht2mem).2
    have hd1c : E.d1 (cosTwisted E (cosTwisted E cos tw) (some t2)).index ≤ p1 := by
      by_cases hc1 : p1 + 1 = E.d1 (cosTwisted E cos tw).index
      · rw [hc1] at hcont
        have hlt := hE.d1_less (cosTwisted E cos tw) t2 hcv
          (contains_candidate_less tw _ _ _ t2 hcont)
        omega
      · by_cases hc2 : p1 + 1 = E.d1 (cosTwisted E cos tw).index + 1
        · have hle := hE.d1_more (cosTwisted E cos tw) t2 hcv
            (contains_candidate_notmore tw (p1 + 1) _ _ _ t2 hc1 hc2 hcont)
          omega
        · have hstep := hE.d1_step (cosTwisted E cos tw) t2 hcv
          omega
    obtain ⟨hlen, hwalk⟩ := ih (subTwisted E sub cos.e_slice_loc tw)
      (cosTwisted E cos tw) p2 (some t2) sol
      (hE.inv_step (subTwisted E sub cos.e_slice_loc tw, cosTwisted E cos tw)
        hInvP t2) hd1c hrec
    subst hcons
    refine ⟨by simp only [List.length_cons]; omega, ?_⟩
    show walkFull E (fullTwisted E (subTwisted E sub cos.e_slice_loc tw,
        cosTwisted E cos tw) (some t2)) sol = (SubsetCube.solved, CosetCube.solved)
    exact hwalk

/-- Claim C1: for every input coordinate pair that represents a cube
(a member of any invariant `Inv` of legal states — e.g. the scrambles of
the solved cube) and every budget, assuming the three pruning tables and
the Twister are correctly built (`EngineOK E Inv`),
`TwoPhaseSolver::solve` either returns `Ok` with a sequence of at most
`max_solution_length` twists whose application in order via the Twister
maps the input cube to the solved cube, or returns the structured error
`"No solution found"` after exhausting every phase-1 depth up to the
budget; one of the two always happens, so it never returns silently,
and never with an unsolving sequence. -/
theorem c1_solver_soundness (E : Engine) (Inv : SubsetCube × CosetCube → Prop)
    (hE : EngineOK E Inv)
    (subset : SubsetCube) (coset : CosetCube) (max_solution_length : Nat)
    (hInv : Inv (subset, coset)) :
    (∀ l, solve E subset coset max_solution_length = Except.ok l →
      l.length ≤ max_solution_length ∧
      walkFull E (subset, coset) l = (SubsetCube.solved, CosetCube.solved)) ∧
    (solve E subset coset max_solution_length = Except.error "No solution found" ∨
      ∃ l, solve E subset coset max_solution_length = Except.ok l) := by
  have hsolve : solve E subset coset max_solution_length
      = match (List.range' (E.d1 coset.index)
            (max_solution_length + 1 - E.d1 coset.index)).findSome?
            (fun p1_depth =>
              search_phase_1 E p1_depth subset coset
                (max_solution_length - p1_depth) none) with
        | some sol => Except.ok sol
        | none => Except.error "No solution found" := rfl
  constructor
  · intro l hok
    rw [hsolve] at hok
    cases hfs : (List.range' (E.d1 coset.index)
        (max_solution_length + 1 - E.d1 coset.index)).findSome?
        (fun p1_depth =>
          search_phase_1 E p1_depth subset coset
            (max_solution_length - p1_depth) none) with
    | none =>
      rw [hfs] at hok
      exact Except.noConfusion hok
    | some sol =>
      rw [hfs] at hok
      have hls : sol = l := by
        injection hok
      subst hls
      obtain ⟨p1d, hp1mem, hrec⟩ := List.exists_of_findSome?_eq_some hfs
      obtain ⟨i, hilen, hieq⟩ := List.mem_range'.mp hp1mem
      have hsd : E.d1 coset.index ≤ p1d := by omega
      have hmax : p1d ≤ max_solution_length := by omega
      have h1 : Inv (subTwisted E subset coset.e_slice_loc none,
          cosTwisted E coset none) := by
        rw [subTwisted_none E hE, cosTwisted_none E hE]; exact hInv
      have h3 : E.d1 (cosTwisted E coset none).index ≤ p1d := by
        rw [cosTwisted_none E hE]; omega
      obtain ⟨hlen, hwalk⟩ := search_phase_1_sound E hE p1d subset coset
        (max_solution_length - p1d) none sol h1 h3 hrec
      refine ⟨by omega, ?_⟩
      rw [subTwisted_none E hE, cosTwisted_none E hE] at hwalk
      exact hwalk
  · rw [hsolve]
    cases hfs : (List.range' (E.d1 coset.index)
        (max_solution_length + 1 - E.d1 coset.index)).findSome?
        (fun p1_depth =>
          search_phase_1 E p1_depth subset coset
            (max_solution_length - p1_depth) none) with
    | none => exact Or.inl rfl
    | some sol => exact Or.inr ⟨sol, rfl⟩

/-- The degenerate engine satisfies every `EngineOK` hypothesis, with
the legal-state invariant instantiated as "in-range coordinates with the
G1 parity identity" (its twists never leave the solved state, so the
invariant is closed). -/
theorem trivEngine_ok :
    EngineOK trivEngine (fun p => SubValid p.1 ∧ CosValid p.2) := by
  refine ⟨?_, ?_, ?_, ?_, ?_, ?_, ?_, ?_, ?_, ?_, ?_, ?_, ?_, ?_, ?_, ?_⟩
  · intro x; rfl
  · intro x; rfl
  · intro x; rfl
  · intro x loc; rfl
  · intro x loc; rfl
  · intro x; rfl
  · intro p _ t
    have he : fullTwisted trivEngine p (some t)
        = (SubsetCube.solved, CosetCube.solved) := rfl
    rw [he]
    exact ⟨⟨by decide, by decide, by decide, by decide⟩,
      ⟨by decide, by decide, by decide⟩⟩
  · intro p hp
    exact hp.2
  · intro s hs
    exact hs.1
  · intro c hv h
    show c = CosetCube.solved
    have hif : (if c.index = CosetCube.solved.index then 0 else 1) = 0 := h
    split_ifs at hif with hc
    · obtain ⟨co, eo, lo⟩ := c
      obtain ⟨h1, h2, h3⟩ := hv
      have hidx : co * (Edges.E_ORI_SIZE * Edges.SLICE_LOC_SIZE)
          + eo * Edges.SLICE_LOC_SIZE + lo = CosetCube.solved.index := hc
      have hsz : Edges.E_ORI_SIZE * Edges.SLICE_LOC_SIZE = 1013760 := rfl
      have hsz2 : Edges.SLICE_LOC_SIZE = 495 := rfl
      have hsolved : CosetCube.solved.index = 494 := by decide
      rw [hsz, hsz2, hsolved] at hidx
      have h1' : co < 2187 := h1
      have h2' : eo < 2048 := h2
      have h3' : lo < 495 := h3
      have : co = 0 ∧ eo = 0 ∧ lo = 494 := by omega
      obtain ⟨rfl, rfl, rfl⟩ := this
      decide
  · intro c t hv hcont
    show trivEngine.d1 (cosTwisted trivEngine c (some t)).index < trivEngine.d1 c.index
    have hct : cosTwisted trivEngine c (some t) = CosetCube.solved := rfl
    rw [hct]
    have h0 : trivEngine.d1 CosetCube.solved.index = 0 := by
      show (if CosetCube.solved.index = CosetCube.solved.index then 0 else 1) = 0
      rw [if_pos rfl]
    rw [h0]
    show 0 < (if c.index = CosetCube.solved.index then 0 else 1)
    split_ifs with hc
    · have hless0 : trivEngine.less c.index = 0 := by
        show (if c.index = CosetCube.solved.index then 0 else Twists.all) = 0
        rw [if_pos hc]
      rw [hless0] at hcont
      simp [Twists.contains] at hcont
    · omega
  · intro c t _ _
    have hct : cosTwisted trivEngine c (some t) = CosetCube.solved := rfl
    rw [hct]
    have h0 : trivEngine.d1 CosetCube.solved.index = 0 := by
      show (if CosetCube.solved.index = CosetCube.solved.index then 0 else 1) = 0
      rw [if_pos rfl]
    rw [h0]
    exact Nat.zero_le _
  · intro c t _
    have hct : cosTwisted trivEngine c (some t) = CosetCube.solved := rfl
    rw [hct]
    have h0 : trivEngine.d1 CosetCube.solved.index = 0 := by
      show (if CosetCube.solved.index = CosetCube.solved.index then 0 else 1) = 0
      rw [if_pos rfl]
    rw [h0]
    exact Nat.zero_le _
  · intro s hv h
    show s = SubsetCube.solved
    have hif : (if s.index = SubsetCube.solved.index then 0 else 1) = 0 := h
    split_ifs at hif with hc
    · obtain ⟨sp, nsp, cp⟩ := s
      obtain ⟨h1, h2, h3, h4⟩ := hv
      have hidx : cp / 2 * Edges.SLICE_PRM_SIZE * Edges.NON_SLICE_PRM_SIZE
          + nsp * Edges.SLICE_PRM_SIZE + sp = SubsetCube.solved.index := hc
      have hsz : Edges.SLICE_PRM_SIZE = 24 := rfl
      have hsz2 : Edges.NON_SLICE_PRM_SIZE = 40320 := rfl
      have hsolved : SubsetCube.solved.index = 0 := by decide
      rw [hsz, hsz2, hsolved] at hidx
      have h1' : sp < 24 := h1
      have h2' : nsp < 40320 := h2
      have hz : sp = 0 ∧ nsp = 0 ∧ cp / 2 = 0 := by omega
      obtain ⟨rfl, rfl, hcp⟩ := hz
      have hpar : is_even_permutation cp
          = ((is_even_permutation 0).xor (is_even_permutation 0)).xor true := h4
      have hcp1 : cp < 2 := by omega
      interval_cases cp
      · decide
      · exact absurd hpar (by decide)
  · intro s _ hpos
    refine ⟨Twist.L2, by decide, ?_⟩
    have h1 : subsetTwistedP2 trivEngine s Twist.L2 = SubsetCube.solved := rfl
    rw [h1]
    have h0 : trivEngine.d2 SubsetCube.solved.index = 0 := by
      show (if SubsetCube.solved.index = SubsetCube.solved.index then 0 else 1) = 0
      rw [if_pos rfl]
    rw [h0]
    exact hpos
  · intro t _
    rfl

/-- Claim C1 witness: the theorem applied to the degenerate engine at
the solved input with budget `0`, where the solver returns `Ok []`. -/
theorem c1_solver_soundness_witness :
    (SubValid SubsetCube.solved ∧ CosValid CosetCube.solved) ∧
    (∀ l, solve trivEngine SubsetCube.solved CosetCube.solved 0 = Except.ok l →
      l.length ≤ 0 ∧
      walkFull trivEngine (SubsetCube.solved, CosetCube.solved) l
        = (SubsetCube.solved, CosetCube.solved)) :=
  ⟨⟨⟨by decide, by decide, by decide, by decide⟩, ⟨by decide, by decide, by decide⟩⟩,
    (c1_solver_soundness trivEngine (fun p => SubValid p.1 ∧ CosValid p.2)
      trivEngine_ok SubsetCube.solved CosetCube.solved 0
      ⟨⟨by decide, by decide, by decide, by decide⟩,
        ⟨by decide, by decide, by decide⟩⟩).1⟩

/-- Claim C5 witness: the amended theorem applied at `prm = 0`,
`ori = 1`. -/
theorem c5_signed_orientation_sum_witness :
    (0 : Nat) < 40320 ∧ (1 : Nat) < 2187 ∧
    ((Corners.from_index 0 1).orientations.getD 0 0
      + 2 * (Corners.from_index 0 1).orientations.getD 1 0
      + 2 * (Corners.from_index 0 1).orientations.getD 2 0
      + (Corners.from_index 0 1).orientations.getD 3 0
      + 2 * (Corners.from_index 0 1).orientations.getD 4 0
      + (Corners.from_index 0 1).orientations.getD 5 0
      + (Corners.from_index 0 1).orientations.getD 6 0
      + 2 * (Corners.from_index 0 1).orientations.getD 7 0) % 3 = 0 :=
  ⟨by decide, by decide, c5_signed_orientation_sum 0 1 (by decide) (by decide)⟩

end RubiksCube
